import Mathlib

/-!
# Backup coordinator and HNSW index of the vector database

A shallow embedding of

* `adapters/repos/db/backup.go` : the per-index backup state machine
  (`initBackup`, `ReleaseBackup`, `resetBackupState`, `ShardsBackup`);
* `adapters/repos/db/vector/hnsw/index.go` : the HNSW insert pipeline, the layer
  search and the commit records emitted along the way.

Stateful Go code is written as explicit state passing.  A call that can return an error
returns the state together with an optional error; a call that can crash (index out of
range, nil dereference) has a separate outcome.
-/

set_option linter.unusedVariables false
set_option linter.unusedSectionVars false

namespace Backup

/-! ## Data model of `backup.go` -/

/-- Go: `type BackupState struct { BackupID string; InProgress bool }`. -/
structure BackupState where
  BackupID : String
  InProgress : Bool
deriving DecidableEq, Repr

/-- Go: `backup.ShardDescriptor`; only the name given at construction and the part filled in
by `listBackupFiles` are visible in `backup.go`. -/
structure ShardDescriptor where
  Name : String
  Files : List String
deriving DecidableEq, Repr

/-- Go: `backup.ClassDescriptor`, the fields written by `backup.go`. -/
structure ClassDescriptor where
  Name : String
  Shards : List ShardDescriptor
  ShardingState : List Nat
  Schema : List Nat
deriving DecidableEq, Repr

/-- A shard as `backup.go` consumes it: its name and the outcome of the three calls the backup
code makes on it.  `beginBackup`, `listBackupFiles` and `resumeMaintenanceCycles` live outside
`backup.go`; their outcome is data of the environment. `listBackupFiles` receives the
descriptor and fills it in place. -/
structure Shard where
  name : String
  beginBackup : Option String
  listBackupFiles : ShardDescriptor → Except String ShardDescriptor
  resumeMaintenanceCycles : Option String

/-- The part of Go's `Index` used by the backup code: the backup state, the shard map
(`idx.shards`, in the order `ForEachShard` visits it) and the outcome of marshalling. -/
structure Index where
  backupState : BackupState
  shards : List (String × Shard)
  marshalShardingState : Except String (List Nat)
  marshalSchema : Except String (List Nat)

/-- Effects the backup code has on its collaborators, in the order they happen. -/
inductive Event where
  | beginBackup (shard : String)
  | listBackupFiles (shard : String)
  | releaseBackup (id : String)
deriving DecidableEq, Repr

/-- Go: `idx.shards.Load(shardName)`. -/
def Index.loadShard (i : Index) (shardName : String) : Option Shard :=
  i.shards.lookup shardName

/-! ## `initBackup`, `resetBackupState`, `ReleaseBackup` -/

/-- Go: `func (i *Index) initBackup(id string) error`.  Returns the index after the call and
the error (`none` is Go's `nil`). -/
def Index.initBackup (i : Index) (id : String) : Index × Option String :=
  if i.backupState.InProgress then
    (i, some ("cannot create new backup, backup " ++ i.backupState.BackupID ++
      " is not yet released, this means its contents have not yet been fully copied to " ++
      "its destination, try again later"))
  else
    ({ i with backupState := { BackupID := id, InProgress := true } }, none)

/-- Go: `func (i *Index) resetBackupState()`: `i.backupState = BackupState{InProgress: false}`,
so `BackupID` gets the zero value `""`. -/
def Index.resetBackupState (i : Index) : Index :=
  { i with backupState := { BackupID := "", InProgress := false } }

/-- Go: `func (i *Index) resumeMaintenanceCycles(ctx) error`.  Every shard is resumed in an
errgroup; `g.Wait()` yields an error iff some shard failed (here: the first one in shard
order), wrapped with "resume maintenance cycles". -/
def Index.resumeMaintenanceCycles (i : Index) : Option String :=
  match i.shards.filterMap (fun p => p.2.resumeMaintenanceCycles) with
  | [] => none
  | e :: _ => some ("resume maintenance cycles: " ++ e)

/-- Go: `func (i *Index) ReleaseBackup(ctx, id string) error`.
`defer i.resetBackupState()` runs on every return path; the argument `id` is not read. -/
def Index.ReleaseBackup (i : Index) (id : String) : Index × Option String :=
  match i.resumeMaintenanceCycles with
  | some err => (i.resetBackupState, some err)
  | none => (i.resetBackupState, none)

/-! ## `ShardsBackup` -/

/-- Outcome of a call that may spawn `go idx.ReleaseBackup(ctx, bakID)` in its deferred
function. `idx` is the index when the call returns, `spawned` the backup ids for which a
release goroutine was started, `events` the calls made on shards. -/
structure BackupResult where
  cd : ClassDescriptor
  err : Option String
  idx : Option Index
  spawned : List String
  events : List Event

/-- The index once every spawned `ReleaseBackup` goroutine has run. -/
def BackupResult.settled (r : BackupResult) : Option Index :=
  r.idx.map (fun i => r.spawned.foldl (fun j id => (j.ReleaseBackup id).1) i)

/-- First loop of `ShardsBackup`: `for _, shardName := range shards { shard := Load; if nil
return error; sm[shardName] = shard }`. Returns the name of the first unknown shard, or the
map `sm` (as an association list, later entries for the same name overwrite earlier ones). -/
def collectShards (i : Index) : List String → Except String (List (String × Shard))
  | [] => .ok []
  | shardName :: rest =>
    match i.loadShard shardName with
    | none => .error shardName
    | some shard =>
      match collectShards i rest with
      | .error e => .error e
      | .ok sm => .ok ((shardName, shard) :: sm.filter (fun p => p.1 != shardName))

/-- Second loop of `ShardsBackup`: `for shardName, shard := range sm { beginBackup;
listBackupFiles; append }`, over the map in iteration order `order`. Returns the events, the
shard descriptors appended to `cd.Shards` so far, and the error that ended the loop, if any. -/
def backupShards (class_ : String) (sm : List (String × Shard)) :
    List String → List Event × List ShardDescriptor × Option String
  | [] => ([], [], none)
  | shardName :: rest =>
    match sm.lookup shardName with
    | none => backupShards class_ sm rest
    | some shard =>
      match shard.beginBackup with
      | some e =>
        ([Event.beginBackup shardName], [],
          some ("class " ++ class_ ++ ": shard " ++ shardName ++ ": begin backup: " ++ e))
      | none =>
        match shard.listBackupFiles { Name := shardName, Files := [] } with
        | .error e =>
          ([Event.beginBackup shardName, Event.listBackupFiles shardName], [],
            some ("class " ++ class_ ++ ": shard " ++ shardName ++
              ": list backup files: " ++ e))
        | .ok sd =>
          match backupShards class_ sm rest with
          | (evs, sds, err) =>
            (Event.beginBackup shardName :: Event.listBackupFiles shardName :: evs,
              sd :: sds, err)

/-- Go: `func (db *DB) ShardsBackup(ctx, bakID, class string, shards []string)
(_ backup.ClassDescriptor, err error)`.  `getIndex` is the result of `db.GetIndex(class)`;
`order` is the order in which Go's `range sm` visits the keys of the map `sm`.
The deferred function is registered after `initBackup` succeeded and spawns
`idx.ReleaseBackup(ctx, bakID)` whenever the named result `err` is non-nil. -/
def ShardsBackup (getIndex : Option Index) (bakID class_ : String) (shards : List String)
    (order : List String) : BackupResult :=
  let cd : ClassDescriptor := { Name := class_, Shards := [], ShardingState := [], Schema := [] }
  match getIndex with
  | none =>
    { cd := cd, err := some ("no index for class " ++ class_), idx := none, spawned := [],
      events := [] }
  | some idx0 =>
    match idx0.initBackup bakID with
    | (idx, some e) =>
      { cd := cd, err := some ("init backup state for class " ++ class_ ++ ": " ++ e),
        idx := some idx, spawned := [], events := [] }
    | (idx, none) =>
      match collectShards idx shards with
      | .error shardName =>
        { cd := cd, err := some ("no shard " ++ shardName ++ " for class " ++ class_),
          idx := some idx, spawned := [bakID], events := [Event.releaseBackup bakID] }
      | .ok sm =>
        match backupShards class_ sm order with
        | (evs, sds, some e) =>
          { cd := { cd with Shards := sds }, err := some e, idx := some idx,
            spawned := [bakID], events := evs ++ [Event.releaseBackup bakID] }
        | (evs, sds, none) =>
          { cd := { cd with Shards := sds }, err := none, idx := some idx, spawned := [],
            events := evs }

/-! ## `descriptor` -/

/-- The callback `descriptor` hands to `ForEachShard`, run over the shards: `beginBackup`,
then `listBackupFiles` into a zero-valued `ddesc`, then `desc.Shards = append(desc.Shards,
ddesc)`. `ForEachShard` itself is not part of the sources; it is taken to call the callback
on every shard in turn and to stop at the first error, which it returns. Returns the events,
`desc.Shards` as it stands at the end, and that error, if any. -/
def descriptorShards :
    List (String × Shard) → List ShardDescriptor →
      List Event × List ShardDescriptor × Option String
  | [], acc => ([], acc, none)
  | (name, s) :: rest, acc =>
    match s.beginBackup with
    | some e => ([Event.beginBackup name], acc, some ("pause compaction and flush: " ++ e))
    | none =>
      match s.listBackupFiles { Name := "", Files := [] } with
      | .error e =>
        ([Event.beginBackup name, Event.listBackupFiles name], acc,
          some ("list shard " ++ s.name ++ " files: " ++ e))
      | .ok ddesc =>
        match descriptorShards rest (acc ++ [ddesc]) with
        | (evs, acc', err) =>
          (Event.beginBackup name :: Event.listBackupFiles name :: evs, acc', err)

/-- Go: `func (i *Index) descriptor(ctx, backupID string, desc *backup.ClassDescriptor)
(err error)`. `desc` is the descriptor the pointer refers to; the result carries it as the
call leaves it. The deferred function is registered after `initBackup` succeeded and spawns
`i.ReleaseBackup(ctx, backupID)` whenever the named result `err` is non-nil. -/
def Index.descriptor (i : Index) (backupID : String) (desc : ClassDescriptor) : BackupResult :=
  match i.initBackup backupID with
  | (idx, some e) =>
    { cd := desc, err := some e, idx := some idx, spawned := [], events := [] }
  | (idx, none) =>
    match descriptorShards idx.shards desc.Shards with
    | (evs, shards, some e) =>
      { cd := { desc with Shards := shards }, err := some e, idx := some idx,
        spawned := [backupID], events := evs ++ [Event.releaseBackup backupID] }
    | (evs, shards, none) =>
      match idx.marshalShardingState with
      | .error e =>
        { cd := { desc with Shards := shards, ShardingState := [] },
          err := some ("marshal sharding state " ++ e), idx := some idx,
          spawned := [backupID], events := evs ++ [Event.releaseBackup backupID] }
      | .ok st =>
        match idx.marshalSchema with
        | .error e =>
          { cd := { desc with Shards := shards, ShardingState := st, Schema := [] },
            err := some ("marshal schema " ++ e), idx := some idx,
            spawned := [backupID], events := evs ++ [Event.releaseBackup backupID] }
        | .ok sc =>
          { cd := { desc with Shards := shards, ShardingState := st, Schema := sc },
            err := none, idx := some idx, spawned := [], events := evs }

/-! ## Sequences of calls on one index -/

/-- A call on the backup state of one index. A `release` call carries the shards as they are
when it runs, so that resuming maintenance may succeed or fail independently in every call. -/
inductive Call where
  | init (id : String)
  | release (id : String) (shards : List (String × Shard))

/-- Whether the call is a `ReleaseBackup`. -/
def Call.isRelease : Call → Bool
  | Call.init _ => false
  | Call.release _ _ => true

/-- One call: the index after it and the error it returned. -/
def step (i : Index) : Call → Index × Option String
  | Call.init id => i.initBackup id
  | Call.release id shards => Index.ReleaseBackup { i with shards := shards } id

/-- The index after a sequence of calls, made one after the other. -/
def run (i : Index) : List Call → Index
  | [] => i
  | c :: cs => run (step i c).1 cs

/-- Every step on the shard named `s` succeeds: it is known, `beginBackup` returns nil and
`listBackupFiles` fills the descriptor `sd`. -/
def StepsOk (load : String → Option Shard) (s : String) (sd : ShardDescriptor) : Prop :=
  ∃ sh, load s = some sh ∧ sh.beginBackup = none ∧
    sh.listBackupFiles { Name := s, Files := [] } = .ok sd

/-- An index with one shard on which every call succeeds, idle. -/
def sampleIndex : Index :=
  { backupState := { BackupID := "", InProgress := false }
    shards := [("s1", { name := "s1", beginBackup := none,
                        listBackupFiles := fun sd => .ok { sd with Files := ["f1"] },
                        resumeMaintenanceCycles := none })]
    marshalShardingState := .ok []
    marshalSchema := .ok [] }

end Backup

namespace Hnsw

/-! ## Data model of `hnsw/index.go` -/

/-- Go: `const importLimit = 10000`. -/
def importLimit : Nat := 10000

/-- Values of Go's `uint32`. -/
abbrev U32 : Type := Fin 4294967296

/-- Go conversion `uint32(x)` of an `int`: reduction modulo `2^32`. -/
def uint32 (x : Int) : U32 := ⟨(x % 4294967296).toNat, by omega⟩

/-- Go conversion `int32(x)` of an `int`: wrap into `[-2^31, 2^31)`. -/
def int32 (x : Int) : Int := (x + 2147483648) % 4294967296 - 2147483648

/-- Go: `type hnswVertex struct { id int; level int; connections map[int][]uint32 }`.
A Go map read at an absent key yields the nil slice, so the map is a total function with
value `[]` away from its keys. -/
structure hnswVertex where
  id : Int
  level : Int
  connections : Int → List U32

/-- Commit records written through `hnswCommitLogger`: `AddNode(node)`,
`AddLinkAtLevel(id, level, target)`, `ReplaceLinksAtLevel(id, level, links)`,
`SetEntryPointWithMaxLayer(id, level)`. -/
inductive CommitRecord where
  | AddNode (id : Int) (level : Int)
  | AddLink (node : Int) (level : Int) (neighbor : U32)
  | ReplaceLinks (node : Int) (level : Int) (neighbors : List U32)
  | SetEntry (id : Int) (maxLayer : Int)
deriving DecidableEq, Repr

/-- Go: `type hnsw struct`.  `nodes` is a slice of pointers: `nodesLen` is `len(h.nodes)` and
`nodes i` the pointer at index `i` (`none` is nil).
Modelled from the spec: `hnswCommitLogger` is not part of the sources; following the spec
("records are appended in the order emitted") `commitLog` is the list of records emitted so
far, oldest first. -/
structure hnsw where
  maximumConnections : Int
  maximumConnectionsLayerZero : Int
  currentMaximumLayer : Int
  entryPointID : Int
  efConstruction : Int
  nodesLen : Nat
  nodes : Nat → Option hnswVertex
  commitLog : List CommitRecord

/-- The external collaborators of the index: the vector accessor `vectorForID` (a nil slice
is the empty list) and `cosineDist`, over a linearly ordered type `F` of distance values
standing for `float32`. -/
structure Env (F : Type) where
  vectorForID : Int → Except String (List F)
  cosineDist : List F → List F → Except String F

/-- Outcome of a Go call: normal return, returned `error`, a runtime panic (index out of
range, nil dereference, negative `make` length), or `fuel` when the bounded unrolling of a
loop was too short (a case that never arises, as proved below for `searchLayer` and
`insert`). -/
inductive Res (α : Type) where
  | ok (a : α)
  | err (msg : String)
  | panic (msg : String)
  | fuel

/-- How an `insert` call ended; the index it leaves behind comes with it. -/
inductive Outcome where
  | ok
  | err (msg : String)
  | panic (msg : String)
  | fuel
deriving DecidableEq, Repr

/-- Go: `func New(rootPath, id string, maximumConnections int, efConstruction int, ...)`.
All other fields hold Go's zero values; `nodes` has length 0 and capacity `importLimit`. -/
def New (maximumConnections efConstruction : Int) : hnsw :=
  { maximumConnections := maximumConnections
    maximumConnectionsLayerZero := 2 * maximumConnections
    currentMaximumLayer := 0
    entryPointID := 0
    efConstruction := efConstruction
    nodesLen := 0
    nodes := fun _ => none
    commitLog := [] }

/-- Go: `func min(a, b int) int`. -/
def min (a b : Int) : Int := if a < b then a else b

/-- Go: the slice read `h.nodes[i]` for an `int` index; `none` is the index-out-of-range
panic. -/
def hnsw.nodeAt (h : hnsw) (i : Int) : Option (Option hnswVertex) :=
  if 0 ≤ i ∧ i < (h.nodesLen : Int) then some (h.nodes i.toNat) else none

/-- Go: the slice write `h.nodes[i] = node`; `none` is the index-out-of-range panic. -/
def hnsw.setNode (h : hnsw) (i : Int) (node : hnswVertex) : Option hnsw :=
  if 0 ≤ i ∧ i < (h.nodesLen : Int) then
    some { h with nodes := Function.update h.nodes i.toNat (some node) }
  else none

/-! ## Ordered candidate set -/

/-- An entry of the candidate set: Go's `binarySearchNodeGeneric` with its fields `index`
and `dist`. -/
structure Elem (F : Type) where
  index : Int
  dist : F
deriving DecidableEq, Repr

/-- Modelled from the spec: `binarySearchTreeGeneric` is not part of the sources. Following
section 4.2 of the spec it is a set of entries enumerated from smallest to largest distance,
ties on distance broken by ascending id, holding at most one entry per id. `flat` is that
enumeration (`flattenInOrder`). -/
structure binarySearchTreeGeneric (F : Type) where
  flat : List (Elem F)
deriving DecidableEq, Repr

namespace binarySearchTreeGeneric

variable {F : Type} [LinearOrder F]

/-- The empty tree `&binarySearchTreeGeneric{}` (`root == nil`). -/
def empty : binarySearchTreeGeneric F := ⟨[]⟩

/-- Order of enumeration: by distance, ties by ascending id. -/
def before (x y : Elem F) : Bool :=
  decide (x.dist < y.dist) || (decide (x.dist = y.dist) && decide (x.index < y.index))

/-- Insertion of an entry at its place in the enumeration. -/
def insertSorted (x : Elem F) : List (Elem F) → List (Elem F)
  | [] => [x]
  | y :: ys => if before x y then x :: y :: ys else y :: insertSorted x ys

/-- Modelled from the spec: `insert(id, dist)`; a second insert of the same id is a no-op. -/
def insert (t : binarySearchTreeGeneric F) (index : Int) (dist : F) :
    binarySearchTreeGeneric F :=
  if t.flat.any (fun e => decide (e.index = index)) then t
  else ⟨insertSorted ⟨index, dist⟩ t.flat⟩

/-- Modelled from the spec: `delete(id, dist)` removes the entry with that id and distance. -/
def delete (t : binarySearchTreeGeneric F) (index : Int) (dist : F) :
    binarySearchTreeGeneric F :=
  ⟨t.flat.filter (fun e => !(decide (e.index = index) && decide (e.dist = dist)))⟩

/-- Modelled from the spec: `minimum()`, the entry of smallest distance; `none` is Go's nil. -/
def minimum (t : binarySearchTreeGeneric F) : Option (Elem F) := t.flat.head?

/-- Modelled from the spec: `maximum()`, the entry of largest distance; `none` is Go's nil. -/
def maximum (t : binarySearchTreeGeneric F) : Option (Elem F) := t.flat.getLast?

/-- Modelled from the spec: `len()`. -/
def len (t : binarySearchTreeGeneric F) : Int := (t.flat.length : Int)

/-- Modelled from the spec: `flattenInOrder()`. -/
def flattenInOrder (t : binarySearchTreeGeneric F) : List (Elem F) := t.flat

end binarySearchTreeGeneric

/-! ## Distance, layer search, neighbour selection -/

section Search

variable {F : Type} [LinearOrder F]

/-- Go: `func (h *hnsw) distBetweenNodes(a, b int) (float32, error)`. -/
def distBetweenNodes (env : Env F) (a b : Int) : Except String F :=
  match env.vectorForID (int32 a) with
  | .error e => .error ("could not get vector of object at docID a: " ++ e)
  | .ok vecA =>
    if vecA.length = 0 then .error "got a nil or zero-length vector at docID a"
    else
      match env.vectorForID (int32 b) with
      | .error e => .error ("could not get vector of object at docID b: " ++ e)
      | .ok vecB =>
        if vecB.length = 0 then .error "got a nil or zero-length vector at docID b"
        else env.cosineDist vecA vecB

/-- The three sets `searchLayer` works on: the `visited` map (its keys), `candidates` and
`results`. -/
structure SearchState (F : Type) where
  visited : List U32
  candidates : binarySearchTreeGeneric F
  results : binarySearchTreeGeneric F

/-- Go: the loop `for _, neighborID := range connections { ... }` inside `searchLayer`, for
the query node id `queryId`, beam width `ef` and the `worstResultDistance` computed before
the loop. -/
def visitNeighbors (env : Env F) (queryId : Int) (ef : Int) (worstResultDistance : F) :
    List U32 → SearchState F → Res (SearchState F)
  | [], s => .ok s
  | neighborID :: rest, s =>
    if neighborID ∈ s.visited then
      visitNeighbors env queryId ef worstResultDistance rest s
    else
      let visited := neighborID :: s.visited
      match distBetweenNodes env (neighborID.val : Int) queryId with
      | .error e => .err ("calculate distance between neighbor and query: " ++ e)
      | .ok distance =>
        let resLenBefore := s.results.len
        if distance < worstResultDistance ∨ resLenBefore < ef then
          let results := s.results.insert (neighborID.val : Int) distance
          let candidates := s.candidates.insert (neighborID.val : Int) distance
          if resLenBefore + 1 > ef then
            match results.maximum with
            | none => .panic "nil dereference: results.maximum()"
            | some max =>
              visitNeighbors env queryId ef worstResultDistance rest
                ⟨visited, candidates, results.delete max.index max.dist⟩
          else
            visitNeighbors env queryId ef worstResultDistance rest
              ⟨visited, candidates, results⟩
        else
          visitNeighbors env queryId ef worstResultDistance rest
            ⟨visited, s.candidates, s.results⟩

/-- Go: the loop `for candidates.root != nil { ... }` of `searchLayer`, unrolled at most
`fuel` times. -/
def searchLoop (env : Env F) (h : hnsw) (queryNode : Option hnswVertex) (ef level : Int) :
    Nat → SearchState F → Res (binarySearchTreeGeneric F)
  | 0, _ => .fuel
  | fuel + 1, s =>
    match s.candidates.minimum with
    | none => .ok s.results
    | some candidate =>
      let candidates := s.candidates.delete candidate.index candidate.dist
      match s.results.maximum, queryNode with
      | none, _ => .panic "nil dereference: results.maximum()"
      | some _, none => .panic "nil dereference: queryNode"
      | some worst, some q =>
        match distBetweenNodes env worst.index q.id with
        | .error e => .err ("calculated distance between worst result and query: " ++ e)
        | .ok worstResultDistance =>
          match distBetweenNodes env candidate.index q.id with
          | .error e => .err ("calculated distance between best candidate and query: " ++ e)
          | .ok dist =>
            if dist > worstResultDistance then .ok s.results
            else
              match h.nodeAt candidate.index with
              | none => .panic "index out of range: h.nodes[candidate.index]"
              | some none => .panic "nil dereference: candidateNode"
              | some (some candidateNode) =>
                match visitNeighbors env q.id ef worstResultDistance
                    (candidateNode.connections level) ⟨s.visited, candidates, s.results⟩ with
                | .ok s' => searchLoop env h queryNode ef level fuel s'
                | .err e => .err e
                | .panic e => .panic e
                | .fuel => .fuel

/-- The state `searchLayer` enters its loop with: every entry point is marked visited (under
its `uint32` id) and inserted into `candidates` and `results`. -/
def searchInit (entrypoints : binarySearchTreeGeneric F) : SearchState F :=
  { visited := entrypoints.flattenInOrder.foldl
      (fun vis elem => if uint32 elem.index ∈ vis then vis else uint32 elem.index :: vis) []
    candidates := entrypoints.flattenInOrder.foldl
      (fun t ep => t.insert ep.index ep.dist) binarySearchTreeGeneric.empty
    results := entrypoints.flattenInOrder.foldl
      (fun t ep => t.insert ep.index ep.dist) binarySearchTreeGeneric.empty }

/-- Number of unrollings that always suffices for the loop of `searchLayer`: every pass
removes a candidate, and a candidate is added only together with a new key of `visited`,
of which there are at most `2^32`. -/
def searchFuel (entrypoints : binarySearchTreeGeneric F) : Nat :=
  2 * 4294967296 + entrypoints.flat.length + 1

/-- Go: `func (h *hnsw) searchLayer(queryNode *hnswVertex, entrypoints
binarySearchTreeGeneric, ef int, level int) (*binarySearchTreeGeneric, error)`. -/
def searchLayer (env : Env F) (h : hnsw) (queryNode : Option hnswVertex)
    (entrypoints : binarySearchTreeGeneric F) (ef level : Int) :
    Res (binarySearchTreeGeneric F) :=
  searchLoop env h queryNode ef level (searchFuel entrypoints) (searchInit entrypoints)

/-- Go: `func (h *hnsw) selectNeighborsSimple(nodeId int, input binarySearchTreeGeneric,
max int) []uint32`; `make([]uint32, size)` panics for a negative size. -/
def selectNeighborsSimple (nodeId : Int) (input : binarySearchTreeGeneric F) (max : Int) :
    Res (List U32) :=
  let flat := input.flattenInOrder
  let size := min (flat.length : Int) max
  if size < 0 then .panic "makeslice: len out of range"
  else .ok ((flat.take size.toNat).map (fun elem => uint32 elem.index))

/-- Go: the loop of `selectNeighborsSimpleFromId` that fills `bst`. -/
def fillFromIds (env : Env F) (nodeId : Int) :
    List U32 → binarySearchTreeGeneric F → Except String (binarySearchTreeGeneric F)
  | [], bst => .ok bst
  | id :: rest, bst =>
    match distBetweenNodes env (id.val : Int) nodeId with
    | .error e => .error ("select neighbors simple from id: " ++ e)
    | .ok dist => fillFromIds env nodeId rest (bst.insert (id.val : Int) dist)

/-- Go: `func (h *hnsw) selectNeighborsSimpleFromId(nodeId int, ids []uint32, max int)
([]uint32, error)`. -/
def selectNeighborsSimpleFromId (env : Env F) (nodeId : Int) (ids : List U32) (max : Int) :
    Res (List U32) :=
  match fillFromIds env nodeId ids binarySearchTreeGeneric.empty with
  | .error e => .err e
  | .ok bst => selectNeighborsSimple nodeId bst max

/-! ## Insert -/

/-- Go: `func (v *hnswVertex) linkAtLevel(level int, target uint32, cl *hnswCommitLogger)`,
as the new vertex and the record handed to the commit logger. -/
def hnswVertex.linkAtLevel (v : hnswVertex) (level : Int) (target : U32) :
    hnswVertex × CommitRecord :=
  ({ v with connections := Function.update v.connections level (v.connections level ++ [target]) },
    CommitRecord.AddLink v.id level target)

/-- A method call `v.linkAtLevel(level, target, h.commitLog)` on the vertex that the pointer
`h.nodes[slot]` refers to. -/
def hnsw.linkAtLevel (h : hnsw) (slot : Nat) (level : Int) (target : U32) : hnsw :=
  match h.nodes slot with
  | none => h
  | some v =>
    { h with
      nodes := Function.update h.nodes slot (some (v.linkAtLevel level target).1)
      commitLog := h.commitLog ++ [(v.linkAtLevel level target).2] }

/-- Go: `h.commitLog.ReplaceLinksAtLevel(neighbor.id, level, updatedConnections);
neighbor.connections[level] = updatedConnections` on the vertex at `h.nodes[slot]`. -/
def hnsw.replaceLinksAtLevel (h : hnsw) (slot : Nat) (level : Int) (links : List U32) : hnsw :=
  match h.nodes slot with
  | none => h
  | some v =>
    { h with
      nodes := Function.update h.nodes slot
        (some { v with connections := Function.update v.connections level links })
      commitLog := h.commitLog ++ [CommitRecord.ReplaceLinks v.id level links] }

/-- The adjacency list of the node stored at `h.nodes[i]` at level `l` (empty for nil). -/
def hnsw.conn (h : hnsw) (i : Nat) (l : Int) : List U32 :=
  match h.nodes i with
  | some v => v.connections l
  | none => []

/-- Go: the loop `for _, neighborID := range neighbors { ... }` of `insert` at one level.
`node` is the pointer stored at `h.nodes[nodeId]`. -/
def linkNeighbors (env : Env F) (nodeId : Int) (level : Int) :
    List U32 → hnsw → hnsw × Outcome
  | [], h => (h, .ok)
  | neighborID :: rest, h =>
    match h.nodeAt (neighborID.val : Int) with
    | none => (h, .panic "index out of range: h.nodes[neighborID]")
    | some none => (h, .panic "nil dereference: neighbor")
    | some (some neighbor) =>
      let h1 := h.linkAtLevel neighborID.val level (uint32 nodeId)
      let h2 := h1.linkAtLevel nodeId.toNat level (uint32 neighbor.id)
      let currentConnections := h2.conn neighborID.val level
      let maximumConnections :=
        if level = 0 then h2.maximumConnectionsLayerZero else h2.maximumConnections
      if (currentConnections.length : Int) ≤ maximumConnections then
        linkNeighbors env nodeId level rest h2
      else
        match selectNeighborsSimpleFromId env nodeId currentConnections maximumConnections with
        | .err e => (h2, .err ("connect neighbors: " ++ e))
        | .panic e => (h2, .panic e)
        | .fuel => (h2, .fuel)
        | .ok updatedConnections =>
          linkNeighbors env nodeId level rest
            (h2.replaceLinksAtLevel neighborID.val level updatedConnections)

/-- Go: the loop `for level := currentMaximumLayer; level > targetLevel; level--` of
`insert`; `n` is the number of passes left, `level` the loop variable. Returns the final
`entryPointID`. -/
def descend (env : Env F) (h : hnsw) (nodeId : Int) :
    Nat → Int → Int → Res Int
  | 0, _, entryPointID => .ok entryPointID
  | n + 1, level, entryPointID =>
    match distBetweenNodes env nodeId entryPointID with
    | .error e =>
      .err ("calculate distance between insert node and entry point at level: " ++ e)
    | .ok dist =>
      match searchLayer env h (h.nodes nodeId.toNat)
          (binarySearchTreeGeneric.empty.insert entryPointID dist) 1 level with
      | .err e => .err ("update candidate: search layer at level: " ++ e)
      | .panic e => .panic e
      | .fuel => .fuel
      | .ok res =>
        match res.minimum with
        | none => .panic "nil dereference: res.minimum()"
        | some best => descend env h nodeId n (level - 1) best.index

/-- Go: the loop `for level := min(targetLevel, currentMaximumLayer); level >= 0; level--`
of `insert`; `n` is the number of passes left, `level` the loop variable, `results` the set
carried from one level to the next. -/
def linkLevels (env : Env F) (nodeId : Int) :
    Nat → Int → binarySearchTreeGeneric F → hnsw → hnsw × Outcome
  | 0, _, _, h => (h, .ok)
  | n + 1, level, results, h =>
    match searchLayer env h (h.nodes nodeId.toNat) results h.efConstruction level with
    | .err e => (h, .err ("find neighbors: search layer at level: " ++ e))
    | .panic e => (h, .panic e)
    | .fuel => (h, .fuel)
    | .ok results' =>
      match selectNeighborsSimple nodeId results' h.maximumConnections with
      | .err e => (h, .err e)
      | .panic e => (h, .panic e)
      | .fuel => (h, .fuel)
      | .ok neighbors =>
        match linkNeighbors env nodeId level neighbors h with
        | (h', .ok) => linkLevels env nodeId n (level - 1) results' h'
        | (h', out) => (h', out)

/-- Go: `func (h *hnsw) insert(node *hnswVertex) error`.  `targetLevel` is the value of
`int(math.Floor(-math.Log(rand.Float64()*h.levelNormalizer))) - 1` drawn in this call. -/
def insert (env : Env F) (h : hnsw) (node : hnswVertex) (targetLevel : Int) : hnsw × Outcome :=
  if h.nodesLen = 0 then
    let h1 : hnsw :=
      { h with
        commitLog := h.commitLog ++ [CommitRecord.SetEntry node.id 0]
        entryPointID := node.id
        currentMaximumLayer := 0 }
    let node0 : hnswVertex := { node with connections := fun _ => [], level := 0 }
    let h2 : hnsw :=
      { h1 with
        nodesLen := importLimit
        nodes := fun _ => none
        commitLog := h1.commitLog ++ [CommitRecord.AddNode node0.id node0.level] }
    match h2.setNode node0.id node0 with
    | none => (h2, .panic "index out of range: h.nodes[node.id]")
    | some h3 => (h3, .ok)
  else
    let entryPointID := h.entryPointID
    let currentMaximumLayer := h.currentMaximumLayer
    let node1 : hnswVertex := { node with level := targetLevel, connections := fun _ => [] }
    let nodeId := node1.id
    match h.setNode nodeId node1 with
    | none => (h, .panic "index out of range: h.nodes[nodeId]")
    | some h1 =>
      let h2 : hnsw :=
        { h1 with commitLog := h1.commitLog ++ [CommitRecord.AddNode node1.id node1.level] }
      match descend env h2 nodeId (currentMaximumLayer - targetLevel).toNat
          currentMaximumLayer entryPointID with
      | .err e => (h2, .err e)
      | .panic e => (h2, .panic e)
      | .fuel => (h2, .fuel)
      | .ok entryPointID' =>
        match distBetweenNodes env nodeId entryPointID' with
        | .error e =>
          (h2, .err ("calculate distance between insert node and final entrypoint: " ++ e))
        | .ok dist =>
          match linkLevels env nodeId (min targetLevel currentMaximumLayer + 1).toNat
              (min targetLevel currentMaximumLayer)
              (binarySearchTreeGeneric.empty.insert entryPointID' dist) h2 with
          | (h3, .ok) =>
            if targetLevel > h3.currentMaximumLayer then
              (({ h3 with
                  commitLog := h3.commitLog ++ [CommitRecord.SetEntry nodeId targetLevel]
                  entryPointID := nodeId
                  currentMaximumLayer := targetLevel } : hnsw), Outcome.ok)
            else (h3, .ok)
          | (h3, out) => (h3, out)

/-- Go: `func (h *hnsw) Add(id int, vector []float32) error`. -/
def Add (env : Env F) (h : hnsw) (id : Int) (targetLevel : Int) : hnsw × Outcome :=
  insert env h { id := id, level := 0, connections := fun _ => [] } targetLevel

/-- A run of sequential `Add` calls, each given as the id and the level drawn for it.
`none` as soon as one of them does not return nil. -/
def addAll (env : Env F) : hnsw → List (Int × Int) → Option hnsw
  | h, [] => some h
  | h, (id, targetLevel) :: rest =>
    match Add env h id targetLevel with
    | (h', .ok) => addAll env h' rest
    | _ => none

/-- A run of sequential `Add` calls in which a call may also return an error; `none` when a
call panics. -/
def addSeq (env : Env F) : hnsw → List (Int × Int) → Option hnsw
  | h, [] => some h
  | h, (id, targetLevel) :: rest =>
    match Add env h id targetLevel with
    | (h', .ok) => addSeq env h' rest
    | (h', .err _) => addSeq env h' rest
    | _ => none

end Search

/-! ## Replay of the commit log -/

/-- The graph as the replay of a commit log builds it, following the spec: per node id its
level and its adjacency list at every level, the entry point and the maximum layer. -/
structure Graph where
  nodes : Int → Option (Int × (Int → List U32))
  entryPointID : Int
  currentMaximumLayer : Int

/-- The empty graph a replay starts from. -/
def Graph.empty : Graph :=
  { nodes := fun _ => none, entryPointID := 0, currentMaximumLayer := 0 }

/-- Replay of one record, in the spec's words: AddNode creates the node with its level and
empty adjacency, AddLink appends the neighbor to the node's list at that level, ReplaceLinks
overwrites that list, SetEntry sets entry point and max layer. -/
def Graph.apply (g : Graph) : CommitRecord → Graph
  | CommitRecord.AddNode id level =>
    { g with nodes := Function.update g.nodes id (some (level, fun _ => [])) }
  | CommitRecord.AddLink node level neighbor =>
    match g.nodes node with
    | none => g
    | some (lvl, conns) =>
      { g with
        nodes := Function.update g.nodes node
          (some (lvl, Function.update conns level (conns level ++ [neighbor]))) }
  | CommitRecord.ReplaceLinks node level neighbors =>
    match g.nodes node with
    | none => g
    | some (lvl, conns) =>
      { g with
        nodes := Function.update g.nodes node
          (some (lvl, Function.update conns level neighbors)) }
  | CommitRecord.SetEntry id maxLayer =>
    { g with entryPointID := id, currentMaximumLayer := maxLayer }

/-- Replay of a commit log, oldest record first, into the empty graph. -/
def replay (log : List CommitRecord) : Graph :=
  log.foldl Graph.apply Graph.empty

/-- The in-memory graph of an index, read off per node id: populated nodes with level and
adjacency, entry point and maximum layer. -/
def hnsw.graph (h : hnsw) : Graph :=
  { nodes := fun id =>
      if 0 ≤ id ∧ id < (h.nodesLen : Int) then
        (h.nodes id.toNat).map (fun v => (v.level, v.connections))
      else none
    entryPointID := h.entryPointID
    currentMaximumLayer := h.currentMaximumLayer }

/-- Whether a record is a `ReplaceLinks`. -/
def CommitRecord.isReplaceLinks : CommitRecord → Bool
  | CommitRecord.ReplaceLinks _ _ _ => true
  | _ => false

/-! ## Invariants of the graph -/

/-- Two indexes that differ at most in adjacency lists and commit log: same configuration,
entry point, maximum layer, and the same nodes with the same ids and levels. -/
def SameShape (h h' : hnsw) : Prop :=
  h'.maximumConnections = h.maximumConnections ∧
  h'.maximumConnectionsLayerZero = h.maximumConnectionsLayerZero ∧
  h'.currentMaximumLayer = h.currentMaximumLayer ∧
  h'.entryPointID = h.entryPointID ∧
  h'.efConstruction = h.efConstruction ∧
  h'.nodesLen = h.nodesLen ∧
  ∀ i, (h'.nodes i).map (fun v => (v.id, v.level)) = (h.nodes i).map (fun v => (v.id, v.level))

/-- Every node sits at the index given by its id, inside the slice. -/
def IdsOk (h : hnsw) : Prop :=
  h.nodesLen ≤ 4294967296 ∧ ∀ i v, h.nodes i = some v → v.id = (i : Int) ∧ i < h.nodesLen

/-- Every id in an adjacency list is the index of a node. -/
def Closed (h : hnsw) : Prop :=
  ∀ i l x, x ∈ h.conn i l → (h.nodes x.val).isSome = true

/-- The degree cap `insert` applies at a level. -/
def cap (h : hnsw) (l : Int) : Int :=
  if l = 0 then h.maximumConnectionsLayerZero else h.maximumConnections

/-- Every adjacency list respects the cap of its level. -/
def DegOk (h : hnsw) : Prop :=
  ∀ i l, ((h.conn i l).length : Int) ≤ cap h l

/-- In a non-empty index the entry point is a node whose level is the maximum layer. -/
def EntryOk (h : hnsw) : Prop :=
  h.nodesLen ≠ 0 →
    0 ≤ h.entryPointID ∧
    ∃ v, h.nodes h.entryPointID.toNat = some v ∧ v.level = h.currentMaximumLayer

/-- No adjacency list at a level up to `L` mentions the index `k`. -/
def NoRef (h : hnsw) (k : Nat) (L : Int) : Prop :=
  ∀ i l x, l ≤ L → x ∈ h.conn i l → x.val ≠ k

/-- Adjacency is symmetric between nodes. -/
def Sym (h : hnsw) : Prop :=
  ∀ (x y : U32) (l : Int), (h.nodes x.val).isSome = true → (h.nodes y.val).isSome = true →
    (y ∈ h.conn x.val l ↔ x ∈ h.conn y.val l)

/-- An id that is the index of a node other than the one at index `k`. -/
def Good (h : hnsw) (k : Nat) (idx : Int) : Prop :=
  ∃ j : Nat, idx = (j : Int) ∧ j ≠ k ∧ (h.nodes j).isSome = true

/-- One pass of the loop over the neighbours in `insert`, for the neighbour `nb` found at
`h.nodes[nb]`: both links are added, and the neighbour's list is replaced when it exceeds
the cap. -/
def StepTo {F : Type} [LinearOrder F] (env : Env F) (nodeId level : Int) (h : hnsw) (nb : U32)
    (neighbor : hnswVertex) (h' : hnsw) : Prop :=
  ((((h.linkAtLevel nb.val level (uint32 nodeId)).linkAtLevel nodeId.toNat level
        (uint32 neighbor.id)).conn nb.val level).length : Int) ≤ cap h level ∧
    h' = (h.linkAtLevel nb.val level (uint32 nodeId)).linkAtLevel nodeId.toNat level
        (uint32 neighbor.id) ∨
  ¬ ((((h.linkAtLevel nb.val level (uint32 nodeId)).linkAtLevel nodeId.toNat level
        (uint32 neighbor.id)).conn nb.val level).length : Int) ≤ cap h level ∧
    ∃ upd, selectNeighborsSimpleFromId env nodeId
        (((h.linkAtLevel nb.val level (uint32 nodeId)).linkAtLevel nodeId.toNat level
          (uint32 neighbor.id)).conn nb.val level) (cap h level) = .ok upd ∧
      h' = ((h.linkAtLevel nb.val level (uint32 nodeId)).linkAtLevel nodeId.toNat level
        (uint32 neighbor.id)).replaceLinksAtLevel nb.val level upd

/-- The commit log holds no `ReplaceLinks` record: no adjacency list was ever trimmed. -/
def NoReplace (log : List CommitRecord) : Prop :=
  ∀ r ∈ log, r.isReplaceLinks = false

/-- The configuration `New` sets up for a non-negative `maximumConnections`. -/
def CfgOk (h : hnsw) : Prop :=
  0 ≤ h.maximumConnections ∧ h.maximumConnectionsLayerZero = 2 * h.maximumConnections

/-- Invariant of the loop over the neighbours at level `L` while the node `nodeId` is being
inserted; `rest` are the neighbours still to be linked. -/
structure LoopInv (nodeId L : Int) (h : hnsw) (rest : List U32) : Prop where
  ids : IdsOk h
  nonneg : 0 ≤ nodeId
  node : (h.nodes nodeId.toNat).isSome = true
  closed : Closed h
  noref : NoRef h nodeId.toNat (L - 1)
  empty : ∀ l, l < L → h.conn nodeId.toNat l = []
  deg : CfgOk h → ∀ i l, (i ≠ nodeId.toNat ∨ l ≠ L) → ((h.conn i l).length : Int) ≤ cap h l
  degNode : ((h.conn nodeId.toNat L).length : Int) + rest.length ≤ h.maximumConnections
  restGood : ∀ nb ∈ rest, (h.nodes nb.val).isSome = true ∧ nb.val ≠ nodeId.toNat
  sym : NoReplace h.commitLog → Sym h

/-- Invariant of the loop over the levels while the node `nodeId` is being inserted: `level`
is the next level to link at and `results` the set carried into it. -/
structure LevelInv {F : Type} (nodeId : Int) (h : hnsw) (level : Int)
    (results : binarySearchTreeGeneric F) : Prop where
  ids : IdsOk h
  nonneg : 0 ≤ nodeId
  node : (h.nodes nodeId.toNat).isSome = true
  closed : Closed h
  noref : NoRef h nodeId.toNat level
  empty : ∀ l, l ≤ level → h.conn nodeId.toNat l = []
  deg : CfgOk h → DegOk h
  resGood : ∀ e ∈ results.flat, Good h nodeId.toNat e.index
  sym : NoReplace h.commitLog → Sym h

/-- Invariant of the index between inserts. -/
structure Inv (h : hnsw) : Prop where
  ids : IdsOk h
  closed : Closed h
  deg : CfgOk h → DegOk h
  entry : EntryOk h
  sym : NoReplace h.commitLog → Sym h
  fresh : h.nodesLen = 0 → (∀ i, h.nodes i = none) ∧ h.currentMaximumLayer = 0

/-- The commit log replays to the in-memory graph, and every node sits at the index of its
id. -/
def ReplayOk (h : hnsw) : Prop :=
  IdsOk h ∧ replay h.commitLog = h.graph

/-- The index right after `insert` has published the node skeleton on the non-empty path:
`h.nodes[nodeId] = node` and `AddNode` logged. -/
def hnsw.withSkeleton (h : hnsw) (node : hnswVertex) (targetLevel : Int) : hnsw :=
  { h with
    nodes := Function.update h.nodes node.id.toNat
      (some { node with level := targetLevel, connections := fun _ => [] })
    commitLog := h.commitLog ++ [CommitRecord.AddNode node.id targetLevel] }

/-- The entry promotion at the end of `insert`. -/
def hnsw.promote (h : hnsw) (nodeId targetLevel : Int) : hnsw :=
  { h with
    commitLog := h.commitLog ++ [CommitRecord.SetEntry nodeId targetLevel]
    entryPointID := nodeId
    currentMaximumLayer := targetLevel }

/-! ## Properties of the candidate set and of the search loop -/

/-- The order in which the candidate set enumerates its entries, as a relation: by distance,
ties by ascending id. -/
def ordLe {F : Type} [LinearOrder F] (x y : Elem F) : Prop :=
  x.dist < y.dist ∨ (x.dist = y.dist ∧ x.index ≤ y.index)

/-- The set holds at most one entry per id. -/
def binarySearchTreeGeneric.Uniq {F : Type} (t : binarySearchTreeGeneric F) : Prop :=
  (t.flat.map (fun e => e.index)).Nodup

/-- The enumeration of the set is in order. -/
def binarySearchTreeGeneric.Ordered {F : Type} [LinearOrder F]
    (t : binarySearchTreeGeneric F) : Prop :=
  t.flat.Pairwise ordLe

/-- What holds of the sets of `searchLayer` in every pass of its loop: every result is marked
visited, and `results` is a well-formed candidate set. -/
structure SearchInv {F : Type} [LinearOrder F] (s : SearchState F) : Prop where
  visited : ∀ e ∈ s.results.flat, uint32 e.index ∈ s.visited
  uniq : s.results.Uniq
  ordered : s.results.Ordered

/-- What holds in every pass of the loop when the entry points carry their true distance to
the query `queryId`: every entry carries its true distance, and as long as `results` holds
fewer than `ef` entries every candidate is also a result. -/
structure SearchTrue {F : Type} [LinearOrder F] (env : Env F) (queryId ef : Int)
    (s : SearchState F) : Prop where
  base : SearchInv s
  trueDist : ∀ e, (e ∈ s.candidates.flat ∨ e ∈ s.results.flat) →
    distBetweenNodes env e.index queryId = .ok e.dist
  sub : (∀ c ∈ s.candidates.flat, c ∈ s.results.flat) ∨ ef ≤ s.results.len

/-- The states in which the loop `for candidates.root != nil` of a `searchLayer` call starts
a pass: the state built from the entry points, and the state after every pass that did not
break, panic or fail. -/
inductive LoopReach {F : Type} [LinearOrder F] (env : Env F) (h : hnsw) (q : hnswVertex)
    (entrypoints : binarySearchTreeGeneric F) (ef level : Int) : SearchState F → Prop where
  | init : LoopReach env h q entrypoints ef level (searchInit entrypoints)
  | next (s s' : SearchState F) (candidate worst : Elem F) (worstResultDistance dist : F)
      (candidateNode : hnswVertex) :
      LoopReach env h q entrypoints ef level s →
      s.candidates.minimum = some candidate →
      s.results.maximum = some worst →
      distBetweenNodes env worst.index q.id = .ok worstResultDistance →
      distBetweenNodes env candidate.index q.id = .ok dist →
      ¬ dist > worstResultDistance →
      h.nodeAt candidate.index = some (some candidateNode) →
      visitNeighbors env q.id ef worstResultDistance (candidateNode.connections level)
        ⟨s.visited, s.candidates.delete candidate.index candidate.dist, s.results⟩ = .ok s' →
      LoopReach env h q entrypoints ef level s'

section SearchSpec

variable {F : Type} [LinearOrder F]

/-- The loop of `searchLayer` with the early termination written in the spec's words: after
popping the closest candidate `c`, with `f` the farthest result, terminate if `dist(c, query)
> dist(f, query)` and `len(results) ≥ ef`. Everything else is the loop of the code. -/
def searchLoopSpec (env : Env F) (h : hnsw) (queryNode : Option hnswVertex) (ef level : Int) :
    Nat → SearchState F → Res (binarySearchTreeGeneric F)
  | 0, _ => .fuel
  | fuel + 1, s =>
    match s.candidates.minimum with
    | none => .ok s.results
    | some candidate =>
      let candidates := s.candidates.delete candidate.index candidate.dist
      match s.results.maximum, queryNode with
      | none, _ => .panic "nil dereference: results.maximum()"
      | some _, none => .panic "nil dereference: queryNode"
      | some worst, some q =>
        match distBetweenNodes env worst.index q.id with
        | .error e => .err ("calculated distance between worst result and query: " ++ e)
        | .ok worstResultDistance =>
          match distBetweenNodes env candidate.index q.id with
          | .error e => .err ("calculated distance between best candidate and query: " ++ e)
          | .ok dist =>
            if dist > worstResultDistance ∧ s.results.len ≥ ef then .ok s.results
            else
              match h.nodeAt candidate.index with
              | none => .panic "index out of range: h.nodes[candidate.index]"
              | some none => .panic "nil dereference: candidateNode"
              | some (some candidateNode) =>
                match visitNeighbors env q.id ef worstResultDistance
                    (candidateNode.connections level) ⟨s.visited, candidates, s.results⟩ with
                | .ok s' => searchLoopSpec env h queryNode ef level fuel s'
                | .err e => .err e
                | .panic e => .panic e
                | .fuel => .fuel

/-- `searchLayer` with the loop `searchLoopSpec`. -/
def searchLayerSpec (env : Env F) (h : hnsw) (queryNode : Option hnswVertex)
    (entrypoints : binarySearchTreeGeneric F) (ef level : Int) :
    Res (binarySearchTreeGeneric F) :=
  searchLoopSpec env h queryNode ef level (searchFuel entrypoints) (searchInit entrypoints)

end SearchSpec

/-- No adjacency list mentions the index it is stored at, and none holds an id twice. -/
def Clean (h : hnsw) : Prop :=
  ∀ i l, (h.conn i l).Nodup ∧ ∀ x ∈ h.conn i l, x.val ≠ i

/-! ## Search by id -/

section Knn

variable {F : Type} [LinearOrder F]

/-- Go: the loop `for level := h.currentMaximumLayer; level >= 1; level--` of `knnSearch`;
`n` is the number of passes left, `level` the loop variable. Returns the final
`entryPointID` and `entryPointDistance`. -/
def knnDescend (env : Env F) (h : hnsw) (queryNode : Option hnswVertex) :
    Nat → Int → Int → F → Res (Int × F)
  | 0, _, entryPointID, entryPointDistance => .ok (entryPointID, entryPointDistance)
  | n + 1, level, entryPointID, entryPointDistance =>
    match searchLayer env h queryNode
        (binarySearchTreeGeneric.empty.insert entryPointID entryPointDistance) 1 level with
    | .err e => .err ("knn search: search layer at level: " ++ e)
    | .panic e => .panic e
    | .fuel => .fuel
    | .ok res =>
      match res.minimum with
      | none => .panic "nil dereference: best"
      | some best => knnDescend env h queryNode n (level - 1) best.index best.dist

/-- Go: `func (h *hnsw) knnSearch(queryNodeID int, k int, ef int) ([]int, error)`; the slice
read `h.nodes[queryNodeID]` panics out of range, `make([]int, size)` panics for a negative
size. -/
def knnSearch (env : Env F) (h : hnsw) (queryNodeID k ef : Int) : Res (List Int) :=
  match h.nodeAt queryNodeID with
  | none => .panic "index out of range: h.nodes[queryNodeID]"
  | some queryNode =>
    match distBetweenNodes env h.entryPointID queryNodeID with
    | .error e => .err ("knn search: distance between entrypint and query node: " ++ e)
    | .ok entryPointDistance =>
      match knnDescend env h queryNode h.currentMaximumLayer.toNat h.currentMaximumLayer
          h.entryPointID entryPointDistance with
      | .err e => .err e
      | .panic e => .panic e
      | .fuel => .fuel
      | .ok (entryPointID, entryPointDistance) =>
        match searchLayer env h queryNode
            (binarySearchTreeGeneric.empty.insert entryPointID entryPointDistance) ef 0 with
        | .err e => .err ("knn search: search layer at level 0: " ++ e)
        | .panic e => .panic e
        | .fuel => .fuel
        | .ok res =>
          let flat := res.flattenInOrder
          let size := min (flat.length : Int) k
          if size < 0 then .panic "makeslice: len out of range"
          else .ok ((flat.take size.toNat).map (fun elem => elem.index))

/-- Go: `func (h *hnsw) SearchByID(id int, k int) ([]int, error)`. -/
def SearchByID (env : Env F) (h : hnsw) (id k : Int) : Res (List Int) :=
  knnSearch env h id k 36

end Knn

/-- The commit log `log'` continues `log`, and the part added holds a `ReplaceLinks` record
for the node `id` at level `level`: the list of that node was trimmed in between. -/
def TrimmedSince (log log' : List CommitRecord) (id level : Int) : Prop :=
  ∃ upd suf, log' = log ++ suf ∧ CommitRecord.ReplaceLinks id level upd ∈ suf

/-- Four vectors of norm 5 stored under the ids 0 to 3; every other id has no vector. -/
def sampleVectors : Int → Except String (List Int)
  | 0 => .ok [5, 0]
  | 1 => .ok [0, 5]
  | 2 => .ok [0, -5]
  | 3 => .ok [4, 3]
  | _ => .error "not found"

/-- Dot product of two integer vectors. -/
def dot : List Int → List Int → Int
  | a :: as, b :: bs => a * b + dot as bs
  | _, _ => 0

/-- An environment with integer distances: on vectors of norm 5 the cosine distance
`1 - a·b/(|a||b|)` scaled by 25 is `25 - a·b`. -/
def sampleEnv : Env Int :=
  { vectorForID := sampleVectors, cosineDist := fun a b => .ok (25 - dot a b) }

/-- A second store of vectors, all of norm 65. -/
def trimVectors : Int → Except String (List Int)
  | 0 => .ok [65, 0]
  | 1 => .ok [60, 25]
  | 2 => .ok [56, -33]
  | 3 => .ok [63, -16]
  | 4 => .ok [52, 39]
  | 5 => .ok [39, -52]
  | _ => .error "not found"

/-- An environment with integer distances: on vectors of norm 65 the cosine distance
`1 - a·b/(|a||b|)` scaled by 4225 is `4225 - a·b`. -/
def trimEnv : Env Int :=
  { vectorForID := trimVectors, cosineDist := fun a b => .ok (4225 - dot a b) }

/-- The index of `trimEnv` with the ids 0, 1, 2 inserted at level 0 under
`maximumConnections = 1`, at the moment the node 3 has been stored and is about to be linked
to its neighbour 0. -/
def trimIndex : hnsw :=
  { maximumConnections := 1
    maximumConnectionsLayerZero := 2
    currentMaximumLayer := 0
    entryPointID := 0
    efConstruction := 10
    nodesLen := importLimit
    nodes := fun i =>
      if i = 0 then some ⟨0, 0, fun l => if l = 0 then [1, 2] else []⟩
      else if i = 1 then some ⟨1, 0, fun l => if l = 0 then [0] else []⟩
      else if i = 2 then some ⟨2, 0, fun l => if l = 0 then [0] else []⟩
      else if i = 3 then some ⟨3, 0, fun _ => []⟩
      else none
    commitLog := [] }

/-- The distance of a node to the node 3 in `trimEnv` (0 where it is not defined). -/
def trimDist (x : U32) : Int :=
  match distBetweenNodes trimEnv (x.val : Int) 3 with
  | .ok v => v
  | .error _ => 0

/-- A store in which the ids 0 to 3 all have the same vector. -/
def tieVectors : Int → Except String (List Int)
  | 0 => .ok [5, 0]
  | 1 => .ok [5, 0]
  | 2 => .ok [5, 0]
  | 3 => .ok [5, 0]
  | _ => .error "not found"

/-- The environment of `sampleEnv` over the store `tieVectors`: every two of the ids 0 to 3
are at distance 0. -/
def tieEnv : Env Int :=
  { vectorForID := tieVectors, cosineDist := fun a b => .ok (25 - dot a b) }

/-- The index of `sampleEnv` after the ids 0, 1, 2, 3 were inserted at level 0 under
`maximumConnections = 1`: the level-0 lists are `0: [3, 1]`, `1: [0]`, `2: [0]`, `3: [0]`. -/
def fourNodeIndex : hnsw :=
  (Add sampleEnv (Add sampleEnv (Add sampleEnv (Add sampleEnv (New 1 10) 0 0).1 1 0).1 2 0).1
    3 0).1

end Hnsw

/-! # Theorems: backup coordinator -/

namespace Backup

theorem initBackup_err_iff (i : Index) (id : String) :
    (i.initBackup id).2.isSome = true ↔ i.backupState.InProgress = true := by
  unfold Index.initBackup
  split <;> simp_all

theorem initBackup_ok_state (i : Index) (id : String) (h : i.backupState.InProgress = false) :
    i.initBackup id = ({ i with backupState := { BackupID := id, InProgress := true } }, none) := by
  unfold Index.initBackup
  simp [h]

theorem initBackup_err_state (i : Index) (id : String) (h : i.backupState.InProgress = true) :
    (i.initBackup id).1 = i ∧ (i.initBackup id).2.isSome = true := by
  unfold Index.initBackup
  simp [h]

theorem ReleaseBackup_state (i : Index) (id : String) :
    (i.ReleaseBackup id).1 = i.resetBackupState := by
  unfold Index.ReleaseBackup
  split <;> rfl

theorem run_append (i : Index) (cs ds : List Call) : run i (cs ++ ds) = run (run i cs) ds := by
  induction cs generalizing i with
  | nil => rfl
  | cons c cs ih => simp [run, ih]

theorem step_release_idle (i : Index) (id : String) (shards : List (String × Shard)) :
    (step i (Call.release id shards)).1.backupState = { BackupID := "", InProgress := false } := by
  simp [step, ReleaseBackup_state, Index.resetBackupState]

/-- The state is in progress after a sequence of calls exactly when the sequence holds a
successful `initBackup` with no `ReleaseBackup` after it. -/
theorem run_inProgress_iff (i0 : Index) (hidle : i0.backupState.InProgress = false)
    (cs : List Call) :
    (run i0 cs).backupState.InProgress = true ↔
      ∃ pre id post, cs = pre ++ Call.init id :: post ∧
        (step (run i0 pre) (Call.init id)).2 = none ∧ ∀ c ∈ post, c.isRelease = false := by
  induction cs using List.reverseRecOn with
  | nil =>
    simp [run, hidle]
  | append_singleton cs c ih =>
    rw [run_append]
    cases c with
    | release id shards =>
      simp only [run, step_release_idle]
      constructor
      · intro h; simp at h
      · rintro ⟨pre, id', post, heq, -, hpost⟩
        exfalso
        rcases List.eq_nil_or_concat post with hnil | ⟨post', c', hc⟩
        · subst hnil
          have := congrArg List.getLast? heq
          simp at this
        · subst hc
          have h1 : cs ++ [Call.release id shards] = (pre ++ Call.init id' :: post') ++ [c'] := by
            simpa using heq
          have h2 := List.append_inj_right' h1 rfl
          have h3 : c' = Call.release id shards := by simpa using h2.symm
          have := hpost c' (by simp)
          simp [h3, Call.isRelease] at this
    | init id =>
      simp only [run]
      by_cases hp : (run i0 cs).backupState.InProgress = true
      · have hs := initBackup_err_state (run i0 cs) id hp
        simp only [step, hs.1, hp, true_iff]
        obtain ⟨pre, id', post, heq, hok, hpost⟩ := ih.mp hp
        refine ⟨pre, id', post ++ [Call.init id], by simp [heq], hok, ?_⟩
        intro c hc
        rcases List.mem_append.mp hc with h | h
        · exact hpost c h
        · simp at h; subst h; rfl
      · have hp' : (run i0 cs).backupState.InProgress = false := by simpa using hp
        have hs := initBackup_ok_state (run i0 cs) id hp'
        simp only [step, hs, true_iff]
        exact ⟨cs, id, [], rfl, by simp [step, hs], by simp⟩

/-- C1: `initBackup(id)` returns an error if and only if `InProgress` is true at the time of
the call; when it errors the backup state is left as it was, and when it succeeds the state
becomes `{BackupID: id, InProgress: true}`. -/
theorem initBackup_contract (i : Index) (id : String) :
    ((i.initBackup id).2.isSome = true ↔ i.backupState.InProgress = true) ∧
    ((i.initBackup id).2.isSome = true → (i.initBackup id).1.backupState = i.backupState) ∧
    ((i.initBackup id).2 = none →
      (i.initBackup id).1.backupState = { BackupID := id, InProgress := true }) := by
  refine ⟨initBackup_err_iff i id, ?_, ?_⟩
  · intro h
    rw [(initBackup_err_state i id ((initBackup_err_iff i id).mp h)).1]
  · intro h
    cases hp : i.backupState.InProgress with
    | true =>
      have := (initBackup_err_state i id hp).2
      simp [h] at this
    | false => rw [initBackup_ok_state i id hp]

/-- C2: on an index that starts idle, in any sequence of `initBackup` and `ReleaseBackup`
calls and whatever resuming maintenance returns in each `ReleaseBackup`, an `initBackup` call
succeeds exactly when no earlier successful `initBackup` is still unreleased (has no
`ReleaseBackup` call after it). In particular `initBackup(a)` succeeds, a following
`initBackup(b)` fails and leaves `BackupID = a`, and after `ReleaseBackup(a)` the state is
idle and `initBackup(b)` succeeds. -/
theorem backup_at_most_one (i0 : Index) (hidle : i0.backupState.InProgress = false) :
    (∀ (pre : List Call) (id : String),
      (step (run i0 pre) (Call.init id)).2 = none ↔
        ¬ ∃ pre1 id1 pre2, pre = pre1 ++ Call.init id1 :: pre2 ∧
            (step (run i0 pre1) (Call.init id1)).2 = none ∧
            ∀ c ∈ pre2, c.isRelease = false) ∧
    (∀ (a b : String) (shards : List (String × Shard)),
      (step i0 (Call.init a)).2 = none ∧
      (step (run i0 [Call.init a]) (Call.init b)).2.isSome = true ∧
      (run i0 [Call.init a, Call.init b]).backupState = { BackupID := a, InProgress := true } ∧
      (run i0 [Call.init a, Call.init b, Call.release a shards]).backupState
        = { BackupID := "", InProgress := false } ∧
      (step (run i0 [Call.init a, Call.init b, Call.release a shards]) (Call.init b)).2
        = none ∧
      (run i0 [Call.init a, Call.init b, Call.release a shards, Call.init b]).backupState
        = { BackupID := b, InProgress := true }) := by
  constructor
  · intro pre id
    rw [← run_inProgress_iff i0 hidle pre]
    cases hp : (run i0 pre).backupState.InProgress with
    | true =>
      have := (initBackup_err_state (run i0 pre) id hp).2
      simp only [step]
      constructor
      · intro h; simp [h] at this
      · intro h; simp at h
    | false =>
      simp [step, initBackup_ok_state (run i0 pre) id hp]
  · intro a b shards
    have h1 := initBackup_ok_state i0 a hidle
    have hin : (run i0 [Call.init a]).backupState = { BackupID := a, InProgress := true } := by
      simp [run, step, h1]
    have h2 := initBackup_err_state (run i0 [Call.init a]) b (by rw [hin])
    have h3 : run i0 [Call.init a, Call.init b] = run i0 [Call.init a] := by
      have : run i0 [Call.init a, Call.init b] = run (run i0 [Call.init a]) [Call.init b] :=
        run_append i0 [Call.init a] [Call.init b]
      rw [this]
      simp only [run, step]
      exact h2.1
    have h4 : (run i0 [Call.init a, Call.init b, Call.release a shards]).backupState
        = { BackupID := "", InProgress := false } := by
      have : run i0 [Call.init a, Call.init b, Call.release a shards]
          = run (run i0 [Call.init a, Call.init b]) [Call.release a shards] :=
        run_append i0 [Call.init a, Call.init b] [Call.release a shards]
      rw [this]
      simp only [run]
      exact step_release_idle _ _ _
    have h5 := initBackup_ok_state (run i0 [Call.init a, Call.init b, Call.release a shards]) b
      (by rw [h4])
    refine ⟨by simp [step, h1], h2.2, by rw [h3, hin], h4, by simp [step, h5], ?_⟩
    have : run i0 [Call.init a, Call.init b, Call.release a shards, Call.init b]
        = run (run i0 [Call.init a, Call.init b, Call.release a shards]) [Call.init b] :=
      run_append i0 [Call.init a, Call.init b, Call.release a shards] [Call.init b]
    rw [this]
    show ((run i0 [Call.init a, Call.init b, Call.release a shards]).initBackup b).1.backupState
      = { BackupID := b, InProgress := true }
    rw [h5]

/-- Witness for C2 on the sample index. -/
theorem backup_at_most_one_witness :
    sampleIndex.backupState.InProgress = false ∧
    (step (run sampleIndex [Call.init "b1"]) (Call.init "b2")).2.isSome = true ∧
    (step (run sampleIndex [Call.init "b1", Call.init "b2", Call.release "b1" []])
      (Call.init "b2")).2 = none :=
  ⟨by decide,
   ((backup_at_most_one sampleIndex (by decide)).2 "b1" "b2" []).2.1,
   ((backup_at_most_one sampleIndex (by decide)).2 "b1" "b2" []).2.2.2.2.1⟩

/-- C3 (fails on the code): releasing a backup that does not exist returns no error.  On the
idle sample index `ReleaseBackup("b1")` returns nil, and with backup `b1` in progress
`ReleaseBackup("b2")` returns nil as well and resets the state of `b1`. -/
theorem ReleaseBackup_unknown_backup_no_error :
    sampleIndex.backupState.InProgress = false ∧
    (sampleIndex.ReleaseBackup "b1").2 = none ∧
    ((sampleIndex.initBackup "b1").1.ReleaseBackup "b2").2 = none ∧
    ((sampleIndex.initBackup "b1").1.ReleaseBackup "b2").1.backupState
      = { BackupID := "", InProgress := false } := by
  decide

theorem lookup_filter_ne (sm : List (String × Shard)) (k s : String) (h : s ≠ k) :
    (sm.filter (fun p => p.1 != k)).lookup s = sm.lookup s := by
  induction sm with
  | nil => rfl
  | cons p sm ih =>
    obtain ⟨k', v⟩ := p
    by_cases hk : k' = k
    · subst hk
      have hs : (s == k') = false := by simpa using h
      simp [List.filter, List.lookup, hs, ih]
    · have hk' : (k' != k) = true := by simpa using hk
      simp only [List.filter, hk', List.lookup]
      cases hsk : (s == k') <;> simp [ih]

theorem collectShards_ok (i : Index) (shards : List String) (sm : List (String × Shard))
    (h : collectShards i shards = .ok sm) :
    ∀ s ∈ shards, sm.lookup s = i.loadShard s ∧ (i.loadShard s).isSome = true := by
  induction shards generalizing sm with
  | nil => intro s hs; simp at hs
  | cons a rest ih =>
    intro s hs
    unfold collectShards at h
    cases hl : i.loadShard a with
    | none => simp [hl] at h
    | some shard =>
      simp only [hl] at h
      cases hr : collectShards i rest with
      | error e => simp [hr] at h
      | ok sm' =>
        simp only [hr, Except.ok.injEq] at h
        subst h
        by_cases hsa : s = a
        · subst hsa
          simp [List.lookup, hl]
        · have hs' : s ∈ rest := by
            rcases List.mem_cons.mp hs with h | h
            · exact absurd h hsa
            · exact h
          have hb : (s == a) = false := by simpa using hsa
          simp only [List.lookup, hb]
          rw [lookup_filter_ne sm' a s hsa]
          exact ih sm' hr s hs'

theorem collectShards_error (i : Index) (shards : List String) (e : String)
    (h : collectShards i shards = .error e) : ∃ s ∈ shards, i.loadShard s = none := by
  induction shards with
  | nil => simp [collectShards] at h
  | cons a rest ih =>
    unfold collectShards at h
    cases hl : i.loadShard a with
    | none => exact ⟨a, by simp, hl⟩
    | some shard =>
      simp only [hl] at h
      cases hr : collectShards i rest with
      | error e' =>
        obtain ⟨s, hs, hn⟩ := ih (by simpa [hr] using h)
        exact ⟨s, List.mem_cons_of_mem _ hs, hn⟩
      | ok sm' => simp [hr] at h

theorem forall₂_StepsOk_congr (f g : String → Option Shard) (order : List String)
    (sds : List ShardDescriptor) (heq : ∀ s ∈ order, f s = g s)
    (h : List.Forall₂ (StepsOk f) order sds) : List.Forall₂ (StepsOk g) order sds := by
  induction h with
  | nil => exact List.Forall₂.nil
  | @cons a b l1 l2 hab _ ih =>
    refine List.Forall₂.cons ?_ (ih (fun s hs => heq s (List.mem_cons_of_mem _ hs)))
    obtain ⟨sh, hl, hb, hf⟩ := hab
    exact ⟨sh, by rw [← heq a (by simp)]; exact hl, hb, hf⟩

theorem backupShards_ok (class_ : String) (sm : List (String × Shard)) (order : List String)
    (h : ∀ s ∈ order, ∃ sd, StepsOk (fun k => sm.lookup k) s sd) :
    ∃ evs sds, backupShards class_ sm order = (evs, sds, none) ∧
      List.Forall₂ (StepsOk (fun k => sm.lookup k)) order sds ∧
      ∀ id, Event.releaseBackup id ∉ evs := by
  induction order with
  | nil => exact ⟨[], [], rfl, List.Forall₂.nil, by simp⟩
  | cons a rest ih =>
    obtain ⟨sd, sh, hl, hb, hf⟩ := h a (by simp)
    obtain ⟨evs, sds, hrec, hall, hev⟩ := ih (fun s hs => h s (List.mem_cons_of_mem _ hs))
    refine ⟨Event.beginBackup a :: Event.listBackupFiles a :: evs, sd :: sds, ?_,
      List.Forall₂.cons ⟨sh, hl, hb, hf⟩ hall, ?_⟩
    · unfold backupShards
      simp only at hl
      simp [hl, hb, hf, hrec]
    · intro id
      simp [hev id]

theorem backupShards_error (class_ : String) (sm : List (String × Shard)) (order : List String)
    (hknown : ∀ s ∈ order, (sm.lookup s).isSome = true)
    (h : ∃ s ∈ order, ¬ ∃ sd, StepsOk (fun k => sm.lookup k) s sd) :
    ∃ evs sds e, backupShards class_ sm order = (evs, sds, some e) := by
  induction order with
  | nil => simp at h
  | cons a rest ih =>
    unfold backupShards
    cases hl : sm.lookup a with
    | none =>
      have := hknown a (by simp)
      simp [hl] at this
    | some sh =>
      simp only
      cases hb : sh.beginBackup with
      | some e => exact ⟨_, _, _, rfl⟩
      | none =>
        simp only
        cases hf : sh.listBackupFiles { Name := a, Files := [] } with
        | error e => exact ⟨_, _, _, rfl⟩
        | ok sd =>
          simp only
          obtain ⟨s, hs, hbad⟩ := h
          have hs' : s ∈ rest := by
            rcases List.mem_cons.mp hs with h | h
            · subst h
              exact absurd ⟨sd, sh, hl, hb, hf⟩ hbad
            · exact h
          obtain ⟨evs, sds, e, hrec⟩ :=
            ih (fun s hs => hknown s (List.mem_cons_of_mem _ hs)) ⟨s, hs', hbad⟩
          rw [hrec]
          exact ⟨_, _, _, rfl⟩

/-- C4: in a `ShardsBackup` call whose `initBackup` succeeded, if a requested shard is
unknown, or its `beginBackup` or `listBackupFiles` fails, the call returns an error and
spawns `ReleaseBackup(bakID)`, after which the backup state is idle; if every step succeeds
no release is spawned, the state stays `{BackupID: bakID, InProgress: true}` and the
descriptor holds one shard descriptor per distinct requested shard name, in the order the
map was iterated. -/
theorem ShardsBackup_defer_release (idx0 : Index) (bakID class_ : String)
    (shards order : List String)
    (hinit : (idx0.initBackup bakID).2 = none) (horder : order.Perm shards.dedup) :
    ((∃ s ∈ shards, ¬ ∃ sd, StepsOk idx0.loadShard s sd) →
      (ShardsBackup (some idx0) bakID class_ shards order).err.isSome = true ∧
      (ShardsBackup (some idx0) bakID class_ shards order).spawned = [bakID] ∧
      (ShardsBackup (some idx0) bakID class_ shards order).settled.map (fun i => i.backupState)
        = some { BackupID := "", InProgress := false }) ∧
    ((∀ s ∈ shards, ∃ sd, StepsOk idx0.loadShard s sd) →
      (ShardsBackup (some idx0) bakID class_ shards order).err = none ∧
      (ShardsBackup (some idx0) bakID class_ shards order).spawned = [] ∧
      (∀ id, Event.releaseBackup id ∉
        (ShardsBackup (some idx0) bakID class_ shards order).events) ∧
      (ShardsBackup (some idx0) bakID class_ shards order).settled.map (fun i => i.backupState)
        = some { BackupID := bakID, InProgress := true } ∧
      (ShardsBackup (some idx0) bakID class_ shards order).cd.Shards.length
        = shards.dedup.length ∧
      List.Forall₂ (StepsOk idx0.loadShard) order
        (ShardsBackup (some idx0) bakID class_ shards order).cd.Shards) := by
  have hidle : idx0.backupState.InProgress = false := by
    cases hp : idx0.backupState.InProgress with
    | false => rfl
    | true =>
      have := (initBackup_err_state idx0 bakID hp).2
      simp [hinit] at this
  have hib := initBackup_ok_state idx0 bakID hidle
  have hmem : ∀ s, s ∈ order ↔ s ∈ shards := fun s => by
    rw [horder.mem_iff, List.mem_dedup]
  constructor
  · rintro ⟨s, hs, hbad⟩
    unfold ShardsBackup
    simp only [hib]
    cases hc : collectShards
        { idx0 with backupState := { BackupID := bakID, InProgress := true } } shards with
    | error e =>
      simp [BackupResult.settled, ReleaseBackup_state, Index.resetBackupState]
    | ok sm =>
      have hlk := collectShards_ok _ shards sm hc
      have hknown : ∀ s ∈ order, (sm.lookup s).isSome = true := fun s hs => by
        rw [(hlk s ((hmem s).mp hs)).1]; exact (hlk s ((hmem s).mp hs)).2
      have hbad' : ∃ s ∈ order, ¬ ∃ sd, StepsOk (fun k => sm.lookup k) s sd := by
        refine ⟨s, (hmem s).mpr hs, ?_⟩
        rintro ⟨sd, sh, hl, hb, hf⟩
        exact hbad ⟨sd, sh, by rw [← hl]; exact ((hlk s hs).1).symm, hb, hf⟩
      obtain ⟨evs, sds, e, hrec⟩ := backupShards_error class_ sm order hknown hbad'
      simp [hrec, BackupResult.settled, ReleaseBackup_state, Index.resetBackupState]
  · intro hall
    unfold ShardsBackup
    simp only [hib]
    cases hc : collectShards
        { idx0 with backupState := { BackupID := bakID, InProgress := true } } shards with
    | error e =>
      obtain ⟨s, hs, hn⟩ := collectShards_error _ shards e hc
      obtain ⟨sd, sh, hl, -, -⟩ := hall s hs
      have : idx0.loadShard s = none := hn
      simp [hl] at this
    | ok sm =>
      have hlk := collectShards_ok _ shards sm hc
      have hlk' : ∀ s ∈ shards, sm.lookup s = idx0.loadShard s := fun s hs => (hlk s hs).1
      have hgood : ∀ s ∈ order, ∃ sd, StepsOk (fun k => sm.lookup k) s sd := by
        intro s hs
        obtain ⟨sd, sh, hl, hb, hf⟩ := hall s ((hmem s).mp hs)
        exact ⟨sd, sh, by rw [← hl]; exact hlk' s ((hmem s).mp hs), hb, hf⟩
      obtain ⟨evs, sds, hrec, hf2, hev⟩ := backupShards_ok class_ sm order hgood
      have hf2' : List.Forall₂ (StepsOk idx0.loadShard) order sds :=
        forall₂_StepsOk_congr _ _ order sds
          (fun s hs => hlk' s ((hmem s).mp hs)) hf2
      simp only [hrec]
      refine ⟨trivial, trivial, hev, by simp [BackupResult.settled], ?_, hf2'⟩
      show sds.length = shards.dedup.length
      rw [← hf2.length_eq, horder.length_eq]

/-- Witness for C4: two requests for the one shard of the sample index, all steps succeed. -/
theorem ShardsBackup_defer_release_witness :
    (sampleIndex.initBackup "b1").2 = none ∧ ["s1"].Perm ["s1", "s1"].dedup ∧
    (ShardsBackup (some sampleIndex) "b1" "C" ["s1", "s1"] ["s1"]).cd.Shards.length
      = ["s1", "s1"].dedup.length :=
  ⟨by decide, by decide,
   ((ShardsBackup_defer_release sampleIndex "b1" "C" ["s1", "s1"] ["s1"]
      (by decide) (by decide)).2
      (by
        intro s hs
        have hs1 : s = "s1" := by simpa using hs
        subst hs1
        exact ⟨{ Name := "s1", Files := ["f1"] }, _, rfl, rfl, rfl⟩)).2.2.2.2.1⟩

end Backup

/-! # Theorems: HNSW index -/

namespace Hnsw

/-! ## The ordered candidate set -/

namespace binarySearchTreeGeneric

variable {F : Type} [LinearOrder F]

theorem mem_insertSorted (x e : Elem F) (l : List (Elem F)) :
    e ∈ insertSorted x l ↔ e = x ∨ e ∈ l := by
  induction l with
  | nil => simp [insertSorted]
  | cons y ys ih =>
    unfold insertSorted
    split
    · simp
    · simp [ih]; tauto

theorem length_insertSorted (x : Elem F) (l : List (Elem F)) :
    (insertSorted x l).length = l.length + 1 := by
  induction l with
  | nil => simp [insertSorted]
  | cons y ys ih =>
    unfold insertSorted
    split <;> simp [ih]

theorem mem_insert {t : binarySearchTreeGeneric F} {i : Int} {d : F} {e : Elem F}
    (h : e ∈ (t.insert i d).flat) : e = ⟨i, d⟩ ∨ e ∈ t.flat := by
  unfold insert at h
  split at h
  · exact Or.inr h
  · exact (mem_insertSorted _ _ _).mp h

theorem length_insert_le (t : binarySearchTreeGeneric F) (i : Int) (d : F) :
    (t.insert i d).flat.length ≤ t.flat.length + 1 := by
  unfold insert
  split
  · omega
  · simp [length_insertSorted]

theorem mem_delete {t : binarySearchTreeGeneric F} {i : Int} {d : F} {e : Elem F}
    (h : e ∈ (t.delete i d).flat) : e ∈ t.flat := by
  unfold delete at h
  exact (List.mem_filter.mp h).1

theorem length_delete_le (t : binarySearchTreeGeneric F) (i : Int) (d : F) :
    (t.delete i d).flat.length ≤ t.flat.length := by
  unfold delete
  exact List.length_filter_le _ _

theorem length_delete_lt {t : binarySearchTreeGeneric F} {e : Elem F} (h : e ∈ t.flat) :
    (t.delete e.index e.dist).flat.length < t.flat.length := by
  unfold delete
  apply List.length_filter_lt_length_iff_exists.mpr
  exact ⟨e, h, by simp⟩

theorem minimum_mem {t : binarySearchTreeGeneric F} {e : Elem F} (h : t.minimum = some e) :
    e ∈ t.flat := by
  unfold minimum at h
  exact List.mem_of_mem_head? h

theorem maximum_mem {t : binarySearchTreeGeneric F} {e : Elem F} (h : t.maximum = some e) :
    e ∈ t.flat := by
  unfold maximum at h
  exact List.mem_of_getLast?_eq_some h

theorem mem_foldl_insert (l : List (Elem F)) (t : binarySearchTreeGeneric F) (e : Elem F)
    (h : e ∈ (l.foldl (fun t ep => t.insert ep.index ep.dist) t).flat) :
    e ∈ l ∨ e ∈ t.flat := by
  induction l generalizing t with
  | nil => exact Or.inr h
  | cons a l ih =>
    simp only [List.foldl] at h
    rcases ih _ h with h1 | h1
    · exact Or.inl (List.mem_cons_of_mem _ h1)
    · rcases mem_insert h1 with h2 | h2
      · left; rw [h2]; cases a; simp
      · exact Or.inr h2

theorem length_foldl_insert_le (l : List (Elem F)) (t : binarySearchTreeGeneric F) :
    (l.foldl (fun t ep => t.insert ep.index ep.dist) t).flat.length
      ≤ t.flat.length + l.length := by
  induction l generalizing t with
  | nil => simp
  | cons a l ih =>
    simp only [List.foldl, List.length_cons]
    have := ih (t.insert a.index a.dist)
    have := length_insert_le t a.index a.dist
    omega

end binarySearchTreeGeneric

open binarySearchTreeGeneric

section SearchLemmas

variable {F : Type} [LinearOrder F]

/-! ## Membership in the result of `searchLayer` -/

theorem visitNeighbors_forall (env : Env F) (queryId ef : Int) (worst : F) (P : Int → Prop)
    (conns : List U32) (s s' : SearchState F)
    (hc : ∀ x ∈ conns, P (x.val : Int))
    (h1 : ∀ e ∈ s.candidates.flat, P e.index) (h2 : ∀ e ∈ s.results.flat, P e.index)
    (h : visitNeighbors env queryId ef worst conns s = .ok s') :
    (∀ e ∈ s'.candidates.flat, P e.index) ∧ (∀ e ∈ s'.results.flat, P e.index) := by
  induction conns generalizing s with
  | nil =>
    simp only [visitNeighbors, Res.ok.injEq] at h
    subst h
    exact ⟨h1, h2⟩
  | cons nb rest ih =>
    have hrest : ∀ x ∈ rest, P (x.val : Int) := fun x hx => hc x (List.mem_cons_of_mem _ hx)
    have hnb : P (nb.val : Int) := hc nb (by simp)
    have hins : ∀ (t : binarySearchTreeGeneric F) (d : F), (∀ e ∈ t.flat, P e.index) →
        ∀ e ∈ (t.insert (nb.val : Int) d).flat, P e.index := by
      intro t d ht e he
      rcases mem_insert he with h | h
      · rw [h]; exact hnb
      · exact ht e h
    unfold visitNeighbors at h
    simp only at h
    repeat' split at h
    all_goals first
      | (simp at h)
      | (refine ih _ hrest ?_ ?_ h
         · first
           | exact h1
           | exact hins _ _ h1
         · first
           | exact h2
           | exact hins _ _ h2
           | exact fun e he => hins _ _ h2 e (mem_delete he))

theorem searchLoop_forall (env : Env F) (h : hnsw) (q : Option hnswVertex) (ef level : Int)
    (P : Int → Prop)
    (hconn : ∀ i v x, h.nodes i = some v → x ∈ v.connections level → P (x.val : Int))
    (fuel : Nat) (s : SearchState F) (r : binarySearchTreeGeneric F)
    (h1 : ∀ e ∈ s.candidates.flat, P e.index) (h2 : ∀ e ∈ s.results.flat, P e.index)
    (hr : searchLoop env h q ef level fuel s = .ok r) : ∀ e ∈ r.flat, P e.index := by
  induction fuel generalizing s with
  | zero => simp [searchLoop] at hr
  | succ fuel ih =>
    unfold searchLoop at hr
    split at hr
    · simp only [Res.ok.injEq] at hr
      subst hr
      exact h2
    · rename_i candidate hcand
      simp only at hr
      split at hr
      · simp at hr
      · simp at hr
      · split at hr
        · simp at hr
        · split at hr
          · simp at hr
          · split at hr
            · simp only [Res.ok.injEq] at hr
              subst hr
              exact h2
            · split at hr
              · simp at hr
              · simp at hr
              · rename_i cnode hnode
                split at hr
                · rename_i s' hs'
                  have hcn : ∀ x ∈ cnode.connections level, P (x.val : Int) := by
                    intro x hx
                    unfold hnsw.nodeAt at hnode
                    split at hnode
                    · simp only [Option.some.injEq] at hnode
                      exact hconn _ _ x hnode hx
                    · simp at hnode
                  have := visitNeighbors_forall env _ ef _ P _
                    ⟨s.visited, s.candidates.delete candidate.index candidate.dist, s.results⟩
                    s' hcn (fun e he => h1 e (mem_delete he)) h2 hs'
                  exact ih s' this.1 this.2 hr
                · simp at hr
                · simp at hr
                · simp at hr

/-- Every entry of a `searchLayer` result is an entry point or a neighbour, at the searched
level, of some node of the graph. -/
theorem searchLayer_forall (env : Env F) (h : hnsw) (q : Option hnswVertex) (ef level : Int)
    (P : Int → Prop) (eps r : binarySearchTreeGeneric F)
    (heps : ∀ e ∈ eps.flat, P e.index)
    (hconn : ∀ i v x, h.nodes i = some v → x ∈ v.connections level → P (x.val : Int))
    (hr : searchLayer env h q eps ef level = .ok r) : ∀ e ∈ r.flat, P e.index := by
  unfold searchLayer at hr
  have hinit : ∀ e ∈ (eps.flattenInOrder.foldl
      (fun t ep => t.insert ep.index ep.dist) (empty : binarySearchTreeGeneric F)).flat,
      P e.index := by
    intro e he
    rcases mem_foldl_insert _ _ e he with h | h
    · exact heps e h
    · simp [empty] at h
  exact searchLoop_forall env h q ef level P hconn _ _ r hinit hinit hr

/-! ## The loop of `searchLayer` ends within its fuel -/

theorem u32_nodup_length_le (l : List U32) (h : l.Nodup) : l.length ≤ 4294967296 := by
  have := List.Nodup.length_le_card h
  rw [Fintype.card_fin] at this
  exact this

theorem visitNeighbors_measure (env : Env F) (queryId ef : Int) (worst : F)
    (conns : List U32) (s : SearchState F) (hnd : s.visited.Nodup) :
    visitNeighbors env queryId ef worst conns s ≠ .fuel ∧
    ∀ s', visitNeighbors env queryId ef worst conns s = .ok s' →
      s'.visited.Nodup ∧
      2 * (4294967296 - s'.visited.length) + s'.candidates.flat.length
        ≤ 2 * (4294967296 - s.visited.length) + s.candidates.flat.length := by
  induction conns generalizing s with
  | nil =>
    simp only [visitNeighbors]
    refine ⟨by simp, ?_⟩
    intro s' h
    simp only [Res.ok.injEq] at h
    subst h
    exact ⟨hnd, le_refl _⟩
  | cons nb rest ih =>
    unfold visitNeighbors
    split
    · exact ih s hnd
    · rename_i hnv
      have hnd' : (nb :: s.visited).Nodup := List.nodup_cons.mpr ⟨hnv, hnd⟩
      have hlen := u32_nodup_length_le _ hnd'
      simp only [List.length_cons] at hlen
      split
      · exact ⟨by simp, by simp⟩
      · rename_i distance hd
        simp only
        split
        · have hci := length_insert_le s.candidates (nb.val : Int) distance
          split
          · split
            · exact ⟨by simp, by simp⟩
            · rename_i mx hmx
              have := ih ⟨nb :: s.visited, s.candidates.insert (nb.val : Int) distance,
                ((s.results.insert (nb.val : Int) distance).delete mx.index mx.dist)⟩ hnd'
              refine ⟨this.1, ?_⟩
              intro s' hs'
              have h3 := this.2 s' hs'
              refine ⟨h3.1, ?_⟩
              have h4 := h3.2
              simp only [List.length_cons] at h4
              omega
          · have := ih ⟨nb :: s.visited, s.candidates.insert (nb.val : Int) distance,
                (s.results.insert (nb.val : Int) distance)⟩ hnd'
            refine ⟨this.1, ?_⟩
            intro s' hs'
            have h3 := this.2 s' hs'
            refine ⟨h3.1, ?_⟩
            have h4 := h3.2
            simp only [List.length_cons] at h4
            omega
        · have := ih ⟨nb :: s.visited, s.candidates, s.results⟩ hnd'
          refine ⟨this.1, ?_⟩
          intro s' hs'
          have h3 := this.2 s' hs'
          refine ⟨h3.1, ?_⟩
          have h4 := h3.2
          simp only [List.length_cons] at h4
          omega

theorem searchLoop_ne_fuel (env : Env F) (h : hnsw) (q : Option hnswVertex) (ef level : Int)
    (fuel : Nat) (s : SearchState F) (hnd : s.visited.Nodup)
    (hf : 2 * (4294967296 - s.visited.length) + s.candidates.flat.length < fuel) :
    searchLoop env h q ef level fuel s ≠ .fuel := by
  induction fuel generalizing s with
  | zero => omega
  | succ fuel ih =>
    unfold searchLoop
    split
    · simp
    · rename_i candidate hcand
      simp only
      split
      · simp
      · simp
      · split
        · simp
        · split
          · simp
          · split
            · simp
            · split
              · simp
              · simp
              · rename_i cnode hnode
                have hdel := length_delete_lt (minimum_mem hcand)
                have hm := fun qid w => visitNeighbors_measure env qid ef w
                  (cnode.connections level)
                  ⟨s.visited, s.candidates.delete candidate.index candidate.dist, s.results⟩ hnd
                split
                · rename_i s' hs'
                  have h3 := (hm _ _).2 s' hs'
                  apply ih s' h3.1
                  have h4 := h3.2
                  simp only at h4
                  omega
                · simp
                · simp
                · rename_i hfu
                  exact absurd hfu (hm _ _).1

theorem searchInit_visited_nodup (l : List (Elem F)) (acc : List U32) (h : acc.Nodup) :
    (l.foldl (fun vis elem => if uint32 elem.index ∈ vis then vis else uint32 elem.index :: vis)
      acc).Nodup := by
  induction l generalizing acc with
  | nil => exact h
  | cons a l ih =>
    simp only [List.foldl]
    apply ih
    split
    · exact h
    · rename_i hn
      exact List.nodup_cons.mpr ⟨hn, h⟩

/-- The loop of `searchLayer` always ends within the fuel `searchFuel` gives it. -/
theorem searchLayer_ne_fuel (env : Env F) (h : hnsw) (q : Option hnswVertex)
    (eps : binarySearchTreeGeneric F) (ef level : Int) :
    searchLayer env h q eps ef level ≠ .fuel := by
  unfold searchLayer
  apply searchLoop_ne_fuel
  · exact searchInit_visited_nodup _ _ List.nodup_nil
  · have := length_foldl_insert_le eps.flattenInOrder (empty : binarySearchTreeGeneric F)
    simp only [searchInit, searchFuel, flattenInOrder, empty, List.length_nil] at *
    omega

end SearchLemmas

end Hnsw

namespace Hnsw

open binarySearchTreeGeneric

/-! ## Conversions -/

theorem uint32_natCast (j : Nat) (hj : j < 4294967296) : (uint32 (j : Int)).val = j := by
  simp only [uint32]
  omega

theorem uint32_val (x : U32) : uint32 (x.val : Int) = x :=
  Fin.ext (uint32_natCast x.val x.isLt)

theorem uint32_of_nonneg (a : Int) (h0 : 0 ≤ a) (h1 : a < 4294967296) :
    (uint32 a).val = a.toNat := by
  simp only [uint32]
  omega

/-! ## Shape of the index under linking -/

theorem SameShape.refl (h : hnsw) : SameShape h h :=
  ⟨rfl, rfl, rfl, rfl, rfl, rfl, fun _ => rfl⟩

theorem SameShape.trans {h1 h2 h3 : hnsw} (a : SameShape h1 h2) (b : SameShape h2 h3) :
    SameShape h1 h3 := by
  obtain ⟨a1, a2, a3, a4, a5, a6, a7⟩ := a
  obtain ⟨b1, b2, b3, b4, b5, b6, b7⟩ := b
  exact ⟨b1.trans a1, b2.trans a2, b3.trans a3, b4.trans a4, b5.trans a5, b6.trans a6,
    fun i => (b7 i).trans (a7 i)⟩

theorem SameShape.isSome {h h' : hnsw} (s : SameShape h h') (i : Nat) :
    (h'.nodes i).isSome = (h.nodes i).isSome := by
  have := congrArg Option.isSome (s.2.2.2.2.2.2 i)
  simpa using this

theorem SameShape.node {h h' : hnsw} (s : SameShape h h') {i : Nat} {v : hnswVertex}
    (hv : h.nodes i = some v) : ∃ v', h'.nodes i = some v' ∧ v'.id = v.id ∧ v'.level = v.level := by
  have := s.2.2.2.2.2.2 i
  rw [hv] at this
  cases hv' : h'.nodes i with
  | none => simp [hv'] at this
  | some v' =>
    simp only [hv', Option.map_some', Option.some.injEq, Prod.mk.injEq] at this
    exact ⟨v', rfl, this.1, this.2⟩

theorem SameShape.node_back {h h' : hnsw} (s : SameShape h h') {i : Nat} {v' : hnswVertex}
    (hv : h'.nodes i = some v') : ∃ v, h.nodes i = some v ∧ v'.id = v.id ∧ v'.level = v.level := by
  have := s.2.2.2.2.2.2 i
  rw [hv] at this
  cases hv' : h.nodes i with
  | none => simp [hv'] at this
  | some v =>
    simp only [hv', Option.map_some', Option.some.injEq, Prod.mk.injEq] at this
    exact ⟨v, rfl, this.1, this.2⟩

theorem SameShape.cap {h h' : hnsw} (s : SameShape h h') (l : Int) : cap h' l = cap h l := by
  unfold Hnsw.cap
  rw [s.1, s.2.1]

theorem linkAtLevel_shape (h : hnsw) (slot : Nat) (L : Int) (t : U32) :
    SameShape h (h.linkAtLevel slot L t) := by
  unfold hnsw.linkAtLevel
  cases hv : h.nodes slot with
  | none => exact SameShape.refl h
  | some v =>
    refine ⟨rfl, rfl, rfl, rfl, rfl, rfl, fun i => ?_⟩
    by_cases hi : i = slot
    · subst hi
      simp [hv, hnswVertex.linkAtLevel]
    · simp [Function.update_noteq hi]

theorem replaceLinks_shape (h : hnsw) (slot : Nat) (L : Int) (links : List U32) :
    SameShape h (h.replaceLinksAtLevel slot L links) := by
  unfold hnsw.replaceLinksAtLevel
  cases hv : h.nodes slot with
  | none => exact SameShape.refl h
  | some v =>
    refine ⟨rfl, rfl, rfl, rfl, rfl, rfl, fun i => ?_⟩
    by_cases hi : i = slot
    · subst hi
      simp [hv]
    · simp [Function.update_noteq hi]

theorem linkAtLevel_conn (h : hnsw) (slot : Nat) (L : Int) (t : U32) (i : Nat) (l : Int) :
    (h.linkAtLevel slot L t).conn i l =
      if i = slot ∧ l = L ∧ (h.nodes slot).isSome = true then h.conn i l ++ [t]
      else h.conn i l := by
  unfold hnsw.linkAtLevel
  cases hv : h.nodes slot with
  | none => simp
  | some v =>
    by_cases hi : i = slot
    · subst hi
      by_cases hl : l = L
      · subst hl
        simp [hnsw.conn, hv, hnswVertex.linkAtLevel]
      · simp [hnsw.conn, hv, hnswVertex.linkAtLevel, Function.update_noteq hl, hl]
    · simp [hnsw.conn, Function.update_noteq hi, hi]

theorem replaceLinks_conn (h : hnsw) (slot : Nat) (L : Int) (links : List U32) (i : Nat)
    (l : Int) :
    (h.replaceLinksAtLevel slot L links).conn i l =
      if i = slot ∧ l = L ∧ (h.nodes slot).isSome = true then links else h.conn i l := by
  unfold hnsw.replaceLinksAtLevel
  cases hv : h.nodes slot with
  | none => simp
  | some v =>
    by_cases hi : i = slot
    · subst hi
      by_cases hl : l = L
      · subst hl
        simp [hnsw.conn, hv]
      · simp [hnsw.conn, hv, Function.update_noteq hl, hl]
    · simp [hnsw.conn, Function.update_noteq hi, hi]

theorem linkAtLevel_log (h : hnsw) (slot : Nat) (L : Int) (t : U32) :
    (h.linkAtLevel slot L t).commitLog =
      h.commitLog ++ (match h.nodes slot with
        | some v => [CommitRecord.AddLink v.id L t]
        | none => []) := by
  unfold hnsw.linkAtLevel
  cases hv : h.nodes slot <;> simp [hnswVertex.linkAtLevel]

theorem replaceLinks_log (h : hnsw) (slot : Nat) (L : Int) (links : List U32) :
    (h.replaceLinksAtLevel slot L links).commitLog =
      h.commitLog ++ (match h.nodes slot with
        | some v => [CommitRecord.ReplaceLinks v.id L links]
        | none => []) := by
  unfold hnsw.replaceLinksAtLevel
  cases hv : h.nodes slot <;> simp

theorem conn_of_node {h : hnsw} {i : Nat} {v : hnswVertex} (hv : h.nodes i = some v) (l : Int) :
    h.conn i l = v.connections l := by
  simp [hnsw.conn, hv]

theorem nodeAt_some {h : hnsw} {i : Int} {o : Option hnswVertex} (hn : h.nodeAt i = some o) :
    0 ≤ i ∧ i < (h.nodesLen : Int) ∧ h.nodes i.toNat = o := by
  unfold hnsw.nodeAt at hn
  split at hn
  · rename_i hc
    simp only [Option.some.injEq] at hn
    exact ⟨hc.1, hc.2, hn⟩
  · simp at hn

section LinkLemmas

variable {F : Type} [LinearOrder F]

/-! ## One pass over the neighbours -/

theorem linkNeighbors_cons_ok (env : Env F) (nodeId L : Int) (nb : U32) (rest : List U32)
    (h0 hf : hnsw) (h : linkNeighbors env nodeId L (nb :: rest) h0 = (hf, .ok)) :
    ∃ neighbor h', h0.nodes nb.val = some neighbor ∧ nb.val < h0.nodesLen ∧
      StepTo env nodeId L h0 nb neighbor h' ∧
      linkNeighbors env nodeId L rest h' = (hf, .ok) := by
  unfold linkNeighbors at h
  simp only at h
  split at h
  · simp at h
  · simp at h
  · rename_i neighbor hn
    have hn' := nodeAt_some hn
    have hnode : h0.nodes nb.val = some neighbor := by simpa using hn'.2.2
    have hlt : nb.val < h0.nodesLen := by
      have := hn'.2.1
      omega
    have hcap : (if L = 0 then
        ((h0.linkAtLevel nb.val L (uint32 nodeId)).linkAtLevel nodeId.toNat L
          (uint32 neighbor.id)).maximumConnectionsLayerZero
        else ((h0.linkAtLevel nb.val L (uint32 nodeId)).linkAtLevel nodeId.toNat L
          (uint32 neighbor.id)).maximumConnections) = cap h0 L := by
      have s := (linkAtLevel_shape h0 nb.val L (uint32 nodeId)).trans
        (linkAtLevel_shape _ nodeId.toNat L (uint32 neighbor.id))
      have := s.cap L
      unfold cap at this
      exact this
    rw [hcap] at h
    split at h
    · rename_i hle
      exact ⟨neighbor, _, hnode, hlt, Or.inl ⟨hle, rfl⟩, h⟩
    · rename_i hgt
      split at h
      · simp at h
      · simp at h
      · simp at h
      · rename_i upd hsel
        exact ⟨neighbor, _, hnode, hlt, Or.inr ⟨hgt, upd, hsel, rfl⟩, h⟩

theorem StepTo.shape {env : Env F} {nodeId L : Int} {h : hnsw} {nb : U32}
    {neighbor : hnswVertex} {h' : hnsw} (st : StepTo env nodeId L h nb neighbor h') :
    SameShape h h' := by
  have s := (linkAtLevel_shape h nb.val L (uint32 nodeId)).trans
    (linkAtLevel_shape _ nodeId.toNat L (uint32 neighbor.id))
  rcases st with ⟨_, rfl⟩ | ⟨_, upd, _, rfl⟩
  · exact s
  · exact s.trans (replaceLinks_shape _ _ _ _)

/-- Whatever the outcome, the loop over the neighbours leaves the shape of the index. -/
theorem linkNeighbors_shape (env : Env F) (nodeId L : Int) (ns : List U32) (h : hnsw) :
    SameShape h (linkNeighbors env nodeId L ns h).1 := by
  induction ns generalizing h with
  | nil => exact SameShape.refl h
  | cons nb rest ih =>
    unfold linkNeighbors
    simp only
    have s := fun (t : U32) => (linkAtLevel_shape h nb.val L (uint32 nodeId)).trans
      (linkAtLevel_shape _ nodeId.toNat L t)
    repeat' split
    all_goals first
      | exact SameShape.refl h
      | exact s _
      | exact (s _).trans (ih _)
      | exact ((s _).trans (replaceLinks_shape _ _ _ _)).trans (ih _)

theorem linkLevels_shape (env : Env F) (nodeId : Int) (n : Nat) (level : Int)
    (results : binarySearchTreeGeneric F) (h : hnsw) :
    SameShape h (linkLevels env nodeId n level results h).1 := by
  induction n generalizing level results h with
  | zero => exact SameShape.refl h
  | succ n ih =>
    unfold linkLevels
    split
    · exact SameShape.refl h
    · exact SameShape.refl h
    · exact SameShape.refl h
    · split
      · exact SameShape.refl h
      · exact SameShape.refl h
      · exact SameShape.refl h
      · rename_i results' _ neighbors _
        have s := linkNeighbors_shape env nodeId level neighbors h
        split
        · rename_i h' heq
          rw [heq] at s
          exact s.trans (ih _ _ _)
        · rename_i h' out hne heq
          rw [heq] at s
          exact s

end LinkLemmas

end Hnsw

namespace Hnsw

open binarySearchTreeGeneric

section SelectLemmas

variable {F : Type} [LinearOrder F]

/-! ## Neighbour selection -/

theorem selectNeighborsSimple_ok (nodeId : Int) (input : binarySearchTreeGeneric F) (max : Int)
    (out : List U32) (h : selectNeighborsSimple nodeId input max = .ok out) :
    (out.length : Int) ≤ max ∧ ∀ x ∈ out, ∃ e ∈ input.flat, x = uint32 e.index := by
  unfold selectNeighborsSimple at h
  simp only at h
  split at h
  · simp at h
  · rename_i hsz
    simp only [Res.ok.injEq] at h
    subst h
    constructor
    · simp only [List.length_map, List.length_take, flattenInOrder]
      unfold Hnsw.min at *
      split at hsz <;> split <;> omega
    · intro x hx
      obtain ⟨e, he, rfl⟩ := List.mem_map.mp hx
      exact ⟨e, List.mem_of_mem_take he, rfl⟩

theorem fillFromIds_mem (env : Env F) (nodeId : Int) (ids : List U32)
    (bst bst' : binarySearchTreeGeneric F) (h : fillFromIds env nodeId ids bst = .ok bst') :
    ∀ e ∈ bst'.flat, e ∈ bst.flat ∨ ∃ id ∈ ids, e.index = (id.val : Int) := by
  induction ids generalizing bst with
  | nil =>
    simp only [fillFromIds, Except.ok.injEq] at h
    subst h
    exact fun e he => Or.inl he
  | cons id rest ih =>
    unfold fillFromIds at h
    split at h
    · simp at h
    · intro e he
      rcases ih _ h e he with h1 | ⟨id', hid', heq⟩
      · rcases mem_insert h1 with h2 | h2
        · right
          exact ⟨id, by simp, by rw [h2]⟩
        · exact Or.inl h2
      · exact Or.inr ⟨id', List.mem_cons_of_mem _ hid', heq⟩

theorem selectNeighborsSimpleFromId_ok (env : Env F) (nodeId : Int) (ids : List U32) (max : Int)
    (upd : List U32) (h : selectNeighborsSimpleFromId env nodeId ids max = .ok upd) :
    (upd.length : Int) ≤ max ∧ ∀ x ∈ upd, x ∈ ids := by
  unfold selectNeighborsSimpleFromId at h
  split at h
  · simp at h
  · rename_i bst hb
    have hs := selectNeighborsSimple_ok nodeId bst max upd h
    refine ⟨hs.1, ?_⟩
    intro x hx
    obtain ⟨e, he, rfl⟩ := hs.2 x hx
    rcases fillFromIds_mem env nodeId ids _ bst hb e he with h1 | ⟨id, hid, heq⟩
    · simp [empty] at h1
    · rw [heq, uint32_val]
      exact hid

end SelectLemmas

end Hnsw

namespace Hnsw

open binarySearchTreeGeneric

theorem IdsOk.ids_of_shape {h h' : hnsw} (s : SameShape h h') (a : IdsOk h) : IdsOk h' := by
  refine ⟨by rw [s.2.2.2.2.2.1]; exact a.1, ?_⟩
  intro i v' hv'
  obtain ⟨v, hv, hid, _⟩ := s.node_back hv'
  rw [hid, s.2.2.2.2.2.1]
  exact a.2 i v hv

theorem CfgOk.cfg_of_shape {h h' : hnsw} (s : SameShape h h') (a : CfgOk h) : CfgOk h' := by
  unfold CfgOk
  rw [s.1, s.2.1]
  exact a

theorem CfgOk.cfg_of_shape_back {h h' : hnsw} (s : SameShape h h') (a : CfgOk h') : CfgOk h := by
  unfold CfgOk at *
  rw [s.1, s.2.1] at a
  exact a

theorem CfgOk.le_cap {h : hnsw} (a : CfgOk h) (l : Int) : h.maximumConnections ≤ cap h l := by
  unfold cap
  obtain ⟨a1, a2⟩ := a
  split <;> omega

theorem IdsOk.lt {h : hnsw} (a : IdsOk h) {i : Nat} (hp : (h.nodes i).isSome = true) :
    i < 4294967296 := by
  obtain ⟨v, hv⟩ := Option.isSome_iff_exists.mp hp
  have := (a.2 i v hv).2
  have := a.1
  omega

theorem IdsOk.id_eq {h : hnsw} (a : IdsOk h) {i : Nat} {v : hnswVertex}
    (hv : h.nodes i = some v) : v.id = (i : Int) := (a.2 i v hv).1

theorem NoReplace.append {l1 l2 : List CommitRecord} (h : NoReplace (l1 ++ l2)) :
    NoReplace l1 ∧ NoReplace l2 :=
  ⟨fun r hr => h r (List.mem_append_left _ hr), fun r hr => h r (List.mem_append_right _ hr)⟩

/-- The two `linkAtLevel` calls of one pass, as a change of adjacency lists. -/
theorem twoLinks_conn (h : hnsw) (a k : Nat) (L : Int) (t1 t2 : U32)
    (ha : (h.nodes a).isSome = true) (hk : (h.nodes k).isSome = true) (hne : a ≠ k)
    (i : Nat) (l : Int) :
    ((h.linkAtLevel a L t1).linkAtLevel k L t2).conn i l =
      if l = L ∧ i = k then h.conn i l ++ [t2]
      else if l = L ∧ i = a then h.conn i l ++ [t1]
      else h.conn i l := by
  have hk1 : ((h.linkAtLevel a L t1).nodes k).isSome = true := by
    rw [(linkAtLevel_shape h a L t1).isSome]; exact hk
  rw [linkAtLevel_conn, linkAtLevel_conn]
  by_cases hl : l = L
  · by_cases hik : i = k
    · have : ¬ (i = a) := by rw [hik]; exact fun e => hne e.symm
      simp [hl, hik, hk1, this, Ne.symm hne]
    · by_cases hia : i = a
      · simp [hl, hia, ha, hne]
      · simp [hl, hik, hia]
  · simp [hl]

theorem twoLinks_log (h : hnsw) (a k : Nat) (L : Int) (t1 t2 : U32) (va vk : hnswVertex)
    (ha : h.nodes a = some va) (hk : h.nodes k = some vk) :
    ((h.linkAtLevel a L t1).linkAtLevel k L t2).commitLog =
      h.commitLog ++ [CommitRecord.AddLink va.id L t1, CommitRecord.AddLink vk.id L t2] := by
  obtain ⟨vk', hvk', hid, _⟩ := (linkAtLevel_shape h a L t1).node hk
  rw [linkAtLevel_log, linkAtLevel_log, ha, hvk']
  simp [hid]

section StepLemmas

variable {F : Type} [LinearOrder F]

/-- What one pass over a neighbour does to the adjacency lists and the log: the new node
gains the neighbour, the neighbour's list becomes `lst`, within the cap and drawn from its
old list and the new node; either nothing was trimmed or a `ReplaceLinks` was logged. -/
theorem StepTo.spec {env : Env F} {nodeId L : Int} {h h' : hnsw} {nb : U32}
    {neighbor : hnswVertex} (st : StepTo env nodeId L h nb neighbor h')
    (hnb : h.nodes nb.val = some neighbor) (hk : (h.nodes nodeId.toNat).isSome = true)
    (hne : nb.val ≠ nodeId.toNat) :
    ∃ lst : List U32,
      (∀ i l, h'.conn i l =
        if l = L ∧ i = nodeId.toNat then h.conn i l ++ [uint32 neighbor.id]
        else if l = L ∧ i = nb.val then lst
        else h.conn i l) ∧
      (lst.length : Int) ≤ cap h L ∧
      (∀ x ∈ lst, x ∈ h.conn nb.val L ∨ x = uint32 nodeId) ∧
      ((lst = h.conn nb.val L ++ [uint32 nodeId] ∧
          ∃ r1 r2, r1.isReplaceLinks = false ∧ r2.isReplaceLinks = false ∧
            h'.commitLog = h.commitLog ++ [r1, r2]) ∨
        ∃ r ∈ h'.commitLog, r.isReplaceLinks = true) := by
  have hnbs : (h.nodes nb.val).isSome = true := by rw [hnb]; rfl
  have hc := twoLinks_conn h nb.val nodeId.toNat L (uint32 nodeId) (uint32 neighbor.id)
    hnbs hk hne
  have hcnb : ((h.linkAtLevel nb.val L (uint32 nodeId)).linkAtLevel nodeId.toNat L
      (uint32 neighbor.id)).conn nb.val L = h.conn nb.val L ++ [uint32 nodeId] := by
    rw [hc]; simp [hne]
  obtain ⟨vk, hvk⟩ := Option.isSome_iff_exists.mp hk
  rcases st with ⟨hle, rfl⟩ | ⟨hgt, upd, hsel, rfl⟩
  · refine ⟨h.conn nb.val L ++ [uint32 nodeId], ?_, ?_, ?_, ?_⟩
    · intro i l
      rw [hc]
      by_cases h1 : l = L ∧ i = nodeId.toNat
      · simp [h1]
      · by_cases h2 : l = L ∧ i = nb.val
        · simp [h1, h2]
        · simp [h1, h2]
    · rw [hcnb] at hle; exact hle
    · intro x hx
      simpa using hx
    · left
      refine ⟨rfl, _, _, ?_, ?_, twoLinks_log h nb.val nodeId.toNat L _ _ neighbor vk hnb hvk⟩ <;> rfl
  · have hs := selectNeighborsSimpleFromId_ok env nodeId _ _ upd hsel
    have s2 := (linkAtLevel_shape h nb.val L (uint32 nodeId)).trans
      (linkAtLevel_shape _ nodeId.toNat L (uint32 neighbor.id))
    have hnb2 : (((h.linkAtLevel nb.val L (uint32 nodeId)).linkAtLevel nodeId.toNat L
        (uint32 neighbor.id)).nodes nb.val).isSome = true := by
      rw [s2.isSome]; exact hnbs
    refine ⟨upd, ?_, hs.1, ?_, ?_⟩
    · intro i l
      rw [replaceLinks_conn, hc]
      by_cases h1 : l = L ∧ i = nodeId.toNat
      · have : ¬ (i = nb.val) := by rw [h1.2]; exact fun e => hne e.symm
        rw [if_neg (fun e => this e.1), if_pos h1, if_pos h1]
      · by_cases h2 : l = L ∧ i = nb.val
        · rw [if_pos ⟨h2.2, h2.1, hnb2⟩, if_neg h1, if_pos h2]
        · have : ¬ (i = nb.val ∧ l = L ∧
              (((h.linkAtLevel nb.val L (uint32 nodeId)).linkAtLevel nodeId.toNat L
                (uint32 neighbor.id)).nodes nb.val).isSome = true) := by
            rintro ⟨e1, e2, _⟩; exact h2 ⟨e2, e1⟩
          rw [if_neg this, if_neg h1, if_neg h2, if_neg h1, if_neg h2]
    · intro x hx
      have := hs.2 x hx
      rw [hcnb] at this
      simpa using this
    · right
      obtain ⟨v2, hv2⟩ := Option.isSome_iff_exists.mp hnb2
      refine ⟨CommitRecord.ReplaceLinks v2.id L upd, ?_, rfl⟩
      rw [replaceLinks_log, hv2]
      simp

theorem StepTo.loopInv {env : Env F} {nodeId L : Int} {h h' : hnsw} {nb : U32}
    {rest : List U32} {neighbor : hnswVertex} (st : StepTo env nodeId L h nb neighbor h')
    (hnb : h.nodes nb.val = some neighbor) (inv : LoopInv nodeId L h (nb :: rest)) :
    LoopInv nodeId L h' rest := by
  have s := st.shape
  have hne : nb.val ≠ nodeId.toNat := (inv.restGood nb (by simp)).2
  have hnbs : (h.nodes nb.val).isSome = true := by rw [hnb]; rfl
  obtain ⟨lst, hconn, hlen, hsub, hlog⟩ := st.spec hnb inv.node hne
  have hid : uint32 neighbor.id = nb := by
    rw [inv.ids.id_eq hnb]; exact uint32_val nb
  have huk : (uint32 nodeId).val = nodeId.toNat :=
    uint32_of_nonneg nodeId inv.nonneg (by
      have := inv.ids.lt inv.node
      have := inv.nonneg
      omega)
  have hother : ∀ i l, l ≠ L → h'.conn i l = h.conn i l := by
    intro i l hl
    rw [hconn]; simp [hl]
  refine
    { ids := inv.ids.ids_of_shape s
      nonneg := inv.nonneg
      node := by rw [s.isSome]; exact inv.node
      closed := ?_
      noref := ?_
      empty := ?_
      deg := ?_
      degNode := ?_
      restGood := ?_
      sym := ?_ }
  · -- closed
    intro i l x hx
    rw [s.isSome]
    rw [hconn] at hx
    split at hx
    · rcases List.mem_append.mp hx with h1 | h1
      · exact inv.closed i l x h1
      · simp only [List.mem_singleton] at h1
        rw [h1, hid]; exact hnbs
    · split at hx
      · rcases hsub x hx with h1 | h1
        · exact inv.closed _ _ x h1
        · rw [h1, huk]; exact inv.node
      · exact inv.closed i l x hx
  · -- noref
    intro i l x hl hx
    rw [hother i l (by omega)] at hx
    exact inv.noref i l x hl hx
  · -- empty
    intro l hl
    rw [hother _ l (by omega)]
    exact inv.empty l hl
  · -- deg
    intro hcfg i l hil
    have hcfg0 := CfgOk.cfg_of_shape_back s hcfg
    rw [s.cap, hconn]
    by_cases h1 : l = L ∧ i = nodeId.toNat
    · exfalso
      rcases hil with h2 | h2
      · exact h2 h1.2
      · exact h2 h1.1
    · by_cases h2 : l = L ∧ i = nb.val
      · rw [if_neg h1, if_pos h2, h2.1]
        exact hlen
      · rw [if_neg h1, if_neg h2]
        exact inv.deg hcfg0 i l hil
  · -- degNode
    have hd := inv.degNode
    rw [hconn, s.1, if_pos ⟨rfl, rfl⟩]
    simp only [List.length_append, List.length_singleton, List.length_cons,
      List.length_nil] at hd ⊢
    push_cast at hd ⊢
    omega
  · -- restGood
    intro x hx
    rw [s.isSome]
    exact inv.restGood x (List.mem_cons_of_mem _ hx)
  · -- sym
    intro hnr
    rcases hlog with ⟨hl, r1, r2, hr1, hr2, hlg⟩ | ⟨r, hr, hrr⟩
    · have hnr0 : NoReplace h.commitLog := by
        rw [hlg] at hnr
        exact (NoReplace.append hnr).1
      have hsym := inv.sym hnr0
      subst hl
      have hmem : ∀ (x y : U32) (l : Int), y ∈ h'.conn x.val l ↔
          (y ∈ h.conn x.val l ∨ (l = L ∧ x = uint32 nodeId ∧ y = nb) ∨
            (l = L ∧ x = nb ∧ y = uint32 nodeId)) := by
        intro x y l
        have e1 : x.val = nodeId.toNat ↔ x = uint32 nodeId := by
          rw [← huk]; exact ⟨fun e => Fin.ext e, fun e => congrArg Fin.val e⟩
        have e2 : x.val = nb.val ↔ x = nb := ⟨fun e => Fin.ext e, fun e => congrArg Fin.val e⟩
        rw [hconn, hid]
        by_cases h1 : l = L ∧ x.val = nodeId.toNat
        · have hx : x = uint32 nodeId := e1.mp h1.2
          have hxnb : x ≠ nb := fun e => hne (by rw [← e]; exact h1.2)
          rw [if_pos h1]
          simp only [List.mem_append, List.mem_singleton]
          constructor
          · rintro (a | a)
            · exact Or.inl a
            · exact Or.inr (Or.inl ⟨h1.1, hx, a⟩)
          · rintro (a | ⟨_, _, a⟩ | ⟨_, a, _⟩)
            · exact Or.inl a
            · exact Or.inr a
            · exact absurd a hxnb
        · by_cases h2 : l = L ∧ x.val = nb.val
          · have hx : x = nb := e2.mp h2.2
            have hxk : x ≠ uint32 nodeId := fun e => h1 ⟨h2.1, e1.mpr e⟩
            rw [if_neg h1, if_pos h2]
            have hl' : l = L := h2.1
            subst hl' hx
            simp only [List.mem_append, List.mem_singleton]
            constructor
            · rintro (a | a)
              · exact Or.inl a
              · exact Or.inr (Or.inr ⟨trivial, trivial, a⟩)
            · rintro (a | ⟨_, a, _⟩ | ⟨_, _, a⟩)
              · exact Or.inl a
              · exact absurd a hxk
              · exact Or.inr a
          · have n1 : ¬ (l = L ∧ x = uint32 nodeId ∧ y = nb) :=
              fun e => h1 ⟨e.1, e1.mpr e.2.1⟩
            have n2 : ¬ (l = L ∧ x = nb ∧ y = uint32 nodeId) :=
              fun e => h2 ⟨e.1, e2.mpr e.2.1⟩
            rw [if_neg h1, if_neg h2]
            constructor
            · exact fun a => Or.inl a
            · rintro (a | a | a)
              · exact a
              · exact absurd a n1
              · exact absurd a n2
      intro x y l hx hy
      rw [s.isSome] at hx hy
      rw [hmem x y l, hmem y x l, hsym x y l hx hy]
      tauto
    · exact absurd (hnr r hr) (by rw [hrr]; simp)

/-- The loop over the neighbours keeps its invariant when it runs to the end. -/
theorem linkNeighbors_loopInv (env : Env F) (nodeId L : Int) (ns : List U32) (h hf : hnsw)
    (inv : LoopInv nodeId L h ns) (hr : linkNeighbors env nodeId L ns h = (hf, .ok)) :
    LoopInv nodeId L hf [] := by
  induction ns generalizing h with
  | nil =>
    simp only [linkNeighbors, Prod.mk.injEq, and_true] at hr
    subst hr
    exact inv
  | cons nb rest ih =>
    obtain ⟨neighbor, h', hnb, _, st, hrest⟩ := linkNeighbors_cons_ok env nodeId L nb rest h hf hr
    exact ih h' (st.loopInv hnb inv) hrest

end StepLemmas

end Hnsw

namespace Hnsw

open binarySearchTreeGeneric

section LevelLemmas

variable {F : Type} [LinearOrder F]

theorem Good.good_of_shape {h h' : hnsw} (s : SameShape h h') {k : Nat} {idx : Int}
    (g : Good h k idx) : Good h' k idx := by
  obtain ⟨j, e, hj, hp⟩ := g
  exact ⟨j, e, hj, by rw [s.isSome]; exact hp⟩

/-- The entries `searchLayer` returns while a node is being inserted are nodes of the graph
other than the new one. -/
theorem searchLayer_good (env : Env F) (h : hnsw) (q : Option hnswVertex) (ef level : Int)
    (k : Nat) (eps r : binarySearchTreeGeneric F) (hc : Closed h) (hn : NoRef h k level)
    (heps : ∀ e ∈ eps.flat, Good h k e.index)
    (hr : searchLayer env h q eps ef level = .ok r) : ∀ e ∈ r.flat, Good h k e.index := by
  apply searchLayer_forall env h q ef level (Good h k) eps r heps _ hr
  intro i v x hv hx
  have hx' : x ∈ h.conn i level := by rw [conn_of_node hv]; exact hx
  exact ⟨x.val, rfl, hn i level x (le_refl _) hx', hc i level x hx'⟩

theorem LevelInv.toLoop {nodeId : Int} {h : hnsw} {level : Int}
    {results results' : binarySearchTreeGeneric F} (inv : LevelInv nodeId h level results)
    (hres : ∀ e ∈ results'.flat, Good h nodeId.toNat e.index) (neighbors : List U32)
    (hsel : selectNeighborsSimple nodeId results' h.maximumConnections = .ok neighbors) :
    LoopInv nodeId level h neighbors := by
  have hs := selectNeighborsSimple_ok nodeId results' _ neighbors hsel
  refine
    { ids := inv.ids
      nonneg := inv.nonneg
      node := inv.node
      closed := inv.closed
      noref := fun i l x hl hx => inv.noref i l x (by omega) hx
      empty := fun l hl => inv.empty l (by omega)
      deg := fun hcfg i l _ => inv.deg hcfg i l
      degNode := ?_
      restGood := ?_
      sym := inv.sym }
  · rw [inv.empty level (le_refl _)]
    simpa using hs.1
  · intro nb hnb
    obtain ⟨e, he, rfl⟩ := hs.2 nb hnb
    obtain ⟨j, hj, hjk, hp⟩ := hres e he
    rw [hj, uint32_natCast j (inv.ids.lt hp)]
    exact ⟨hp, hjk⟩

theorem LoopInv.toLevel {nodeId : Int} {h : hnsw} {level : Int}
    {results : binarySearchTreeGeneric F} (inv : LoopInv nodeId level h [])
    (hres : ∀ e ∈ results.flat, Good h nodeId.toNat e.index) :
    LevelInv nodeId h (level - 1) results := by
  refine
    { ids := inv.ids
      nonneg := inv.nonneg
      node := inv.node
      closed := inv.closed
      noref := inv.noref
      empty := fun l hl => inv.empty l (by omega)
      deg := ?_
      resGood := hres
      sym := inv.sym }
  intro hcfg i l
  by_cases hil : i ≠ nodeId.toNat ∨ l ≠ level
  · exact inv.deg hcfg i l hil
  · have hi : i = nodeId.toNat := by
      by_contra hc; exact hil (Or.inl hc)
    have hl : l = level := by
      by_contra hc; exact hil (Or.inr hc)
    subst hi hl
    have := inv.degNode
    have := hcfg.le_cap l
    simp only [List.length_nil] at *
    push_cast at *
    omega

/-- The loop over the levels keeps its invariant when it runs to the end. -/
theorem linkLevels_levelInv (env : Env F) (nodeId : Int) (n : Nat) (level : Int)
    (results : binarySearchTreeGeneric F) (h hf : hnsw)
    (inv : LevelInv nodeId h level results)
    (hr : linkLevels env nodeId n level results h = (hf, .ok)) :
    ∃ level' results', LevelInv (F := F) nodeId hf level' results' := by
  induction n generalizing level results h with
  | zero =>
    simp only [linkLevels, Prod.mk.injEq, and_true] at hr
    subst hr
    exact ⟨level, results, inv⟩
  | succ n ih =>
    unfold linkLevels at hr
    split at hr
    · simp at hr
    · simp at hr
    · simp at hr
    · rename_i results' hsearch
      split at hr
      · simp at hr
      · simp at hr
      · simp at hr
      · rename_i neighbors hsel
        have hres := searchLayer_good env h _ _ level nodeId.toNat results results'
          inv.closed inv.noref inv.resGood hsearch
        have linv := inv.toLoop hres neighbors hsel
        split at hr
        · rename_i h' hlink
          have l2 := linkNeighbors_loopInv env nodeId level neighbors h h' linv hlink
          have s := linkNeighbors_shape env nodeId level neighbors h
          rw [hlink] at s
          exact ih _ _ _ (l2.toLevel (fun e he => (hres e he).good_of_shape s)) hr
        · rename_i h' out hne hlink
          simp only [Prod.mk.injEq] at hr
          exact (hne hr.2).elim

theorem descend_good (env : Env F) (h : hnsw) (nodeId : Int) (n : Nat) (level ep ep' : Int)
    (hc : Closed h) (hn : ∀ L, NoRef h nodeId.toNat L) (hep : Good h nodeId.toNat ep)
    (hr : descend env h nodeId n level ep = .ok ep') : Good h nodeId.toNat ep' := by
  induction n generalizing level ep with
  | zero =>
    simp only [descend, Res.ok.injEq] at hr
    subst hr
    exact hep
  | succ n ih =>
    unfold descend at hr
    split at hr
    · simp at hr
    · rename_i dist hd
      split at hr
      · simp at hr
      · simp at hr
      · simp at hr
      · rename_i res hsearch
        split at hr
        · simp at hr
        · rename_i best hbest
          have hg := searchLayer_good env h _ _ level nodeId.toNat _ res hc (hn level)
            (by
              intro e he
              rcases mem_insert he with h1 | h1
              · rw [h1]; exact hep
              · simp [empty] at h1) hsearch
          exact ih _ _ (hg best (minimum_mem hbest)) hr

end LevelLemmas

end Hnsw

namespace Hnsw

open binarySearchTreeGeneric

section InsertLemmas

variable {F : Type} [LinearOrder F]

/-! ## The two paths of `insert` -/

/-- The index `insert` leaves on the empty-graph path when the id is inside the slice. -/
theorem insert_empty_ok (env : Env F) (h : hnsw) (node : hnswVertex) (targetLevel : Int)
    (hz : h.nodesLen = 0) (h0 : 0 ≤ node.id) (h1 : node.id < (importLimit : Int)) :
    insert env h node targetLevel =
      ({ h with
          commitLog := h.commitLog ++
            [CommitRecord.SetEntry node.id 0] ++ [CommitRecord.AddNode node.id 0]
          entryPointID := node.id
          currentMaximumLayer := 0
          nodesLen := importLimit
          nodes := Function.update (fun _ => none) node.id.toNat
            (some { node with connections := fun _ => [], level := 0 }) }, Outcome.ok) := by
  unfold insert
  simp only [hz, if_true, hnsw.setNode, h0, h1, and_self]

/-- On the empty-graph path an id outside the slice makes `insert` panic. -/
theorem insert_empty_panic (env : Env F) (h : hnsw) (node : hnswVertex) (targetLevel : Int)
    (hz : h.nodesLen = 0) (hbad : ¬ (0 ≤ node.id ∧ node.id < (importLimit : Int))) :
    (insert env h node targetLevel).2 = Outcome.panic "index out of range: h.nodes[node.id]" := by
  unfold insert
  simp only [hz, if_true, hnsw.setNode, hbad, if_false]

/-- The steps a successful `insert` into a non-empty index went through. -/
theorem insert_nonempty_ok (env : Env F) (h h' : hnsw) (node : hnswVertex) (targetLevel : Int)
    (hz : h.nodesLen ≠ 0) (hr : insert env h node targetLevel = (h', .ok)) :
    0 ≤ node.id ∧ node.id < (h.nodesLen : Int) ∧
    ∃ ep' dist h3,
      descend env
        { h with
          nodes := Function.update h.nodes node.id.toNat
            (some { node with level := targetLevel, connections := fun _ => [] })
          commitLog := h.commitLog ++ [CommitRecord.AddNode node.id targetLevel] }
        node.id (h.currentMaximumLayer - targetLevel).toNat h.currentMaximumLayer
        h.entryPointID = .ok ep' ∧
      linkLevels env node.id (min targetLevel h.currentMaximumLayer + 1).toNat
        (min targetLevel h.currentMaximumLayer) (empty.insert ep' dist)
        { h with
          nodes := Function.update h.nodes node.id.toNat
            (some { node with level := targetLevel, connections := fun _ => [] })
          commitLog := h.commitLog ++ [CommitRecord.AddNode node.id targetLevel] }
        = (h3, .ok) ∧
      h' = if targetLevel > h3.currentMaximumLayer then
          { h3 with
            commitLog := h3.commitLog ++ [CommitRecord.SetEntry node.id targetLevel]
            entryPointID := node.id
            currentMaximumLayer := targetLevel }
        else h3 := by
  unfold insert at hr
  simp only [hz, if_false] at hr
  unfold hnsw.setNode at hr
  split at hr
  · simp at hr
  · rename_i h1 hset
    split at hset
    · rename_i hrange
      simp only [Option.some.injEq] at hset
      subst hset
      refine ⟨hrange.1, hrange.2, ?_⟩
      split at hr
      · simp at hr
      · simp at hr
      · simp at hr
      · rename_i ep' hdesc
        split at hr
        · simp at hr
        · rename_i dist hdist
          split at hr
          · rename_i h3 hlink
            refine ⟨ep', dist, h3, hdesc, hlink, ?_⟩
            split at hr
            · rename_i hgt
              simp only [Prod.mk.injEq, and_true] at hr
              rw [if_pos hgt]
              exact hr.symm
            · rename_i hgt
              simp only [Prod.mk.injEq, and_true] at hr
              rw [if_neg hgt]
              exact hr.symm
          · rename_i h3 out hne hlink
            simp only [Prod.mk.injEq] at hr
            exact (hne hr.2).elim
    · simp at hset

end InsertLemmas

end Hnsw

namespace Hnsw

open binarySearchTreeGeneric

section InsertInv

variable {F : Type} [LinearOrder F]

theorem Inv.new (m ef : Int) : Inv (New m ef) :=
  { ids := ⟨by simp [New], by intro i v hv; simp [New] at hv⟩
    closed := by intro i l x hx; simp [hnsw.conn, New] at hx
    deg := by
      intro hcfg i l
      have := hcfg.le_cap l
      have := hcfg.1
      simp only [hnsw.conn, New, List.length_nil] at *
      push_cast
      omega
    entry := by intro hne; simp [New] at hne
    sym := by intro _ x y l hx; simp [New] at hx
    fresh := fun _ => ⟨fun _ => rfl, rfl⟩ }

/-- A node placed at a free index with empty adjacency: the state the linking phase of
`insert` starts from satisfies the invariant of the level loop. -/
theorem levelInv_start (h : hnsw) (node : hnswVertex) (targetLevel level : Int) (ep : Int)
    (dist : F) (log : List CommitRecord) (inv : Inv h) (h0 : 0 ≤ node.id)
    (h1 : node.id < (h.nodesLen : Int)) (hfree : h.nodes node.id.toNat = none)
    (hlog : NoReplace log → NoReplace h.commitLog)
    (hep : ∃ j : Nat, ep = (j : Int) ∧ (h.nodes j).isSome = true) :
    LevelInv node.id
      { h with
        nodes := Function.update h.nodes node.id.toNat
          (some { node with level := targetLevel, connections := fun _ => [] })
        commitLog := log }
      level (binarySearchTreeGeneric.empty.insert ep dist) ∧
    Closed { h with
        nodes := Function.update h.nodes node.id.toNat
          (some { node with level := targetLevel, connections := fun _ => [] })
        commitLog := log } ∧
    ∀ L, NoRef { h with
        nodes := Function.update h.nodes node.id.toNat
          (some { node with level := targetLevel, connections := fun _ => [] })
        commitLog := log } node.id.toNat L := by
  have hconn : ∀ i l, hnsw.conn { h with
        nodes := Function.update h.nodes node.id.toNat
          (some { node with level := targetLevel, connections := fun _ => [] })
        commitLog := log } i l = if i = node.id.toNat then [] else h.conn i l := by
    intro i l
    by_cases hi : i = node.id.toNat
    · subst hi; simp [hnsw.conn]
    · simp [hnsw.conn, Function.update_noteq hi, hi]
  have hpop : ∀ j, (h.nodes j).isSome = true →
      (Function.update h.nodes node.id.toNat
        (some ({ node with level := targetLevel, connections := fun _ => [] } : hnswVertex))
        j).isSome = true := by
    intro j hj
    by_cases hi : j = node.id.toNat
    · subst hi; simp
    · rw [Function.update_noteq hi]; exact hj
  have hclosed : Closed { h with
        nodes := Function.update h.nodes node.id.toNat
          (some { node with level := targetLevel, connections := fun _ => [] })
        commitLog := log } := by
    intro i l x hx
    rw [hconn] at hx
    split at hx
    · simp at hx
    · exact hpop _ (inv.closed i l x hx)
  have hnoref : ∀ L, NoRef { h with
        nodes := Function.update h.nodes node.id.toNat
          (some { node with level := targetLevel, connections := fun _ => [] })
        commitLog := log } node.id.toNat L := by
    intro L i l x _ hx
    rw [hconn] at hx
    split at hx
    · simp at hx
    · intro e
      have := inv.closed i l x hx
      rw [e, hfree] at this
      simp at this
  refine ⟨?_, hclosed, hnoref⟩
  refine
    { ids := ?_
      nonneg := h0
      node := by simp
      closed := hclosed
      noref := hnoref level
      empty := fun l _ => by rw [hconn]; simp
      deg := ?_
      resGood := ?_
      sym := ?_ }
  · refine ⟨inv.ids.1, ?_⟩
    intro i v hv
    simp only at hv
    by_cases hi : i = node.id.toNat
    · subst hi
      simp only [Function.update_same, Option.some.injEq] at hv
      subst hv
      simp only
      omega
    · rw [Function.update_noteq hi] at hv
      exact inv.ids.2 i v hv
  · intro hcfg i l
    rw [hconn]
    split
    · have := CfgOk.le_cap (h := h) hcfg l
      have := hcfg.1
      simp only [List.length_nil, cap] at *
      push_cast
      omega
    · exact inv.deg hcfg i l
  · intro e he
    rcases mem_insert he with h2 | h2
    · rw [h2]
      obtain ⟨j, hj, hp⟩ := hep
      refine ⟨j, hj, ?_, hpop j hp⟩
      intro e2
      rw [e2, hfree] at hp
      simp at hp
    · simp [empty] at h2
  · intro hnr x y l hx hy
    have hsym := inv.sym (hlog hnr)
    rw [hconn, hconn]
    simp only at hx hy
    by_cases hxk : x.val = node.id.toNat
    · by_cases hyk : y.val = node.id.toNat
      · simp [hxk, hyk]
      · rw [if_pos hxk, if_neg hyk]
        constructor
        · intro a; simp at a
        · intro a
          have := inv.closed _ _ _ a
          rw [hxk, hfree] at this
          simp at this
    · by_cases hyk : y.val = node.id.toNat
      · rw [if_neg hxk, if_pos hyk]
        constructor
        · intro a
          have := inv.closed _ _ _ a
          rw [hyk, hfree] at this
          simp at this
        · intro a; simp at a
      · rw [if_neg hxk, if_neg hyk]
        rw [Function.update_noteq hxk] at hx
        rw [Function.update_noteq hyk] at hy
        exact hsym x y l hx hy

/-- A successful `insert` of an id whose slot is free keeps the invariant of the index,
populates exactly the slot of the new id and leaves the configuration alone. -/
theorem insert_inv (env : Env F) (h h' : hnsw) (node : hnswVertex) (targetLevel : Int)
    (inv : Inv h) (hfree : 0 ≤ node.id → h.nodes node.id.toNat = none)
    (hr : insert env h node targetLevel = (h', .ok)) :
    Inv h' ∧ 0 ≤ node.id ∧ h'.nodesLen ≠ 0 ∧
    (h'.maximumConnections = h.maximumConnections ∧
      h'.maximumConnectionsLayerZero = h.maximumConnectionsLayerZero) ∧
    (∀ j, (h'.nodes j).isSome = true ↔ (j = node.id.toNat ∨ (h.nodes j).isSome = true)) := by
  by_cases hz : h.nodesLen = 0
  · -- empty-graph path
    by_cases hrange : 0 ≤ node.id ∧ node.id < (importLimit : Int)
    · rw [insert_empty_ok env h node targetLevel hz hrange.1 hrange.2] at hr
      simp only [Prod.mk.injEq, and_true] at hr
      subst hr
      have hnone := (inv.fresh hz).1
      have hconn : ∀ i l, hnsw.conn { h with
          commitLog := h.commitLog ++
            [CommitRecord.SetEntry node.id 0] ++ [CommitRecord.AddNode node.id 0]
          entryPointID := node.id
          currentMaximumLayer := 0
          nodesLen := importLimit
          nodes := Function.update (fun _ => none) node.id.toNat
            (some { node with connections := fun _ => [], level := 0 }) } i l = [] := by
        intro i l
        by_cases hi : i = node.id.toNat
        · subst hi; simp [hnsw.conn]
        · simp [hnsw.conn, Function.update_noteq hi]
      refine ⟨?_, hrange.1, by simp [importLimit], ⟨rfl, rfl⟩, ?_⟩
      · refine
          { ids := ?_
            closed := by intro i l x hx; rw [hconn] at hx; simp at hx
            deg := ?_
            entry := ?_
            sym := ?_
            fresh := by intro e; simp [importLimit] at e }
        · refine ⟨by simp [importLimit], ?_⟩
          intro i v hv
          simp only at hv
          by_cases hi : i = node.id.toNat
          · subst hi
            simp only [Function.update_same, Option.some.injEq] at hv
            subst hv
            have := hrange.2
            simp only [importLimit] at *
            omega
          · rw [Function.update_noteq hi] at hv
            simp at hv
        · intro hcfg i l
          rw [hconn]
          have := CfgOk.le_cap (h := h) hcfg l
          have := hcfg.1
          simp only [List.length_nil, cap] at *
          push_cast
          omega
        · intro _
          exact ⟨hrange.1, { node with connections := fun _ => [], level := 0 },
            by simp, rfl⟩
        · intro _ x y l _ _
          rw [hconn, hconn]
          simp
      · intro j
        simp only
        by_cases hi : j = node.id.toNat
        · subst hi; simp
        · rw [Function.update_noteq hi]
          simp [hi, hnone j]
    · have := insert_empty_panic env h node targetLevel hz hrange
      rw [hr] at this
      simp at this
  · -- non-empty path
    obtain ⟨h0, h1, ep', dist, h3, hdesc, hlink, hfin⟩ :=
      insert_nonempty_ok env h h' node targetLevel hz hr
    have hfree' := hfree h0
    have hentry := inv.entry hz
    have hstart := fun (level : Int) (ep : Int) (hep : ∃ j : Nat, ep = (j : Int) ∧
        (h.nodes j).isSome = true) =>
      levelInv_start h node targetLevel level ep dist
        (h.commitLog ++ [CommitRecord.AddNode node.id targetLevel]) inv h0 h1 hfree'
        (fun hnr => (NoReplace.append hnr).1) hep
    have hepGood : Good { h with
          nodes := Function.update h.nodes node.id.toNat
            (some { node with level := targetLevel, connections := fun _ => [] })
          commitLog := h.commitLog ++ [CommitRecord.AddNode node.id targetLevel] }
        node.id.toNat h.entryPointID := by
      obtain ⟨hge, v, hv, _⟩ := hentry
      have hne : h.entryPointID.toNat ≠ node.id.toNat := by
        intro e; rw [e, hfree'] at hv; simp at hv
      refine ⟨h.entryPointID.toNat, by omega, hne, ?_⟩
      simp only
      rw [Function.update_noteq hne, hv]; rfl
    have hs0 := hstart 0 h.entryPointID (by
      obtain ⟨hge, v, hv, _⟩ := hentry
      exact ⟨h.entryPointID.toNat, by omega, by rw [hv]; rfl⟩)
    have hgood' := descend_good env _ node.id _ _ _ ep' hs0.2.1 hs0.2.2 hepGood hdesc
    have hep' : ∃ j : Nat, ep' = (j : Int) ∧ (h.nodes j).isSome = true := by
      obtain ⟨j, hj, hjk, hp⟩ := hgood'
      simp only at hp
      rw [Function.update_noteq hjk] at hp
      exact ⟨j, hj, hp⟩
    have hlevel := (hstart (min targetLevel h.currentMaximumLayer) ep' hep').1
    obtain ⟨level', results', linv⟩ := linkLevels_levelInv env node.id _ _ _ _ h3 hlevel hlink
    have s := linkLevels_shape env node.id (min targetLevel h.currentMaximumLayer + 1).toNat
      (min targetLevel h.currentMaximumLayer) (empty.insert ep' dist)
      { h with
          nodes := Function.update h.nodes node.id.toNat
            (some { node with level := targetLevel, connections := fun _ => [] })
          commitLog := h.commitLog ++ [CommitRecord.AddNode node.id targetLevel] }
    rw [hlink] at s
    have hlen3 : h3.nodesLen = h.nodesLen := s.2.2.2.2.2.1
    have hpop3 : ∀ j, (h3.nodes j).isSome = true ↔
        (j = node.id.toNat ∨ (h.nodes j).isSome = true) := by
      intro j
      rw [s.isSome]
      simp only
      by_cases hi : j = node.id.toNat
      · subst hi; simp
      · rw [Function.update_noteq hi]; simp [hi]
    have hentry3 : h3.entryPointID = h.entryPointID ∧
        h3.currentMaximumLayer = h.currentMaximumLayer := ⟨s.2.2.2.1, s.2.2.1⟩
    have hnode3 : ∃ v, h3.nodes node.id.toNat = some v ∧ v.level = targetLevel := by
      obtain ⟨v', hv', _, hl⟩ := s.node (i := node.id.toNat)
        (v := { node with level := targetLevel, connections := fun _ => [] }) (by simp)
      exact ⟨v', hv', hl⟩
    have hold3 : ∃ v, h3.nodes h.entryPointID.toNat = some v ∧
        v.level = h.currentMaximumLayer := by
      obtain ⟨hge, v, hv, hl⟩ := hentry
      have hne : h.entryPointID.toNat ≠ node.id.toNat := by
        intro e; rw [e, hfree'] at hv; simp at hv
      obtain ⟨v', hv', _, hl'⟩ := s.node (i := h.entryPointID.toNat) (v := v)
        (by simp only; rw [Function.update_noteq hne]; exact hv)
      exact ⟨v', hv', by rw [hl', hl]⟩
    have hmc : h3.maximumConnections = h.maximumConnections ∧
        h3.maximumConnectionsLayerZero = h.maximumConnectionsLayerZero := ⟨s.1, s.2.1⟩
    by_cases hgt : targetLevel > h3.currentMaximumLayer
    · rw [if_pos hgt] at hfin
      subst hfin
      refine ⟨?_, h0, by simp only; omega, hmc, hpop3⟩
      exact
        { ids := linv.ids
          closed := linv.closed
          deg := linv.deg
          entry := fun _ => ⟨h0, hnode3⟩
          sym := fun hnr => linv.sym (NoReplace.append hnr).1
          fresh := fun e => by simp only at e; omega }
    · rw [if_neg hgt] at hfin
      subst hfin
      refine ⟨?_, h0, by omega, hmc, hpop3⟩
      exact
        { ids := linv.ids
          closed := linv.closed
          deg := linv.deg
          entry := fun _ => by
            rw [hentry3.1, hentry3.2]
            exact ⟨hentry.1, hold3⟩
          sym := linv.sym
          fresh := fun e => by omega }

/-- After a run of successful inserts of pairwise distinct ids into free slots the invariant
of the index holds. -/
theorem addAll_inv (env : Env F) (xs : List (Int × Int)) (h h' : hnsw) (inv : Inv h)
    (hnd : (xs.map Prod.fst).Nodup)
    (hfree : ∀ x ∈ xs, 0 ≤ x.1 → h.nodes x.1.toNat = none)
    (hr : addAll env h xs = some h') :
    Inv h' ∧
    (h'.maximumConnections = h.maximumConnections ∧
      h'.maximumConnectionsLayerZero = h.maximumConnectionsLayerZero) ∧
    (xs ≠ [] → h'.nodesLen ≠ 0) := by
  induction xs generalizing h with
  | nil =>
    simp only [addAll, Option.some.injEq] at hr
    subst hr
    exact ⟨inv, ⟨rfl, rfl⟩, fun e => absurd rfl e⟩
  | cons x rest ih =>
    obtain ⟨id, lvl⟩ := x
    unfold addAll at hr
    split at hr
    · rename_i h1 hadd
      unfold Add at hadd
      obtain ⟨inv1, h0, hlen, hmc, hpop⟩ := insert_inv env h h1 _ lvl inv
        (fun h0 => hfree (id, lvl) (by simp) h0) hadd
      simp only at h0 hpop
      have hnd' : (rest.map Prod.fst).Nodup := (List.nodup_cons.mp hnd).2
      have hnotin : id ∉ rest.map Prod.fst := (List.nodup_cons.mp hnd).1
      have hfree1 : ∀ x ∈ rest, 0 ≤ x.1 → h1.nodes x.1.toNat = none := by
        intro x hx hx0
        have hne : x.1 ≠ id := by
          intro e
          exact hnotin (List.mem_map.mpr ⟨x, hx, e⟩)
        have hold := hfree x (List.mem_cons_of_mem _ hx) hx0
        cases hc : h1.nodes x.1.toNat with
        | none => rfl
        | some v =>
          have := (hpop x.1.toNat).mp (by rw [hc]; rfl)
          rcases this with e | e
          · exfalso; apply hne; omega
          · rw [hold] at e; simp at e
      obtain ⟨inv', hmc', _⟩ := ih h1 inv1 hnd' hfree1 hr
      refine ⟨inv', ⟨hmc'.1.trans hmc.1, hmc'.2.trans hmc.2⟩, fun _ => ?_⟩
      cases rest with
      | nil =>
        simp only [addAll, Option.some.injEq] at hr
        subst hr
        exact hlen
      | cons y ys =>
        exact (ih h1 inv1 hnd' hfree1 hr).2.2 (by simp)
    · simp at hr

end InsertInv

end Hnsw

namespace Hnsw

open binarySearchTreeGeneric

section FuelLemmas

variable {F : Type} [LinearOrder F]

/-! ## `insert` never runs out of fuel -/

theorem selectNeighborsSimple_ne_fuel (nodeId : Int) (input : binarySearchTreeGeneric F)
    (max : Int) : selectNeighborsSimple nodeId input max ≠ .fuel := by
  unfold selectNeighborsSimple
  simp only
  split <;> simp

theorem selectNeighborsSimpleFromId_ne_fuel (env : Env F) (nodeId : Int) (ids : List U32)
    (max : Int) : selectNeighborsSimpleFromId env nodeId ids max ≠ .fuel := by
  unfold selectNeighborsSimpleFromId
  split
  · simp
  · exact selectNeighborsSimple_ne_fuel _ _ _

theorem descend_ne_fuel (env : Env F) (h : hnsw) (nodeId : Int) (n : Nat) (level ep : Int) :
    descend env h nodeId n level ep ≠ .fuel := by
  induction n generalizing level ep with
  | zero => simp [descend]
  | succ n ih =>
    unfold descend
    split
    · simp
    · split
      · simp
      · simp
      · rename_i hs
        exact absurd hs (searchLayer_ne_fuel env h _ _ _ _)
      · split
        · simp
        · exact ih _ _

theorem linkNeighbors_ne_fuel (env : Env F) (nodeId L : Int) (ns : List U32) (h : hnsw) :
    (linkNeighbors env nodeId L ns h).2 ≠ .fuel := by
  induction ns generalizing h with
  | nil => simp [linkNeighbors]
  | cons nb rest ih =>
    unfold linkNeighbors
    simp only
    repeat' split
    all_goals first
      | exact ih _
      | (rename_i hs; exact absurd hs (selectNeighborsSimpleFromId_ne_fuel env _ _ _))
      | simp

theorem linkLevels_ne_fuel (env : Env F) (nodeId : Int) (n : Nat) (level : Int)
    (results : binarySearchTreeGeneric F) (h : hnsw) :
    (linkLevels env nodeId n level results h).2 ≠ .fuel := by
  induction n generalizing level results h with
  | zero => simp [linkLevels]
  | succ n ih =>
    unfold linkLevels
    split
    · simp
    · simp
    · rename_i hs
      exact absurd hs (searchLayer_ne_fuel env h _ _ _ _)
    · split
      · simp
      · simp
      · rename_i hs
        exact absurd hs (selectNeighborsSimple_ne_fuel _ _ _)
      · rename_i neighbors _
        have hl := linkNeighbors_ne_fuel env nodeId level neighbors h
        split
        · exact ih _ _ _
        · rename_i h' out _ heq
          rw [heq] at hl
          exact hl

/-- The bounded unrolling of the search loop is never too short: `insert` always ends as a
return (nil or error) or a panic. -/
theorem insert_ne_fuel (env : Env F) (h : hnsw) (node : hnswVertex) (targetLevel : Int) :
    (insert env h node targetLevel).2 ≠ .fuel := by
  unfold insert
  split
  · simp only
    split <;> simp
  · simp only
    split
    · simp
    · split
      · simp
      · simp
      · rename_i hs
        exact absurd hs (descend_ne_fuel env _ _ _ _ _)
      · split
        · simp
        · rename_i ep' _ _ dist _
          have hl := fun h2 => linkLevels_ne_fuel env node.id
            (min targetLevel h.currentMaximumLayer + 1).toNat
            (min targetLevel h.currentMaximumLayer) (empty.insert ep' dist) h2
          split
          · split <;> simp
          · rename_i h3 out _ heq
            intro e
            apply hl
            rw [heq]
            exact e

end FuelLemmas

end Hnsw

namespace Hnsw

open binarySearchTreeGeneric

section AnyOutcome

variable {F : Type} [LinearOrder F]

/-! ## `insert` whatever its outcome -/

/-- The index a call of `insert` on a non-empty index leaves behind, whatever the outcome:
the index as it was (the slice write panicked), the index with the node skeleton, the index
after the linking loop ended (normally or not), or that index with the entry promoted. -/
theorem insert_nonempty_cases (env : Env F) (h : hnsw) (node : hnswVertex) (targetLevel : Int)
    (hz : h.nodesLen ≠ 0) :
    (insert env h node targetLevel).1 = h ∨
    (0 ≤ node.id ∧ node.id < (h.nodesLen : Int) ∧
      ((insert env h node targetLevel).1 = h.withSkeleton node targetLevel ∨
        ∃ n level results,
          (insert env h node targetLevel).1
            = (linkLevels env node.id n level results (h.withSkeleton node targetLevel)).1 ∨
          (targetLevel >
              (linkLevels env node.id n level results
                (h.withSkeleton node targetLevel)).1.currentMaximumLayer ∧
            (insert env h node targetLevel).1
              = (linkLevels env node.id n level results
                  (h.withSkeleton node targetLevel)).1.promote node.id targetLevel))) := by
  unfold insert
  simp only [hz, if_false]
  unfold hnsw.setNode
  by_cases hrange : 0 ≤ node.id ∧ node.id < (h.nodesLen : Int)
  · right
    refine ⟨hrange.1, hrange.2, ?_⟩
    simp only [hrange, and_self, if_true]
    split
    · left; rfl
    · left; rfl
    · left; rfl
    · split
      · left; rfl
      · rename_i ep' _ _ dist _
        right
        refine ⟨(min targetLevel h.currentMaximumLayer + 1).toNat,
          min targetLevel h.currentMaximumLayer, empty.insert ep' dist, ?_⟩
        split
        · rename_i h3 hlink
          split
          · rename_i hgt
            right
            have e : (linkLevels env node.id (min targetLevel h.currentMaximumLayer + 1).toNat
              (min targetLevel h.currentMaximumLayer) (empty.insert ep' dist)
              (h.withSkeleton node targetLevel)).1 = h3 := by
              unfold hnsw.withSkeleton; rw [hlink]
            rw [e]
            exact ⟨hgt, rfl⟩
          · left
            unfold hnsw.withSkeleton; rw [hlink]
        · rename_i h3 out _ hlink
          left
          unfold hnsw.withSkeleton; rw [hlink]
  · left
    simp only [hrange, if_false]

/-- On the empty-graph path `insert` leaves a slice of length `importLimit` and maximum
layer 0, whatever the outcome. -/
theorem insert_empty_any (env : Env F) (h : hnsw) (node : hnswVertex) (targetLevel : Int)
    (hz : h.nodesLen = 0) :
    (insert env h node targetLevel).1.nodesLen = importLimit ∧
    (insert env h node targetLevel).1.currentMaximumLayer = 0 := by
  unfold insert
  simp only [hz, if_true]
  unfold hnsw.setNode
  split
  · rename_i hset
    split at hset <;> simp at hset
    exact ⟨rfl, rfl⟩
  · rename_i h3 hset
    split at hset
    · simp only [Option.some.injEq] at hset
      subst hset
      exact ⟨rfl, rfl⟩
    · simp at hset

theorem withSkeleton_shape_fields (h : hnsw) (node : hnswVertex) (targetLevel : Int) :
    (h.withSkeleton node targetLevel).nodesLen = h.nodesLen ∧
    (h.withSkeleton node targetLevel).currentMaximumLayer = h.currentMaximumLayer :=
  ⟨rfl, rfl⟩

/-- Whatever the outcome, `insert` never lowers the maximum layer, and keeps the fact that an
index with an empty slice has maximum layer 0. -/
theorem insert_maxLayer (env : Env F) (h : hnsw) (node : hnswVertex) (targetLevel : Int)
    (hZ : h.nodesLen = 0 → h.currentMaximumLayer = 0) :
    h.currentMaximumLayer ≤ (insert env h node targetLevel).1.currentMaximumLayer ∧
    ((insert env h node targetLevel).1.nodesLen = 0 →
      (insert env h node targetLevel).1.currentMaximumLayer = 0) := by
  by_cases hz : h.nodesLen = 0
  · have := insert_empty_any env h node targetLevel hz
    rw [this.1, this.2, hZ hz]
    exact ⟨le_refl _, fun _ => rfl⟩
  · rcases insert_nonempty_cases env h node targetLevel hz with e | ⟨_, _, e | ⟨n, level, res, e | ⟨hgt, e⟩⟩⟩
    · rw [e]; exact ⟨le_refl _, hZ⟩
    · rw [e]; exact ⟨le_refl _, fun e0 => absurd e0 hz⟩
    · rw [e]
      have s := linkLevels_shape env node.id n level res (h.withSkeleton node targetLevel)
      rw [s.2.2.1, s.2.2.2.2.2.1]
      exact ⟨le_refl _, fun e0 => absurd e0 hz⟩
    · rw [e]
      have s := linkLevels_shape env node.id n level res (h.withSkeleton node targetLevel)
      rw [s.2.2.1] at hgt
      have hlen : ((linkLevels env node.id n level res
          (h.withSkeleton node targetLevel)).1.promote node.id targetLevel).nodesLen
          = h.nodesLen := s.2.2.2.2.2.1
      have hcml : ((linkLevels env node.id n level res
          (h.withSkeleton node targetLevel)).1.promote node.id targetLevel).currentMaximumLayer
          = targetLevel := rfl
      rw [hlen, hcml]
      have : (h.withSkeleton node targetLevel).currentMaximumLayer = h.currentMaximumLayer := rfl
      rw [this] at hgt
      exact ⟨by omega, fun e0 => absurd e0 hz⟩

theorem addSeq_maxLayer_zero (env : Env F) (xs : List (Int × Int)) (h h' : hnsw)
    (hZ : h.nodesLen = 0 → h.currentMaximumLayer = 0) (hr : addSeq env h xs = some h') :
    h'.nodesLen = 0 → h'.currentMaximumLayer = 0 := by
  induction xs generalizing h with
  | nil =>
    simp only [addSeq, Option.some.injEq] at hr
    subst hr
    exact hZ
  | cons x rest ih =>
    obtain ⟨id, lvl⟩ := x
    have hstep := (insert_maxLayer env h { id := id, level := 0, connections := fun _ => [] }
      lvl hZ).2
    unfold addSeq at hr
    split at hr
    · rename_i h1 hadd
      unfold Add at hadd
      rw [hadd] at hstep
      exact ih h1 hstep hr
    · rename_i h1 e hadd
      unfold Add at hadd
      rw [hadd] at hstep
      exact ih h1 hstep hr
    · simp at hr

end AnyOutcome

/-- C10: in every index state reached by sequential inserts from a fresh index (each of them
successful or returning an error), a further insert of any id with any drawn level leaves
`currentMaximumLayer` greater than or equal to what it was, whatever the outcome of that
insert. -/
theorem level_monotonic {F : Type} [LinearOrder F] (env : Env F) (m ef : Int)
    (xs : List (Int × Int)) (h : hnsw) (hr : addSeq env (New m ef) xs = some h)
    (id targetLevel : Int) :
    h.currentMaximumLayer ≤ (Add env h id targetLevel).1.currentMaximumLayer := by
  have hZ := addSeq_maxLayer_zero env xs (New m ef) h (fun _ => rfl) hr
  exact (insert_maxLayer env h _ targetLevel hZ).1

/-- Witness for C10: after two inserts the maximum layer is 1; a third insert that draws
level 0 leaves it at 1. -/
theorem level_monotonic_witness :
    ∃ h, addSeq sampleEnv (New 1 10) [(0, 0), (1, 1)] = some h ∧
      h.currentMaximumLayer ≤ (Add sampleEnv h 2 0).1.currentMaximumLayer := by
  have hs : (addSeq sampleEnv (New 1 10) [(0, 0), (1, 1)]).isSome = true := by decide
  obtain ⟨h, hh⟩ := Option.isSome_iff_exists.mp hs
  exact ⟨h, hh, level_monotonic sampleEnv 1 10 _ h hh 2 0⟩

end Hnsw

namespace Hnsw

open binarySearchTreeGeneric

/-! ## Replay of the commit log -/

theorem replay_append (log : List CommitRecord) (r : CommitRecord) :
    replay (log ++ [r]) = (replay log).apply r := by
  simp [replay, List.foldl_append]

theorem Graph.ext_fields {g1 g2 : Graph} (hn : ∀ id, g1.nodes id = g2.nodes id)
    (he : g1.entryPointID = g2.entryPointID)
    (hc : g1.currentMaximumLayer = g2.currentMaximumLayer) : g1 = g2 := by
  cases g1; cases g2
  simp only [Graph.mk.injEq]
  exact ⟨funext hn, he, hc⟩

theorem graph_nodes_slot (h : hnsw) (slot : Nat) (v : hnswVertex) (hv : h.nodes slot = some v)
    (hlt : slot < h.nodesLen) : h.graph.nodes (slot : Int) = some (v.level, v.connections) := by
  simp only [hnsw.graph]
  rw [if_pos ⟨by omega, by omega⟩]
  simp [hv]

theorem graph_setVertex (h : hnsw) (slot : Nat) (v' : hnswVertex) (lg : List CommitRecord)
    (hlt : slot < h.nodesLen) :
    hnsw.graph { h with nodes := Function.update h.nodes slot (some v'), commitLog := lg } =
      { h.graph with
        nodes := Function.update h.graph.nodes (slot : Int) (some (v'.level, v'.connections)) } := by
  apply Graph.ext_fields
  · intro id
    simp only [hnsw.graph]
    by_cases hid : id = (slot : Int)
    · subst hid
      rw [if_pos ⟨by omega, by omega⟩]
      simp
    · rw [Function.update_noteq hid]
      by_cases hr : 0 ≤ id ∧ id < (h.nodesLen : Int)
      · rw [if_pos hr, if_pos hr]
        have : id.toNat ≠ slot := by omega
        rw [Function.update_noteq this]
      · rw [if_neg hr, if_neg hr]
  · rfl
  · rfl

theorem replayOk_linkAtLevel (h : hnsw) (slot : Nat) (L : Int) (t : U32) (ri : ReplayOk h) :
    ReplayOk (h.linkAtLevel slot L t) := by
  refine ⟨ri.1.ids_of_shape (linkAtLevel_shape h slot L t), ?_⟩
  unfold hnsw.linkAtLevel
  cases hv : h.nodes slot with
  | none => exact ri.2
  | some v =>
    have hid := (ri.1.2 slot v hv).1
    have hlt := (ri.1.2 slot v hv).2
    simp only
    rw [replay_append, ri.2, graph_setVertex h slot _ _ hlt]
    simp only [hnswVertex.linkAtLevel, Graph.apply, hid, graph_nodes_slot h slot v hv hlt]

theorem replayOk_replaceLinks (h : hnsw) (slot : Nat) (L : Int) (links : List U32)
    (ri : ReplayOk h) : ReplayOk (h.replaceLinksAtLevel slot L links) := by
  refine ⟨ri.1.ids_of_shape (replaceLinks_shape h slot L links), ?_⟩
  unfold hnsw.replaceLinksAtLevel
  cases hv : h.nodes slot with
  | none => exact ri.2
  | some v =>
    have hid := (ri.1.2 slot v hv).1
    have hlt := (ri.1.2 slot v hv).2
    simp only
    rw [replay_append, ri.2, graph_setVertex h slot _ _ hlt]
    simp only [Graph.apply, hid, graph_nodes_slot h slot v hv hlt]

theorem replayOk_promote (h : hnsw) (nodeId targetLevel : Int) (ri : ReplayOk h) :
    ReplayOk (h.promote nodeId targetLevel) := by
  refine ⟨ri.1, ?_⟩
  unfold hnsw.promote
  simp only
  rw [replay_append, ri.2]
  rfl

theorem replayOk_withSkeleton (h : hnsw) (node : hnswVertex) (targetLevel : Int)
    (h0 : 0 ≤ node.id) (h1 : node.id < (h.nodesLen : Int)) (ri : ReplayOk h) :
    ReplayOk (h.withSkeleton node targetLevel) := by
  constructor
  · refine ⟨ri.1.1, ?_⟩
    intro i v hv
    unfold hnsw.withSkeleton at hv
    simp only at hv
    by_cases hi : i = node.id.toNat
    · subst hi
      simp only [Function.update_same, Option.some.injEq] at hv
      subst hv
      simp only [hnsw.withSkeleton]
      omega
    · rw [Function.update_noteq hi] at hv
      exact ri.1.2 i v hv
  · unfold hnsw.withSkeleton
    rw [replay_append, ri.2, graph_setVertex h node.id.toNat _ _ (by omega)]
    have : ((node.id.toNat : Nat) : Int) = node.id := by omega
    simp only [Graph.apply, this]

section ReplayLemmas

variable {F : Type} [LinearOrder F]

theorem replayOk_linkNeighbors (env : Env F) (nodeId L : Int) (ns : List U32) (h : hnsw)
    (ri : ReplayOk h) : ReplayOk (linkNeighbors env nodeId L ns h).1 := by
  induction ns generalizing h with
  | nil => exact ri
  | cons nb rest ih =>
    unfold linkNeighbors
    simp only
    have r2 := fun (t : U32) => replayOk_linkAtLevel _ nodeId.toNat L t
      (replayOk_linkAtLevel h nb.val L (uint32 nodeId) ri)
    repeat' split
    all_goals first
      | exact ri
      | exact r2 _
      | exact ih _ (r2 _)
      | exact ih _ (replayOk_replaceLinks _ _ _ _ (r2 _))

theorem replayOk_linkLevels (env : Env F) (nodeId : Int) (n : Nat) (level : Int)
    (results : binarySearchTreeGeneric F) (h : hnsw) (ri : ReplayOk h) :
    ReplayOk (linkLevels env nodeId n level results h).1 := by
  induction n generalizing level results h with
  | zero => exact ri
  | succ n ih =>
    unfold linkLevels
    split
    · exact ri
    · exact ri
    · exact ri
    · split
      · exact ri
      · exact ri
      · exact ri
      · rename_i results' _ neighbors _
        have r := replayOk_linkNeighbors env nodeId level neighbors h ri
        split
        · rename_i h' heq
          rw [heq] at r
          exact ih _ _ _ r
        · rename_i h' out hne heq
          rw [heq] at r
          exact r

/-- An `insert` that returns (nil or an error) keeps the commit log in step with the graph. -/
theorem replayOk_insert (env : Env F) (h : hnsw) (node : hnswVertex) (targetLevel : Int)
    (ri : ReplayOk h) (hret : ∀ e, (insert env h node targetLevel).2 ≠ Outcome.panic e) :
    ReplayOk (insert env h node targetLevel).1 := by
  by_cases hz : h.nodesLen = 0
  · by_cases hrange : 0 ≤ node.id ∧ node.id < (importLimit : Int)
    · rw [insert_empty_ok env h node targetLevel hz hrange.1 hrange.2]
      simp only
      have hg : h.graph =
          (⟨fun _ => none, h.entryPointID, h.currentMaximumLayer⟩ : Graph) := by
        apply Graph.ext_fields
        · intro id
          simp only [hnsw.graph, hz]
          rw [if_neg (by push_cast; omega)]
        · rfl
        · rfl
      constructor
      · refine ⟨by simp [importLimit], ?_⟩
        intro i v hv
        simp only at hv
        by_cases hi : i = node.id.toNat
        · subst hi
          simp only [Function.update_same, Option.some.injEq] at hv
          subst hv
          have := hrange.2
          simp only [importLimit] at *
          omega
        · rw [Function.update_noteq hi] at hv
          simp at hv
      · rw [replay_append, replay_append, ri.2, hg]
        apply Graph.ext_fields
        · intro id
          simp only [Graph.apply, hnsw.graph]
          by_cases hid : id = node.id
          · subst hid
            rw [if_pos hrange]
            simp
          · rw [Function.update_noteq hid]
            by_cases hr : 0 ≤ id ∧ id < (importLimit : Int)
            · rw [if_pos hr]
              have : id.toNat ≠ node.id.toNat := by omega
              rw [Function.update_noteq this]
              rfl
            · rw [if_neg hr]
        · rfl
        · rfl
    · exact absurd (insert_empty_panic env h node targetLevel hz hrange) (hret _)
  · rcases insert_nonempty_cases env h node targetLevel hz with
      e | ⟨h0, h1, e | ⟨n, level, res, e | ⟨_, e⟩⟩⟩
    · rw [e]; exact ri
    · rw [e]; exact replayOk_withSkeleton h node targetLevel h0 h1 ri
    · rw [e]
      exact replayOk_linkLevels env node.id n level res _
        (replayOk_withSkeleton h node targetLevel h0 h1 ri)
    · rw [e]
      exact replayOk_promote _ _ _ (replayOk_linkLevels env node.id n level res _
        (replayOk_withSkeleton h node targetLevel h0 h1 ri))

theorem replayOk_addSeq (env : Env F) (xs : List (Int × Int)) (h h' : hnsw) (ri : ReplayOk h)
    (hr : addSeq env h xs = some h') : ReplayOk h' := by
  induction xs generalizing h with
  | nil =>
    simp only [addSeq, Option.some.injEq] at hr
    subst hr
    exact ri
  | cons x rest ih =>
    obtain ⟨id, lvl⟩ := x
    unfold addSeq at hr
    split at hr
    · rename_i h1 hadd
      unfold Add at hadd
      have := replayOk_insert env h _ lvl ri (by rw [hadd]; simp)
      rw [hadd] at this
      exact ih h1 this hr
    · rename_i h1 e hadd
      unfold Add at hadd
      have := replayOk_insert env h _ lvl ri (by rw [hadd]; simp)
      rw [hadd] at this
      exact ih h1 this hr
    · simp at hr

end ReplayLemmas

/-- C6: for every sequence of sequential inserts into a fresh index (each returning nil or an
error; ids need not even be distinct), replaying the commit records emitted, in emission
order, into the empty graph yields the in-memory graph at the end of the sequence: the same
populated nodes with the same levels and the same adjacency list at every level, the same
`entryPointID` and the same `currentMaximumLayer`. -/
theorem log_replay_equivalence {F : Type} [LinearOrder F] (env : Env F) (m ef : Int)
    (xs : List (Int × Int)) (h : hnsw) (hr : addSeq env (New m ef) xs = some h) :
    replay h.commitLog = h.graph := by
  have h0 : ReplayOk (New m ef) := by
    refine ⟨(Inv.new m ef).ids, ?_⟩
    apply Graph.ext_fields
    · intro id
      simp [replay, Graph.empty, hnsw.graph, New]
    · rfl
    · rfl
  exact (replayOk_addSeq env xs (New m ef) h h0 hr).2

/-- Witness for C6: four inserts, the last of which trims node 0; the replayed graph agrees
with the graph in memory, here read at node 0, level 0. -/
theorem log_replay_equivalence_witness :
    ∃ h, addSeq sampleEnv (New 1 10) [(0, 0), (1, 0), (2, 0), (3, 0)] = some h ∧
      replay h.commitLog = h.graph ∧
      ((replay h.commitLog).nodes 0).map (fun p => p.2 0) = some [3, 1] := by
  have hs : ((addSeq sampleEnv (New 1 10) [(0, 0), (1, 0), (2, 0), (3, 0)]).map
      (fun h => ((replay h.commitLog).nodes 0).map (fun p => p.2 0))) = some (some [3, 1]) := by
    decide
  cases hh : addSeq sampleEnv (New 1 10) [(0, 0), (1, 0), (2, 0), (3, 0)] with
  | none => rw [hh] at hs; simp at hs
  | some h =>
    rw [hh] at hs
    simp only [Option.map_some', Option.some.injEq] at hs
    exact ⟨h, rfl, log_replay_equivalence sampleEnv 1 10 _ h hh, hs⟩

end Hnsw

namespace Hnsw

open binarySearchTreeGeneric

/-! ## Claims about `insert` -/

/-- C5 (fails as stated): inserting id 0 into a fresh index emits `SetEntry{0,0}` first and
`AddNode{0,0}` second, not the other way round; and inserting id 10000 (the import limit)
into a fresh index panics on `h.nodes[node.id]`, leaving no node stored. -/
theorem insert_empty_graph_counterexample :
    (Add sampleEnv (New 1 10) 0 0).1.commitLog
      = [CommitRecord.SetEntry 0 0, CommitRecord.AddNode 0 0] ∧
    (Add sampleEnv (New 1 10) 0 0).1.commitLog
      ≠ [CommitRecord.AddNode 0 0, CommitRecord.SetEntry 0 0] ∧
    (Add sampleEnv (New 1 10) 10000 0).2
      = Outcome.panic "index out of range: h.nodes[node.id]" ∧
    ((Add sampleEnv (New 1 10) 10000 0).1.nodeAt 10000).isNone = true := by
  decide

/-- C5 (amended): for every node id inside the slice (`0 ≤ id < importLimit`), inserting into
an index with no nodes returns nil, emits exactly two commit records, `SetEntry{id, 0}`
first and `AddNode{id, level 0}` second, and leaves the node stored at `nodes[id]` with level
0 and empty adjacency as the entry point, with maximum layer 0. -/
theorem insert_empty_graph {F : Type} [LinearOrder F] (env : Env F) (h : hnsw)
    (id targetLevel : Int) (hz : h.nodesLen = 0) (h0 : 0 ≤ id) (h1 : id < (importLimit : Int)) :
    (Add env h id targetLevel).2 = Outcome.ok ∧
    (Add env h id targetLevel).1.commitLog
      = h.commitLog ++ [CommitRecord.SetEntry id 0, CommitRecord.AddNode id 0] ∧
    (Add env h id targetLevel).1.nodeAt id
      = some (some { id := id, level := 0, connections := fun _ => [] }) ∧
    (Add env h id targetLevel).1.entryPointID = id ∧
    (Add env h id targetLevel).1.currentMaximumLayer = 0 := by
  unfold Add
  rw [insert_empty_ok env h _ targetLevel hz h0 h1]
  refine ⟨rfl, by simp, ?_, rfl, rfl⟩
  simp only [hnsw.nodeAt, h0, h1, and_self, if_true, Function.update_same]

/-- Witness for C5 (amended): id 7 into a fresh index. -/
theorem insert_empty_graph_witness :
    (New 1 10).nodesLen = 0 ∧ (0 : Int) ≤ 7 ∧ (7 : Int) < (importLimit : Int) ∧
    (Add sampleEnv (New 1 10) 7 3).1.commitLog
      = (New 1 10).commitLog ++ [CommitRecord.SetEntry 7 0, CommitRecord.AddNode 7 0] :=
  ⟨rfl, by decide, by decide,
    (insert_empty_graph sampleEnv (New 1 10) 7 3 rfl (by decide) (by decide)).2.1⟩

/-- C7: after any sequence of successful sequential inserts with pairwise distinct ids into
an index created with `maximumConnections = m ≥ 1` (so `maximumConnectionsLayerZero = 2m`),
every populated node has at most `m` neighbours at every level `l ≥ 1` and at most `2m` at
level 0. -/
theorem degree_bound {F : Type} [LinearOrder F] (env : Env F) (m ef : Int)
    (xs : List (Int × Int)) (h : hnsw) (hm : 1 ≤ m) (hnd : (xs.map Prod.fst).Nodup)
    (hr : addAll env (New m ef) xs = some h) :
    ∀ i v l, h.nodes i = some v →
      (1 ≤ l → ((v.connections l).length : Int) ≤ m) ∧
      ((v.connections 0).length : Int) ≤ 2 * m := by
  obtain ⟨inv, hcfg, _⟩ := addAll_inv env xs (New m ef) h (Inv.new m ef) hnd
    (fun _ _ _ => rfl) hr
  have hc : CfgOk h := by
    unfold CfgOk
    rw [hcfg.1, hcfg.2]
    exact ⟨by simp only [New]; omega, rfl⟩
  intro i v l hv
  have hd := inv.deg hc
  constructor
  · intro hl
    have := hd i l
    rw [conn_of_node hv] at this
    unfold cap at this
    rw [if_neg (by omega), hcfg.1] at this
    exact this
  · have := hd i 0
    rw [conn_of_node hv] at this
    unfold cap at this
    rw [if_pos rfl, hcfg.2] at this
    exact this

/-- Witness for C7: four inserts with `m = 1`, one of which trims node 0. -/
theorem degree_bound_witness :
    (1 : Int) ≤ 1 ∧ (([(0, 0), (1, 0), (2, 0), (3, 0)] : List (Int × Int)).map Prod.fst).Nodup ∧
    ∃ h, addAll sampleEnv (New 1 10) [(0, 0), (1, 0), (2, 0), (3, 0)] = some h ∧
      ∀ i v l, h.nodes i = some v →
        (1 ≤ l → ((v.connections l).length : Int) ≤ 1) ∧
        ((v.connections 0).length : Int) ≤ 2 * 1 := by
  have hs : (addAll sampleEnv (New 1 10) [(0, 0), (1, 0), (2, 0), (3, 0)]).isSome = true := by
    decide
  obtain ⟨h, hh⟩ := Option.isSome_iff_exists.mp hs
  exact ⟨by decide, by decide, h, hh,
    degree_bound sampleEnv 1 10 _ h (by decide) (by decide) hh⟩

/-- C9: after any non-empty sequence of successful sequential inserts with pairwise distinct
ids, `nodes[entryPointID]` is populated and its level equals `currentMaximumLayer`. -/
theorem entry_property {F : Type} [LinearOrder F] (env : Env F) (m ef : Int)
    (xs : List (Int × Int)) (h : hnsw) (hne : xs ≠ []) (hnd : (xs.map Prod.fst).Nodup)
    (hr : addAll env (New m ef) xs = some h) :
    ∃ v, h.nodeAt h.entryPointID = some (some v) ∧ v.level = h.currentMaximumLayer := by
  obtain ⟨inv, _, hlen⟩ := addAll_inv env xs (New m ef) h (Inv.new m ef) hnd
    (fun _ _ _ => rfl) hr
  obtain ⟨h0, v, hv, hl⟩ := inv.entry (hlen hne)
  refine ⟨v, ?_, hl⟩
  have := (inv.ids.2 _ v hv).2
  unfold hnsw.nodeAt
  rw [if_pos ⟨h0, by omega⟩, hv]

/-- Witness for C9: the second insert draws level 1 and becomes the entry point. -/
theorem entry_property_witness :
    ([(0, 0), (1, 1)] : List (Int × Int)) ≠ [] ∧
    (([(0, 0), (1, 1)] : List (Int × Int)).map Prod.fst).Nodup ∧
    ∃ h, addAll sampleEnv (New 1 10) [(0, 0), (1, 1)] = some h ∧
      ∃ v, h.nodeAt h.entryPointID = some (some v) ∧ v.level = h.currentMaximumLayer := by
  have hs : (addAll sampleEnv (New 1 10) [(0, 0), (1, 1)]).isSome = true := by decide
  obtain ⟨h, hh⟩ := Option.isSome_iff_exists.mp hs
  exact ⟨by decide, by decide, h, hh,
    entry_property sampleEnv 1 10 _ h (by decide) (by decide) hh⟩

end Hnsw

namespace Backup

/-- C20: on an index whose backup state has `InProgress = true`, `ShardsBackup` and
`descriptor`, called with any backup id, return an error, spawn no `ReleaseBackup`, make no
call on any shard (no `beginBackup` in particular) and leave the backup state, `BackupID`
and `InProgress`, as it was, also once everything spawned has run. -/
theorem losing_backup_touches_nothing (idx : Index) (bakID class_ : String)
    (shards order : List String) (desc : ClassDescriptor)
    (hp : idx.backupState.InProgress = true) :
    ((ShardsBackup (some idx) bakID class_ shards order).err.isSome = true ∧
      (ShardsBackup (some idx) bakID class_ shards order).spawned = [] ∧
      (ShardsBackup (some idx) bakID class_ shards order).events = [] ∧
      (ShardsBackup (some idx) bakID class_ shards order).idx.map (fun i => i.backupState)
        = some idx.backupState ∧
      (ShardsBackup (some idx) bakID class_ shards order).settled.map (fun i => i.backupState)
        = some idx.backupState) ∧
    ((idx.descriptor bakID desc).err.isSome = true ∧
      (idx.descriptor bakID desc).spawned = [] ∧
      (idx.descriptor bakID desc).events = [] ∧
      (idx.descriptor bakID desc).cd = desc ∧
      (idx.descriptor bakID desc).idx.map (fun i => i.backupState) = some idx.backupState ∧
      (idx.descriptor bakID desc).settled.map (fun i => i.backupState)
        = some idx.backupState) := by
  have h1 : idx.initBackup bakID = (idx, some ("cannot create new backup, backup " ++
      idx.backupState.BackupID ++
      " is not yet released, this means its contents have not yet been fully copied to " ++
      "its destination, try again later")) := by
    unfold Index.initBackup
    simp [hp]
  constructor
  · unfold ShardsBackup
    simp only [h1]
    simp [BackupResult.settled]
  · unfold Index.descriptor
    simp only [h1]
    simp [BackupResult.settled]

/-- Witness for C20: backup `b2` asked for while `b1` is active on the sample index. -/
theorem losing_backup_touches_nothing_witness :
    (sampleIndex.initBackup "b1").1.backupState.InProgress = true ∧
    (ShardsBackup (some (sampleIndex.initBackup "b1").1) "b2" "C" ["s1"] ["s1"]).events = [] ∧
    (((sampleIndex.initBackup "b1").1.descriptor "b2"
        { Name := "C", Shards := [], ShardingState := [], Schema := [] }).idx.map
          (fun i => i.backupState)) = some { BackupID := "b1", InProgress := true } :=
  ⟨by decide,
   (losing_backup_touches_nothing (sampleIndex.initBackup "b1").1 "b2" "C" ["s1"] ["s1"]
      { Name := "C", Shards := [], ShardingState := [], Schema := [] } (by decide)).1.2.2.1,
   (losing_backup_touches_nothing (sampleIndex.initBackup "b1").1 "b2" "C" ["s1"] ["s1"]
      { Name := "C", Shards := [], ShardingState := [], Schema := [] } (by decide)).2.2.2.2.2.1⟩

end Backup

namespace Hnsw

open binarySearchTreeGeneric

/-- C15: `distBetweenNodes(a, b)` returns an error whenever the vector accessor (called with
`int32(a)`, `int32(b)`) fails for `a` or for `b`, or returns a nil or zero-length vector for
`a` or for `b`; in every other case it returns exactly what `cosineDist` returns on the two
fetched vectors. -/
theorem distBetweenNodes_contract {F : Type} [LinearOrder F] (env : Env F) (a b : Int) :
    (((∃ e, env.vectorForID (int32 a) = .error e) ∨ env.vectorForID (int32 a) = .ok [] ∨
        (∃ e, env.vectorForID (int32 b) = .error e) ∨ env.vectorForID (int32 b) = .ok []) →
      ∃ e, distBetweenNodes env a b = .error e) ∧
    (∀ vecA vecB, env.vectorForID (int32 a) = .ok vecA → env.vectorForID (int32 b) = .ok vecB →
      vecA ≠ [] → vecB ≠ [] → distBetweenNodes env a b = env.cosineDist vecA vecB) := by
  constructor
  · intro h
    unfold distBetweenNodes
    cases ha : env.vectorForID (int32 a) with
    | error e => exact ⟨_, rfl⟩
    | ok vecA =>
      simp only
      by_cases hla : vecA.length = 0
      · rw [if_pos hla]; exact ⟨_, rfl⟩
      · rw [if_neg hla]
        cases hb : env.vectorForID (int32 b) with
        | error e => exact ⟨_, rfl⟩
        | ok vecB =>
          simp only
          by_cases hlb : vecB.length = 0
          · rw [if_pos hlb]; exact ⟨_, rfl⟩
          · exfalso
            rcases h with ⟨e, h⟩ | h | ⟨e, h⟩ | h
            · rw [ha] at h; simp at h
            · rw [ha] at h
              simp only [Except.ok.injEq] at h
              exact hla (by rw [h]; rfl)
            · rw [hb] at h; simp at h
            · rw [hb] at h
              simp only [Except.ok.injEq] at h
              exact hlb (by rw [h]; rfl)
  · intro vecA vecB ha hb hna hnb
    unfold distBetweenNodes
    simp only [ha, hb]
    rw [if_neg (by simpa using hna), if_neg (by simpa using hnb)]

end Hnsw

namespace Hnsw

open binarySearchTreeGeneric

section InRange

variable {F : Type} [LinearOrder F]

/-! ## The slice write of `insert` -/

/-- On a non-empty index an id outside the slice makes `insert` panic at
`h.nodes[nodeId] = node`, before anything is changed. -/
theorem insert_nonempty_outrange (env : Env F) (h : hnsw) (node : hnswVertex)
    (targetLevel : Int) (hz : h.nodesLen ≠ 0)
    (hbad : ¬ (0 ≤ node.id ∧ node.id < (h.nodesLen : Int))) :
    insert env h node targetLevel
      = (h, Outcome.panic "index out of range: h.nodes[nodeId]") := by
  unfold insert
  simp only [hz, if_false, hnsw.setNode, hbad]

/-- On a non-empty index an id inside the slice is published first: whatever the outcome,
`insert` leaves the index with the node skeleton, or what the linking loop made of it,
possibly with the entry promoted. -/
theorem insert_nonempty_inrange (env : Env F) (h : hnsw) (node : hnswVertex)
    (targetLevel : Int) (hz : h.nodesLen ≠ 0)
    (hrange : 0 ≤ node.id ∧ node.id < (h.nodesLen : Int)) :
    (insert env h node targetLevel).1 = h.withSkeleton node targetLevel ∨
    ∃ n level results,
      (insert env h node targetLevel).1
        = (linkLevels env node.id n level results (h.withSkeleton node targetLevel)).1 ∨
      (insert env h node targetLevel).1
        = (linkLevels env node.id n level results
            (h.withSkeleton node targetLevel)).1.promote node.id targetLevel := by
  unfold insert
  simp only [hz, if_false]
  unfold hnsw.setNode
  simp only [hrange, and_self, if_true]
  split
  · left; rfl
  · left; rfl
  · left; rfl
  · split
    · left; rfl
    · rename_i ep' _ _ dist _
      right
      refine ⟨(min targetLevel h.currentMaximumLayer + 1).toNat,
        min targetLevel h.currentMaximumLayer, empty.insert ep' dist, ?_⟩
      split
      · rename_i h3 hlink
        have e : (linkLevels env node.id (min targetLevel h.currentMaximumLayer + 1).toNat
            (min targetLevel h.currentMaximumLayer) (empty.insert ep' dist)
            (h.withSkeleton node targetLevel)).1 = h3 := by
          unfold hnsw.withSkeleton; rw [hlink]
        rw [e]
        split
        · right; rfl
        · left; rfl
      · rename_i h3 out _ hlink
        left
        unfold hnsw.withSkeleton; rw [hlink]

/-! ## The commit log only grows -/

theorem linkAtLevel_log_ext (h : hnsw) (slot : Nat) (L : Int) (t : U32) :
    ∃ suf, (h.linkAtLevel slot L t).commitLog = h.commitLog ++ suf :=
  ⟨_, linkAtLevel_log h slot L t⟩

theorem replaceLinks_log_ext (h : hnsw) (slot : Nat) (L : Int) (links : List U32) :
    ∃ suf, (h.replaceLinksAtLevel slot L links).commitLog = h.commitLog ++ suf :=
  ⟨_, replaceLinks_log h slot L links⟩

theorem log_ext_refl (l : List CommitRecord) : ∃ suf, l = l ++ suf :=
  ⟨[], (List.append_nil l).symm⟩

theorem log_ext_trans {l1 l2 l3 : List CommitRecord} (a : ∃ suf, l2 = l1 ++ suf)
    (b : ∃ suf, l3 = l2 ++ suf) : ∃ suf, l3 = l1 ++ suf := by
  obtain ⟨s1, rfl⟩ := a
  obtain ⟨s2, rfl⟩ := b
  exact ⟨s1 ++ s2, by simp⟩

theorem linkNeighbors_log_ext (env : Env F) (nodeId L : Int) (ns : List U32) (h : hnsw) :
    ∃ suf, (linkNeighbors env nodeId L ns h).1.commitLog = h.commitLog ++ suf := by
  induction ns generalizing h with
  | nil => exact log_ext_refl _
  | cons nb rest ih =>
    unfold linkNeighbors
    simp only
    have s := fun (t : U32) => log_ext_trans (linkAtLevel_log_ext h nb.val L (uint32 nodeId))
      (linkAtLevel_log_ext _ nodeId.toNat L t)
    repeat' split
    all_goals first
      | exact log_ext_refl _
      | exact s _
      | exact log_ext_trans (s _) (ih _)
      | exact log_ext_trans (log_ext_trans (s _) (replaceLinks_log_ext _ _ _ _)) (ih _)

theorem linkLevels_log_ext (env : Env F) (nodeId : Int) (n : Nat) (level : Int)
    (results : binarySearchTreeGeneric F) (h : hnsw) :
    ∃ suf, (linkLevels env nodeId n level results h).1.commitLog = h.commitLog ++ suf := by
  induction n generalizing level results h with
  | zero => exact log_ext_refl _
  | succ n ih =>
    unfold linkLevels
    split
    · exact log_ext_refl _
    · exact log_ext_refl _
    · exact log_ext_refl _
    · split
      · exact log_ext_refl _
      · exact log_ext_refl _
      · exact log_ext_refl _
      · rename_i results' _ neighbors _
        have s := linkNeighbors_log_ext env nodeId level neighbors h
        split
        · rename_i h' heq
          rw [heq] at s
          exact log_ext_trans s (ih _ _ _)
        · rename_i h' out hne heq
          rw [heq] at s
          exact s

/-- Whatever the outcome, an `insert` of an id inside the slice of a non-empty index leaves
`AddNode` as its first record and the node stored with the drawn level. -/
theorem insert_inrange_skeleton (env : Env F) (h : hnsw) (node : hnswVertex)
    (targetLevel : Int) (hz : h.nodesLen ≠ 0)
    (hrange : 0 ≤ node.id ∧ node.id < (h.nodesLen : Int)) :
    (∃ suf, (insert env h node targetLevel).1.commitLog
        = h.commitLog ++ CommitRecord.AddNode node.id targetLevel :: suf) ∧
    (insert env h node targetLevel).1.nodesLen = h.nodesLen ∧
    ∃ v, (insert env h node targetLevel).1.nodes node.id.toNat = some v ∧
      v.id = node.id ∧ v.level = targetLevel := by
  have hsk : (h.withSkeleton node targetLevel).nodes node.id.toNat
      = some { node with level := targetLevel, connections := fun _ => [] } := by
    simp [hnsw.withSkeleton]
  have hlogsk : (h.withSkeleton node targetLevel).commitLog
      = h.commitLog ++ [CommitRecord.AddNode node.id targetLevel] := rfl
  have key : ∀ n level (results : binarySearchTreeGeneric F),
      (∃ suf, (linkLevels env node.id n level results
          (h.withSkeleton node targetLevel)).1.commitLog
        = h.commitLog ++ CommitRecord.AddNode node.id targetLevel :: suf) ∧
      (linkLevels env node.id n level results
          (h.withSkeleton node targetLevel)).1.nodesLen = h.nodesLen ∧
      ∃ v, (linkLevels env node.id n level results
          (h.withSkeleton node targetLevel)).1.nodes node.id.toNat = some v ∧
        v.id = node.id ∧ v.level = targetLevel := by
    intro n level results
    have s := linkLevels_shape env node.id n level results (h.withSkeleton node targetLevel)
    obtain ⟨suf, hs⟩ := linkLevels_log_ext env node.id n level results
      (h.withSkeleton node targetLevel)
    obtain ⟨v', hv', hid, hl⟩ := s.node hsk
    refine ⟨⟨suf, by rw [hs, hlogsk]; simp⟩, s.2.2.2.2.2.1, v', hv', hid, hl⟩
  rcases insert_nonempty_inrange env h node targetLevel hz hrange with
    e | ⟨n, level, res, e | e⟩
  · rw [e]
    exact ⟨⟨[], rfl⟩, rfl, _, hsk, rfl, rfl⟩
  · rw [e]; exact key n level res
  · rw [e]
    obtain ⟨⟨suf, hs⟩, hlen, hv⟩ := key n level res
    refine ⟨⟨suf ++ [CommitRecord.SetEntry node.id targetLevel], ?_⟩, hlen, hv⟩
    simp only [hnsw.promote, hs]
    simp

/-- The length of the slice after `insert`, whatever the outcome: `importLimit` after the
first insert, unchanged afterwards. -/
theorem insert_nodesLen (env : Env F) (h : hnsw) (node : hnswVertex) (targetLevel : Int) :
    (insert env h node targetLevel).1.nodesLen
      = if h.nodesLen = 0 then importLimit else h.nodesLen := by
  by_cases hz : h.nodesLen = 0
  · rw [if_pos hz]; exact (insert_empty_any env h node targetLevel hz).1
  · rw [if_neg hz]
    by_cases hrange : 0 ≤ node.id ∧ node.id < (h.nodesLen : Int)
    · exact (insert_inrange_skeleton env h node targetLevel hz hrange).2.1
    · rw [insert_nonempty_outrange env h node targetLevel hz hrange]

theorem addSeq_nodesLen (env : Env F) (xs : List (Int × Int)) (h h' : hnsw)
    (hl : h.nodesLen = 0 ∨ h.nodesLen = importLimit) (hr : addSeq env h xs = some h') :
    h'.nodesLen = 0 ∨ h'.nodesLen = importLimit := by
  induction xs generalizing h with
  | nil =>
    simp only [addSeq, Option.some.injEq] at hr
    subst hr
    exact hl
  | cons x rest ih =>
    obtain ⟨id, lvl⟩ := x
    have hstep : (Add env h id lvl).1.nodesLen = 0 ∨
        (Add env h id lvl).1.nodesLen = importLimit := by
      unfold Add
      rw [insert_nodesLen]
      split
      · exact Or.inr rfl
      · exact hl
    unfold addSeq at hr
    split at hr
    · rename_i h1 hadd
      rw [hadd] at hstep
      exact ih h1 hstep hr
    · rename_i h1 e hadd
      rw [hadd] at hstep
      exact ih h1 hstep hr
    · simp at hr

end InRange

/-- C12 (fails as stated): on the index holding the linked nodes 0 and 1, `Add(1, v)` with a
drawn level 0 returns nil, not an error; node 1, which had the adjacency `[0]` at level 0,
is replaced by a fresh vertex that ends up linked to itself, `[1, 1]`. -/
theorem reinsert_counterexample :
    (addAll sampleEnv (New 1 10) [(0, 0), (1, 0)]).map
        (fun h => ((h.nodes 1).map (fun v => v.connections 0), (Add sampleEnv h 1 0).2,
          ((Add sampleEnv h 1 0).1.nodes 1).map (fun v => v.connections 0)))
      = some (some [0], Outcome.ok, some [1, 1]) := by
  decide

/-- C12 (amended): `Add` makes no duplicate check. For every non-empty index and every id
inside the slice, populated or not, `Add(id, v)` behaves exactly as it does on the same index
with `nodes[id]` set to nil: whatever the outcome, the node stored before, its level and its
adjacency, is discarded, `AddNode{id, level}` is the first record emitted, and `nodes[id]`
ends up holding a vertex with the newly drawn level. -/
theorem reinsert_overwrites {F : Type} [LinearOrder F] (env : Env F) (h : hnsw)
    (id targetLevel : Int) (hz : h.nodesLen ≠ 0) (h0 : 0 ≤ id)
    (h1 : id < (h.nodesLen : Int)) :
    Add env h id targetLevel
      = Add env { h with nodes := Function.update h.nodes id.toNat none } id targetLevel ∧
    (∃ suf, (Add env h id targetLevel).1.commitLog
        = h.commitLog ++ CommitRecord.AddNode id targetLevel :: suf) ∧
    ∃ v, (Add env h id targetLevel).1.nodes id.toNat = some v ∧ v.id = id ∧
      v.level = targetLevel := by
  refine ⟨?_, ?_⟩
  · unfold Add insert
    simp only [hz, if_false, hnsw.setNode, h0, h1, and_self, if_true, Function.update_idem]
  · have := insert_inrange_skeleton env h { id := id, level := 0, connections := fun _ => [] }
      targetLevel hz ⟨h0, h1⟩
    exact ⟨this.1, this.2.2⟩

/-- Witness for C12 (amended): id 1 added again to the index holding nodes 0 and 1. -/
theorem reinsert_overwrites_witness :
    ∃ h, addAll sampleEnv (New 1 10) [(0, 0), (1, 0)] = some h ∧
      h.nodesLen ≠ 0 ∧ (0 : Int) ≤ 1 ∧ (1 : Int) < (h.nodesLen : Int) ∧
      Add sampleEnv h 1 0
        = Add sampleEnv { h with nodes := Function.update h.nodes (1 : Int).toNat none } 1 0 := by
  have hs : ((addAll sampleEnv (New 1 10) [(0, 0), (1, 0)]).map
      (fun h => h.nodesLen)) = some importLimit := by decide
  cases hh : addAll sampleEnv (New 1 10) [(0, 0), (1, 0)] with
  | none => rw [hh] at hs; simp at hs
  | some h =>
    rw [hh] at hs
    simp only [Option.map_some', Option.some.injEq] at hs
    have hz : h.nodesLen ≠ 0 := by rw [hs]; decide
    have h1 : (1 : Int) < (h.nodesLen : Int) := by rw [hs]; decide
    exact ⟨h, rfl, hz, by decide, h1,
      (reinsert_overwrites sampleEnv h 1 0 hz (by decide) h1).1⟩

/-- C16 (fails as stated): `importLimit` is the fixed length of the slice. Inserting id 10000
into a fresh index, or id 12345 into the index that holds node 0, panics with an index out
of range and stores nothing at that id. -/
theorem import_limit_counterexample :
    (Add sampleEnv (New 1 10) 10000 0).2
      = Outcome.panic "index out of range: h.nodes[node.id]" ∧
    ((Add sampleEnv (New 1 10) 10000 0).1.nodeAt 10000).isNone = true ∧
    (Add sampleEnv (Add sampleEnv (New 1 10) 0 0).1 12345 0).2
      = Outcome.panic "index out of range: h.nodes[nodeId]" ∧
    ((Add sampleEnv (Add sampleEnv (New 1 10) 0 0).1 12345 0).1.nodeAt 12345).isNone = true := by
  decide

/-- C16 (amended): the slice has the fixed length `importLimit` from the first insert on. In
every index state reached by sequential inserts, inserting a node with `0 ≤ id <
importLimit` stores it at `nodes[id]`, whatever the outcome of the rest of the insert, and
inserting any other id indexes outside the slice: the call panics and nothing is stored at
that id. -/
theorem import_limit_fixed_length {F : Type} [LinearOrder F] (env : Env F) (m ef : Int)
    (xs : List (Int × Int)) (h : hnsw) (hr : addSeq env (New m ef) xs = some h)
    (id targetLevel : Int) :
    ((0 ≤ id ∧ id < (importLimit : Int)) →
      ∃ v, (Add env h id targetLevel).1.nodeAt id = some (some v) ∧ v.id = id) ∧
    (¬ (0 ≤ id ∧ id < (importLimit : Int)) →
      (∃ msg, (Add env h id targetLevel).2 = Outcome.panic msg) ∧
      (Add env h id targetLevel).1.nodeAt id = none) := by
  have hl := addSeq_nodesLen env xs (New m ef) h (Or.inl rfl) hr
  have hlen : (Add env h id targetLevel).1.nodesLen = importLimit := by
    unfold Add
    rw [insert_nodesLen]
    rcases hl with e | e
    · rw [if_pos e]
    · rw [if_neg (by rw [e]; decide), e]
  constructor
  · intro hrange
    unfold hnsw.nodeAt
    rw [hlen, if_pos hrange]
    by_cases hz : h.nodesLen = 0
    · unfold Add
      rw [insert_empty_ok env h _ targetLevel hz hrange.1 hrange.2]
      exact ⟨{ id := id, level := 0, connections := fun _ => [] }, by simp, rfl⟩
    · have hlen0 : h.nodesLen = importLimit := by
        rcases hl with e | e
        · exact absurd e hz
        · exact e
      obtain ⟨v, hv, hid, _⟩ := (insert_inrange_skeleton env h
        { id := id, level := 0, connections := fun _ => [] } targetLevel hz
        (by rw [hlen0]; exact hrange)).2.2
      exact ⟨v, by unfold Add; rw [hv], hid⟩
  · intro hbad
    refine ⟨?_, by unfold hnsw.nodeAt; rw [hlen, if_neg hbad]⟩
    by_cases hz : h.nodesLen = 0
    · exact ⟨_, insert_empty_panic env h _ targetLevel hz hbad⟩
    · have hlen0 : h.nodesLen = importLimit := by
        rcases hl with e | e
        · exact absurd e hz
        · exact e
      unfold Add
      rw [insert_nonempty_outrange env h _ targetLevel hz (by rw [hlen0]; exact hbad)]
      exact ⟨_, rfl⟩

/-- Witness for C16 (amended): id 9999 is stored in the index holding node 0. -/
theorem import_limit_fixed_length_witness :
    ∃ h, addSeq sampleEnv (New 1 10) [(0, 0)] = some h ∧
      ∃ v, (Add sampleEnv h 9999 0).1.nodeAt 9999 = some (some v) ∧ v.id = 9999 := by
  have hs : (addSeq sampleEnv (New 1 10) [(0, 0)]).isSome = true := by decide
  obtain ⟨h, hh⟩ := Option.isSome_iff_exists.mp hs
  exact ⟨h, hh, (import_limit_fixed_length sampleEnv 1 10 _ h hh 9999 0).1 (by decide)⟩

end Hnsw

namespace Hnsw

namespace binarySearchTreeGeneric

variable {F : Type} [LinearOrder F]

/-! ## Well-formed candidate sets -/

theorem perm_insertSorted (x : Elem F) (l : List (Elem F)) :
    (insertSorted x l).Perm (x :: l) := by
  induction l with
  | nil => simp [insertSorted]
  | cons y ys ih =>
    unfold insertSorted
    split
    · exact List.Perm.refl _
    · exact (List.Perm.cons y ih).trans (List.Perm.swap x y ys)

theorem ordLe_of_before {x y : Elem F} (h : before x y = true) : ordLe x y := by
  simp only [before, Bool.or_eq_true, decide_eq_true_eq, Bool.and_eq_true] at h
  rcases h with h | ⟨h1, h2⟩
  · exact Or.inl h
  · exact Or.inr ⟨h1, le_of_lt h2⟩

theorem ordLe_of_not_before {x y : Elem F} (h : ¬ before x y = true) : ordLe y x := by
  simp only [before, Bool.or_eq_true, decide_eq_true_eq, Bool.and_eq_true, not_or,
    not_and, not_lt] at h
  rcases lt_or_eq_of_le h.1 with h1 | h1
  · exact Or.inl h1
  · exact Or.inr ⟨h1, h.2 h1.symm⟩

theorem ordLe_trans {x y z : Elem F} (a : ordLe x y) (b : ordLe y z) : ordLe x z := by
  rcases a with a | ⟨a1, a2⟩
  · rcases b with b | ⟨b1, _⟩
    · exact Or.inl (lt_trans a b)
    · exact Or.inl (by rw [← b1]; exact a)
  · rcases b with b | ⟨b1, b2⟩
    · exact Or.inl (by rw [a1]; exact b)
    · exact Or.inr ⟨a1.trans b1, le_trans a2 b2⟩

theorem ordLe_dist {x y : Elem F} (a : ordLe x y) : x.dist ≤ y.dist := by
  rcases a with a | ⟨a1, _⟩
  · exact le_of_lt a
  · exact le_of_eq a1

theorem pairwise_insertSorted (x : Elem F) (l : List (Elem F)) (h : l.Pairwise ordLe) :
    (insertSorted x l).Pairwise ordLe := by
  induction l with
  | nil => simp [insertSorted]
  | cons y ys ih =>
    unfold insertSorted
    obtain ⟨hy, hys⟩ := List.pairwise_cons.mp h
    split
    · rename_i hb
      refine List.pairwise_cons.mpr ⟨?_, h⟩
      intro z hz
      rcases List.mem_cons.mp hz with e | e
      · rw [e]; exact ordLe_of_before hb
      · exact ordLe_trans (ordLe_of_before hb) (hy z e)
    · rename_i hb
      refine List.pairwise_cons.mpr ⟨?_, ih hys⟩
      intro z hz
      rcases (mem_insertSorted x z ys).mp hz with e | e
      · rw [e]; exact ordLe_of_not_before hb
      · exact hy z e

theorem not_mem_index_of_any_false {t : binarySearchTreeGeneric F} {i : Int}
    (h : ¬ (t.flat.any (fun e => decide (e.index = i)) = true)) :
    ∀ e ∈ t.flat, e.index ≠ i := by
  intro e he hi
  apply h
  exact List.any_eq_true.mpr ⟨e, he, by simpa using hi⟩

theorem insert_of_new {t : binarySearchTreeGeneric F} {i : Int} (d : F)
    (h : ∀ e ∈ t.flat, e.index ≠ i) :
    t.insert i d = ⟨insertSorted ⟨i, d⟩ t.flat⟩ := by
  unfold insert
  rw [if_neg]
  intro ha
  obtain ⟨e, he, hi⟩ := List.any_eq_true.mp ha
  exact h e he (by simpa using hi)

theorem insert_uniq {t : binarySearchTreeGeneric F} (i : Int) (d : F) (h : t.Uniq) :
    (t.insert i d).Uniq := by
  unfold insert
  split
  · exact h
  · rename_i hn
    unfold Uniq
    simp only
    have hp := (perm_insertSorted (⟨i, d⟩ : Elem F) t.flat).map (fun e => e.index)
    rw [hp.nodup_iff]
    simp only [List.map_cons]
    refine List.nodup_cons.mpr ⟨?_, h⟩
    intro hm
    obtain ⟨e, he, hi⟩ := List.mem_map.mp hm
    exact not_mem_index_of_any_false hn e he hi

theorem delete_uniq {t : binarySearchTreeGeneric F} (i : Int) (d : F) (h : t.Uniq) :
    (t.delete i d).Uniq := by
  unfold Uniq delete
  simp only
  exact List.Nodup.sublist (List.Sublist.map _ (List.filter_sublist _)) h

theorem insert_ordered {t : binarySearchTreeGeneric F} (i : Int) (d : F) (h : t.Ordered) :
    (t.insert i d).Ordered := by
  unfold insert
  split
  · exact h
  · exact pairwise_insertSorted _ _ h

theorem delete_ordered {t : binarySearchTreeGeneric F} (i : Int) (d : F) (h : t.Ordered) :
    (t.delete i d).Ordered := by
  unfold Ordered delete
  simp only
  exact List.Pairwise.sublist (List.filter_sublist _) h

theorem mem_insert_of_mem {t : binarySearchTreeGeneric F} {i : Int} {d : F} {e : Elem F}
    (h : e ∈ t.flat) : e ∈ (t.insert i d).flat := by
  unfold insert
  split
  · exact h
  · exact (mem_insertSorted _ _ _).mpr (Or.inr h)

theorem mem_insert_self {t : binarySearchTreeGeneric F} {i : Int} (d : F)
    (h : ∀ e ∈ t.flat, e.index ≠ i) : (⟨i, d⟩ : Elem F) ∈ (t.insert i d).flat := by
  rw [insert_of_new d h]
  exact (mem_insertSorted _ _ _).mpr (Or.inl rfl)

theorem length_insert_new {t : binarySearchTreeGeneric F} {i : Int} (d : F)
    (h : ∀ e ∈ t.flat, e.index ≠ i) :
    (t.insert i d).flat.length = t.flat.length + 1 := by
  rw [insert_of_new d h]
  exact length_insertSorted _ _

theorem length_insert_ge (t : binarySearchTreeGeneric F) (i : Int) (d : F) :
    t.flat.length ≤ (t.insert i d).flat.length := by
  unfold insert
  split
  · exact le_refl _
  · simp [length_insertSorted]

theorem uniq_flat_nodup {t : binarySearchTreeGeneric F} (h : t.Uniq) : t.flat.Nodup :=
  List.Nodup.of_map _ h

theorem uniq_eq_of_index {t : binarySearchTreeGeneric F} (h : t.Uniq) {a b : Elem F}
    (ha : a ∈ t.flat) (hb : b ∈ t.flat) (hi : a.index = b.index) : a = b :=
  List.inj_on_of_nodup_map h ha hb hi

theorem length_delete_uniq {t : binarySearchTreeGeneric F} (h : t.Uniq) {e : Elem F}
    (he : e ∈ t.flat) : (t.delete e.index e.dist).flat.length + 1 = t.flat.length := by
  have hnd := uniq_flat_nodup h
  have hf : (t.delete e.index e.dist).flat = t.flat.erase e := by
    rw [List.Nodup.erase_eq_filter hnd]
    unfold delete
    simp only
    apply List.filter_congr
    intro a ha
    by_cases hae : a = e
    · subst hae
      simp
    · have : ¬ (a.index = e.index) := fun hi => hae (uniq_eq_of_index h ha he hi)
      simp [this, hae]
  rw [hf, List.length_erase_of_mem he]
  have : 0 < t.flat.length := List.length_pos_of_mem he
  omega

theorem pairwise_getLast {l : List (Elem F)} (h : l.Pairwise ordLe) {mx : Elem F}
    (hm : l.getLast? = some mx) : ∀ e ∈ l, e.dist ≤ mx.dist := by
  induction l with
  | nil => simp at hm
  | cons a l ih =>
    obtain ⟨ha, hl⟩ := List.pairwise_cons.mp h
    cases l with
    | nil =>
      simp only [List.getLast?_singleton, Option.some.injEq] at hm
      intro e he
      simp only [List.mem_singleton] at he
      rw [he, hm]
    | cons b l =>
      rw [List.getLast?_cons_cons] at hm
      intro e he
      rcases List.mem_cons.mp he with e1 | e1
      · rw [e1]
        exact ordLe_dist (ha mx (List.mem_of_getLast?_eq_some hm))
      · exact ih hl hm e e1

theorem maximum_ge {t : binarySearchTreeGeneric F} (h : t.Ordered) {mx : Elem F}
    (hm : t.maximum = some mx) : ∀ e ∈ t.flat, e.dist ≤ mx.dist :=
  pairwise_getLast h hm

theorem foldl_insert_uniq (l : List (Elem F)) (t : binarySearchTreeGeneric F) (h : t.Uniq) :
    (l.foldl (fun t ep => t.insert ep.index ep.dist) t).Uniq := by
  induction l generalizing t with
  | nil => exact h
  | cons a l ih => exact ih _ (insert_uniq _ _ h)

theorem foldl_insert_ordered (l : List (Elem F)) (t : binarySearchTreeGeneric F)
    (h : t.Ordered) : (l.foldl (fun t ep => t.insert ep.index ep.dist) t).Ordered := by
  induction l generalizing t with
  | nil => exact h
  | cons a l ih => exact ih _ (insert_ordered _ _ h)

theorem length_foldl_insert_ge (l : List (Elem F)) (t : binarySearchTreeGeneric F) :
    t.flat.length ≤ (l.foldl (fun t ep => t.insert ep.index ep.dist) t).flat.length := by
  induction l generalizing t with
  | nil => exact le_refl _
  | cons a l ih =>
    simp only [List.foldl]
    exact le_trans (length_insert_ge t a.index a.dist) (ih _)

theorem empty_uniq : (empty : binarySearchTreeGeneric F).Uniq := by
  simp [Uniq, empty]

theorem empty_ordered : (empty : binarySearchTreeGeneric F).Ordered := by
  simp [Ordered, empty]

end binarySearchTreeGeneric

end Hnsw

namespace Hnsw

open binarySearchTreeGeneric

section SearchInvLemmas

variable {F : Type} [LinearOrder F]

/-! ## What the loop of `searchLayer` preserves -/

theorem visitNeighbors_preserves (env : Env F) (queryId ef : Int) (worst : F)
    (P : SearchState F → Prop)
    (hskip : ∀ (s : SearchState F) (nb : U32), nb ∉ s.visited → P s →
      P ⟨nb :: s.visited, s.candidates, s.results⟩)
    (hadd : ∀ (s : SearchState F) (nb : U32) (d : F), nb ∉ s.visited → P s →
      distBetweenNodes env (nb.val : Int) queryId = .ok d →
      ¬ s.results.len + 1 > ef →
      P ⟨nb :: s.visited, s.candidates.insert (nb.val : Int) d,
        s.results.insert (nb.val : Int) d⟩)
    (hrepl : ∀ (s : SearchState F) (nb : U32) (d : F) (mx : Elem F), nb ∉ s.visited → P s →
      distBetweenNodes env (nb.val : Int) queryId = .ok d →
      s.results.len + 1 > ef →
      (s.results.insert (nb.val : Int) d).maximum = some mx →
      P ⟨nb :: s.visited, s.candidates.insert (nb.val : Int) d,
        (s.results.insert (nb.val : Int) d).delete mx.index mx.dist⟩)
    (conns : List U32) (s s' : SearchState F) (hP : P s)
    (h : visitNeighbors env queryId ef worst conns s = .ok s') : P s' := by
  induction conns generalizing s with
  | nil =>
    simp only [visitNeighbors, Res.ok.injEq] at h
    subst h
    exact hP
  | cons nb rest ih =>
    unfold visitNeighbors at h
    simp only at h
    by_cases hv : nb ∈ s.visited
    · rw [if_pos hv] at h
      exact ih s hP h
    · rw [if_neg hv] at h
      cases hd : distBetweenNodes env (nb.val : Int) queryId with
      | error e => rw [hd] at h; simp at h
      | ok d =>
        rw [hd] at h
        simp only at h
        by_cases hc : d < worst ∨ s.results.len < ef
        · rw [if_pos hc] at h
          by_cases hl : s.results.len + 1 > ef
          · rw [if_pos hl] at h
            cases hm : (s.results.insert (nb.val : Int) d).maximum with
            | none => rw [hm] at h; simp at h
            | some mx =>
              rw [hm] at h
              exact ih _ (hrepl s nb d mx hv hP hd hl hm) h
          · rw [if_neg hl] at h
            exact ih _ (hadd s nb d hv hP hd hl) h
        · rw [if_neg hc] at h
          exact ih _ (hskip s nb hv hP) h

theorem searchLoop_preserves (env : Env F) (h : hnsw) (queryNode : Option hnswVertex)
    (ef level : Int) (P : SearchState F → Prop)
    (hdel : ∀ (s : SearchState F) (c : Elem F), P s → s.candidates.minimum = some c →
      P ⟨s.visited, s.candidates.delete c.index c.dist, s.results⟩)
    (hvisit : ∀ (qid : Int) (worst : F) (conns : List U32) (s s' : SearchState F), P s →
      visitNeighbors env qid ef worst conns s = .ok s' → P s')
    (fuel : Nat) (s : SearchState F) (r : binarySearchTreeGeneric F) (hP : P s)
    (hr : searchLoop env h queryNode ef level fuel s = .ok r) :
    ∃ s' : SearchState F, P s' ∧ s'.results = r := by
  induction fuel generalizing s with
  | zero => simp [searchLoop] at hr
  | succ fuel ih =>
    unfold searchLoop at hr
    simp only at hr
    cases hmin : s.candidates.minimum with
    | none =>
      rw [hmin] at hr
      simp only [Res.ok.injEq] at hr
      exact ⟨s, hP, hr⟩
    | some c =>
      rw [hmin] at hr
      simp only at hr
      have hP1 := hdel s c hP hmin
      repeat' split at hr
      all_goals first
        | (simp at hr; done)
        | (simp only [Res.ok.injEq] at hr
           exact ⟨s, hP, hr⟩)
        | (rename_i hvis
           exact ih _ (hvisit _ _ _ _ _ hP1 hvis) hr)

/-- The ids held by `results` are not met again by the loop over the neighbours. -/
theorem SearchInv.fresh {s : SearchState F} (hs : SearchInv s) {nb : U32}
    (hv : nb ∉ s.visited) : ∀ e ∈ s.results.flat, e.index ≠ (nb.val : Int) := by
  intro e he hi
  apply hv
  have := hs.visited e he
  rw [hi, uint32_val] at this
  exact this

theorem SearchInv.inv_skip {s : SearchState F} (hs : SearchInv s) (nb : U32) (c : binarySearchTreeGeneric F) :
    SearchInv (⟨nb :: s.visited, c, s.results⟩ : SearchState F) :=
  ⟨fun e he => List.mem_cons_of_mem _ (hs.visited e he), hs.uniq, hs.ordered⟩

theorem SearchInv.inv_add {s : SearchState F} (hs : SearchInv s) (nb : U32) (d : F)
    (c : binarySearchTreeGeneric F) :
    SearchInv (⟨nb :: s.visited, c, s.results.insert (nb.val : Int) d⟩ : SearchState F) := by
  refine ⟨?_, insert_uniq _ _ hs.uniq, insert_ordered _ _ hs.ordered⟩
  intro e he
  rcases mem_insert he with h1 | h1
  · rw [h1]
    simp only [uint32_val]
    exact List.mem_cons_self _ _
  · exact List.mem_cons_of_mem _ (hs.visited e h1)

theorem SearchInv.inv_repl {s : SearchState F} (hs : SearchInv s) (nb : U32) (d : F)
    (c : binarySearchTreeGeneric F) (mx : Elem F) :
    SearchInv (⟨nb :: s.visited, c,
      (s.results.insert (nb.val : Int) d).delete mx.index mx.dist⟩ : SearchState F) := by
  have h1 := hs.inv_add nb d c
  exact ⟨fun e he => h1.visited e (mem_delete he), delete_uniq _ _ h1.uniq,
    delete_ordered _ _ h1.ordered⟩

theorem len_repl {s : SearchState F} (hs : SearchInv s) {nb : U32} (hv : nb ∉ s.visited)
    (d : F) {mx : Elem F} (hm : (s.results.insert (nb.val : Int) d).maximum = some mx) :
    ((s.results.insert (nb.val : Int) d).delete mx.index mx.dist).len = s.results.len := by
  have h1 := length_insert_new d (hs.fresh hv)
  have h2 := length_delete_uniq (insert_uniq (nb.val : Int) d hs.uniq) (maximum_mem hm)
  simp only [len]
  omega

theorem visitNeighbors_inv (env : Env F) (queryId ef : Int) (worst : F)
    (conns : List U32) (s s' : SearchState F) (hs : SearchInv s)
    (h : visitNeighbors env queryId ef worst conns s = .ok s') : SearchInv s' :=
  visitNeighbors_preserves env queryId ef worst SearchInv
    (fun s nb _ hs => hs.inv_skip nb _)
    (fun s nb d _ hs _ _ => hs.inv_add nb d _)
    (fun s nb d mx _ hs _ _ _ => hs.inv_repl nb d _ mx)
    conns s s' hs h

/-- The loop over the neighbours never shrinks `results`. -/
theorem visitNeighbors_len_ge (env : Env F) (queryId ef : Int) (worst : F) (B : Int)
    (conns : List U32) (s s' : SearchState F) (hs : SearchInv s ∧ B ≤ s.results.len)
    (h : visitNeighbors env queryId ef worst conns s = .ok s') :
    SearchInv s' ∧ B ≤ s'.results.len :=
  visitNeighbors_preserves env queryId ef worst (fun s => SearchInv s ∧ B ≤ s.results.len)
    (fun s nb _ hs => ⟨hs.1.inv_skip nb _, hs.2⟩)
    (fun s nb d hv hs _ _ => ⟨hs.1.inv_add nb d _, by
      have := length_insert_ge s.results (nb.val : Int) d
      have h2 := hs.2
      simp only [len] at h2 ⊢
      omega⟩)
    (fun s nb d mx hv hs _ _ hm => ⟨hs.1.inv_repl nb d _ mx, by
      have := len_repl hs.1 hv d hm
      have h2 := hs.2
      simp only at this ⊢
      omega⟩)
    conns s s' hs h

/-- The loop over the neighbours keeps `results` within any bound that is at least `ef`. -/
theorem visitNeighbors_len_le (env : Env F) (queryId ef : Int) (worst : F) (B : Int)
    (hB : ef ≤ B) (conns : List U32) (s s' : SearchState F) (hs : s.results.len ≤ B)
    (h : visitNeighbors env queryId ef worst conns s = .ok s') : s'.results.len ≤ B :=
  visitNeighbors_preserves env queryId ef worst (fun s => s.results.len ≤ B)
    (fun s nb _ hs => hs)
    (fun s nb d hv hs _ hl => by
      have := length_insert_le s.results (nb.val : Int) d
      simp only [len] at hl hs ⊢
      omega)
    (fun s nb d mx hv hs _ _ hm => by
      have h1 := length_insert_le s.results (nb.val : Int) d
      have h2 := length_delete_lt (maximum_mem hm)
      simp only [len] at hs ⊢
      omega)
    conns s s' hs h

theorem searchInit_inv (eps : binarySearchTreeGeneric F) : SearchInv (searchInit eps) := by
  refine ⟨?_, foldl_insert_uniq _ _ empty_uniq, foldl_insert_ordered _ _ empty_ordered⟩
  intro e he
  simp only [searchInit] at he ⊢
  rcases mem_foldl_insert _ _ _ he with h1 | h1
  · have key : ∀ (l : List (Elem F)) (acc : List U32) (x : U32),
        (x ∈ acc ∨ ∃ a ∈ l, uint32 a.index = x) →
        x ∈ l.foldl
          (fun vis elem => if uint32 elem.index ∈ vis then vis else uint32 elem.index :: vis)
          acc := by
      intro l
      induction l with
      | nil =>
        intro acc x hx
        rcases hx with hx | ⟨a, ha, _⟩
        · exact hx
        · simp at ha
      | cons b l ih =>
        intro acc x hx
        simp only [List.foldl]
        apply ih
        rcases hx with hx | ⟨a, ha, hax⟩
        · left
          split
          · exact hx
          · exact List.mem_cons_of_mem _ hx
        · rcases List.mem_cons.mp ha with e1 | e1
          · left
            subst e1
            split
            · rename_i hin
              rw [← hax]; exact hin
            · rw [← hax]; exact List.mem_cons_self _ _
          · exact Or.inr ⟨a, e1, hax⟩
    exact key _ _ _ (Or.inr ⟨e, h1, rfl⟩)
  · simp [binarySearchTreeGeneric.empty] at h1

end SearchInvLemmas

end Hnsw

namespace Hnsw

open binarySearchTreeGeneric

section SearchSize

variable {F : Type} [LinearOrder F]

/-! ## Size of the result of `searchLayer` -/

theorem searchInit_len_le (eps : binarySearchTreeGeneric F) :
    (searchInit eps).results.len ≤ eps.len := by
  have := length_foldl_insert_le eps.flattenInOrder (empty : binarySearchTreeGeneric F)
  simp only [searchInit, flattenInOrder, empty, List.length_nil, len] at *
  omega

theorem searchLoop_len_le (env : Env F) (h : hnsw) (queryNode : Option hnswVertex)
    (ef level B : Int) (hB : ef ≤ B) (fuel : Nat) (s : SearchState F)
    (r : binarySearchTreeGeneric F) (hs : s.results.len ≤ B)
    (hr : searchLoop env h queryNode ef level fuel s = .ok r) : r.len ≤ B := by
  obtain ⟨s', h1, h2⟩ := searchLoop_preserves env h queryNode ef level
    (fun s => s.results.len ≤ B) (fun s c hs _ => hs)
    (fun qid worst conns s s' hs hv => visitNeighbors_len_le env qid ef worst B hB conns s s' hs hv)
    fuel s r hs hr
  rw [← h2]
  exact h1

end SearchSize

/-- C13 (fails as stated): in the index holding the ids 0 and 1 at level 0, `searchLayer` for
the query node 0 with the two entry points 0 and 1 (carrying their true distances 0 and 25)
and `ef = 1` returns both entries: the result holds two entries, more than `ef`. -/
theorem searchLayer_size_counterexample :
    (addAll sampleEnv (New 1 10) [(0, 0), (1, 0)]).map
        (fun h => match searchLayer sampleEnv h (h.nodes 0) ⟨[⟨0, 0⟩, ⟨1, 25⟩]⟩ 1 0 with
          | .ok r => some (r.flat.map (fun e => e.index), decide (r.len ≤ 1))
          | _ => none)
      = some (some ([0, 1], false)) := by
  decide

/-- C13 (amended): for every query node, every set of entry points, every `ef` and every
level, a successful `searchLayer` call returns a candidate set with at most
`max(ef, number of entry points)` entries; so with at most `ef` entry points it returns at
most `ef` entries. -/
theorem searchLayer_size_bound {F : Type} [LinearOrder F] (env : Env F) (h : hnsw)
    (queryNode : Option hnswVertex) (entrypoints r : binarySearchTreeGeneric F)
    (ef level : Int) (hr : searchLayer env h queryNode entrypoints ef level = .ok r) :
    r.len ≤ max ef entrypoints.len ∧ (entrypoints.len ≤ ef → r.len ≤ ef) := by
  have key : ∀ B : Int, ef ≤ B → entrypoints.len ≤ B → r.len ≤ B := fun B h1 h2 =>
    searchLoop_len_le env h queryNode ef level B h1 _ _ r
      (le_trans (searchInit_len_le entrypoints) h2) hr
  exact ⟨key _ (le_max_left _ _) (le_max_right _ _), fun hle => key ef (le_refl _) hle⟩

/-- C13 (amended), at a concrete input: the search of the counterexample, started from the
single entry point 0 with `ef = 1`, succeeds and returns at most one entry. -/
theorem searchLayer_size_bound_witness :
    searchLayer sampleEnv (Add sampleEnv (Add sampleEnv (New 1 10) 0 0).1 1 0).1
        (some ⟨0, 0, fun _ => []⟩) ⟨[⟨0, 0⟩]⟩ 1 0 = .ok ⟨[⟨0, 0⟩]⟩ ∧
      ((⟨[⟨0, 0⟩]⟩ : binarySearchTreeGeneric Int).len
          ≤ max 1 (⟨[⟨0, 0⟩]⟩ : binarySearchTreeGeneric Int).len ∧
        ((⟨[⟨0, 0⟩]⟩ : binarySearchTreeGeneric Int).len ≤ 1 →
          (⟨[⟨0, 0⟩]⟩ : binarySearchTreeGeneric Int).len ≤ 1)) :=
  ⟨rfl, searchLayer_size_bound sampleEnv (Add sampleEnv (Add sampleEnv (New 1 10) 0 0).1 1 0).1
    (some ⟨0, 0, fun _ => []⟩) ⟨[⟨0, 0⟩]⟩ ⟨[⟨0, 0⟩]⟩ 1 0 rfl⟩


end Hnsw

namespace Hnsw

open binarySearchTreeGeneric

section SearchBreak

variable {F : Type} [LinearOrder F]

/-! ## The early termination of `searchLayer` -/

theorem SearchTrue.true_skip {env : Env F} {queryId ef : Int} {s : SearchState F}
    (hs : SearchTrue env queryId ef s) (nb : U32) :
    SearchTrue env queryId ef (⟨nb :: s.visited, s.candidates, s.results⟩ : SearchState F) :=
  ⟨hs.base.inv_skip nb _, hs.trueDist, hs.sub⟩

theorem SearchTrue.true_add {env : Env F} {queryId ef : Int} {s : SearchState F}
    (hs : SearchTrue env queryId ef s) {nb : U32} (hv : nb ∉ s.visited) {d : F}
    (hd : distBetweenNodes env (nb.val : Int) queryId = .ok d)
    (hl : ¬ s.results.len + 1 > ef) :
    SearchTrue env queryId ef (⟨nb :: s.visited, s.candidates.insert (nb.val : Int) d,
      s.results.insert (nb.val : Int) d⟩ : SearchState F) := by
  refine ⟨hs.base.inv_add nb d _, ?_, Or.inl ?_⟩
  · intro e he
    rcases he with he | he <;> rcases mem_insert he with h1 | h1
    · rw [h1]; exact hd
    · exact hs.trueDist e (Or.inl h1)
    · rw [h1]; exact hd
    · exact hs.trueDist e (Or.inr h1)
  · have hsub : ∀ c ∈ s.candidates.flat, c ∈ s.results.flat := by
      rcases hs.sub with h1 | h1
      · exact h1
      · exfalso; omega
    intro c hc
    rcases mem_insert hc with h1 | h1
    · rw [h1]; exact mem_insert_self d (hs.base.fresh hv)
    · exact mem_insert_of_mem (hsub c h1)

theorem SearchTrue.true_repl {env : Env F} {queryId ef : Int} {s : SearchState F}
    (hs : SearchTrue env queryId ef s) {nb : U32} (hv : nb ∉ s.visited) {d : F}
    (hd : distBetweenNodes env (nb.val : Int) queryId = .ok d)
    (hl : s.results.len + 1 > ef) {mx : Elem F}
    (hm : (s.results.insert (nb.val : Int) d).maximum = some mx) :
    SearchTrue env queryId ef (⟨nb :: s.visited, s.candidates.insert (nb.val : Int) d,
      (s.results.insert (nb.val : Int) d).delete mx.index mx.dist⟩ : SearchState F) := by
  refine ⟨hs.base.inv_repl nb d _ mx, ?_, Or.inr ?_⟩
  · intro e he
    rcases he with he | he
    · rcases mem_insert he with h1 | h1
      · rw [h1]; exact hd
      · exact hs.trueDist e (Or.inl h1)
    · rcases mem_insert (mem_delete he) with h1 | h1
      · rw [h1]; exact hd
      · exact hs.trueDist e (Or.inr h1)
  · have := len_repl hs.base hv d hm
    simp only at this ⊢
    omega

theorem visitNeighbors_true (env : Env F) (queryId ef : Int) (worst : F)
    (conns : List U32) (s s' : SearchState F) (hs : SearchTrue env queryId ef s)
    (h : visitNeighbors env queryId ef worst conns s = .ok s') :
    SearchTrue env queryId ef s' :=
  visitNeighbors_preserves env queryId ef worst (SearchTrue env queryId ef)
    (fun s nb _ hs => hs.true_skip nb)
    (fun s nb d hv hs hd hl => hs.true_add hv hd hl)
    (fun s nb d mx hv hs hd hl hm => hs.true_repl hv hd hl hm)
    conns s s' hs h

theorem SearchTrue.true_pop {env : Env F} {queryId ef : Int} {s : SearchState F}
    (hs : SearchTrue env queryId ef s) (c : Elem F) :
    SearchTrue env queryId ef
      (⟨s.visited, s.candidates.delete c.index c.dist, s.results⟩ : SearchState F) := by
  refine ⟨⟨hs.base.visited, hs.base.uniq, hs.base.ordered⟩, ?_, ?_⟩
  · intro e he
    rcases he with he | he
    · exact hs.trueDist e (Or.inl (mem_delete he))
    · exact hs.trueDist e (Or.inr he)
  · rcases hs.sub with h1 | h1
    · exact Or.inl fun c hc => h1 c (mem_delete hc)
    · exact Or.inr h1

theorem searchInit_true (env : Env F) (queryId ef : Int) (eps : binarySearchTreeGeneric F)
    (htrue : ∀ e ∈ eps.flat, distBetweenNodes env e.index queryId = .ok e.dist) :
    SearchTrue env queryId ef (searchInit eps) := by
  refine ⟨searchInit_inv eps, ?_, Or.inl fun c hc => hc⟩
  intro e he
  have he' : e ∈ (eps.flattenInOrder.foldl (fun t ep => t.insert ep.index ep.dist)
      (empty : binarySearchTreeGeneric F)).flat := by
    rcases he with he | he <;> exact he
  rcases mem_foldl_insert _ _ _ he' with h1 | h1
  · exact htrue e h1
  · simp [binarySearchTreeGeneric.empty] at h1

theorem LoopReach.reach_true {env : Env F} {h : hnsw} {q : hnswVertex}
    {eps : binarySearchTreeGeneric F} {ef level : Int} {s : SearchState F}
    (htrue : ∀ e ∈ eps.flat, distBetweenNodes env e.index q.id = .ok e.dist)
    (hs : LoopReach env h q eps ef level s) : SearchTrue env q.id ef s := by
  induction hs with
  | init => exact searchInit_true env q.id ef eps htrue
  | next s s' candidate worst wd dist cn _ hmin hmax hw hd hle hn hv ih =>
    exact visitNeighbors_true env q.id ef wd _ _ s' (ih.true_pop candidate) hv

/-- In a state in which every entry carries its true distance, a closest candidate that is
farther from the query than the farthest result means that `results` holds at least `ef`
entries. -/
theorem SearchTrue.true_full {env : Env F} {queryId ef : Int} {s : SearchState F}
    (hs : SearchTrue env queryId ef s) {candidate worst : Elem F} {wd d : F}
    (hmin : s.candidates.minimum = some candidate) (hmax : s.results.maximum = some worst)
    (hw : distBetweenNodes env worst.index queryId = .ok wd)
    (hd : distBetweenNodes env candidate.index queryId = .ok d)
    (hgt : d > wd) : ef ≤ s.results.len := by
  rcases hs.sub with h1 | h1
  · exfalso
    have hc := minimum_mem hmin
    have e1 := hs.trueDist candidate (Or.inl hc)
    have e2 := hs.trueDist worst (Or.inr (maximum_mem hmax))
    rw [hd] at e1
    rw [hw] at e2
    simp only [Except.ok.injEq] at e1 e2
    have := maximum_ge hs.base.ordered hmax candidate (h1 candidate hc)
    rw [← e1, ← e2] at this
    exact absurd hgt (not_lt.mpr this)
  · exact h1

theorem searchLoopSpec_eq (env : Env F) (h : hnsw) (q : hnswVertex) (ef level : Int)
    (fuel : Nat) (s : SearchState F) (hs : SearchTrue env q.id ef s) :
    searchLoopSpec env h (some q) ef level fuel s = searchLoop env h (some q) ef level fuel s := by
  induction fuel generalizing s with
  | zero => rfl
  | succ fuel ih =>
    unfold searchLoopSpec searchLoop
    simp only
    cases hmin : s.candidates.minimum with
    | none => rfl
    | some c =>
      simp only
      cases hmax : s.results.maximum with
      | none => rfl
      | some worst =>
        simp only
        cases hw : distBetweenNodes env worst.index q.id with
        | error e => rfl
        | ok wd =>
          simp only
          cases hd : distBetweenNodes env c.index q.id with
          | error e => rfl
          | ok d =>
            simp only
            by_cases hgt : d > wd
            · have hfull := hs.true_full hmin hmax hw hd hgt
              rw [if_pos hgt, if_pos ⟨hgt, hfull⟩]
            · rw [if_neg hgt, if_neg (fun hh => hgt hh.1)]
              cases hn : h.nodeAt c.index with
              | none => rfl
              | some o =>
                cases o with
                | none => rfl
                | some cn =>
                  simp only
                  cases hv : visitNeighbors env q.id ef wd (cn.connections level)
                      ⟨s.visited, s.candidates.delete c.index c.dist, s.results⟩ with
                  | ok s' =>
                    simp only
                    exact ih s' (visitNeighbors_true env q.id ef wd _ _ s' (hs.true_pop c) hv)
                  | err e => rfl
                  | panic e => rfl
                  | fuel => rfl

end SearchBreak

/-- C19: for every `searchLayer` call whose entry points carry their true distance to the
query, (1) in every pass of the loop in which the closest remaining candidate is farther from
the query than the farthest result, `results` already holds at least `ef` entries, and
(2) the search with the early termination of the spec, `dist(c) > dist(f)` and
`len(results) ≥ ef`, is the search of the code, which breaks on the distance alone: same
result, same error. -/
theorem searchLayer_break_rule {F : Type} [LinearOrder F] (env : Env F) (h : hnsw)
    (q : hnswVertex) (entrypoints : binarySearchTreeGeneric F) (ef level : Int)
    (htrue : ∀ e ∈ entrypoints.flat, distBetweenNodes env e.index q.id = .ok e.dist) :
    (∀ (s : SearchState F) (candidate worst : Elem F) (worstResultDistance dist : F),
      LoopReach env h q entrypoints ef level s →
      s.candidates.minimum = some candidate →
      s.results.maximum = some worst →
      distBetweenNodes env worst.index q.id = .ok worstResultDistance →
      distBetweenNodes env candidate.index q.id = .ok dist →
      dist > worstResultDistance → s.results.len ≥ ef) ∧
    searchLayerSpec env h (some q) entrypoints ef level
      = searchLayer env h (some q) entrypoints ef level := by
  constructor
  · intro s candidate worst wd d hs hmin hmax hw hd hgt
    exact (hs.reach_true htrue).true_full hmin hmax hw hd hgt
  · exact searchLoopSpec_eq env h q ef level _ _ (searchInit_true env q.id ef entrypoints htrue)

/-- C19, at a concrete input where the early break happens: in `fourNodeIndex` the search
for the query node 1 from the entry point 2 at its true distance 50, with `ef = 1`. After
three passes `results` is `[1 at 0]` and the closest remaining candidate is node 3 at
distance 10, farther than the farthest result: the loop breaks, with `len(results) = 1 ≥ ef`,
and returns `[1 at 0]`. -/
theorem searchLayer_break_rule_witness :
    (∀ e ∈ (⟨[⟨2, 50⟩]⟩ : binarySearchTreeGeneric Int).flat,
      distBetweenNodes sampleEnv e.index (1 : Int) = .ok e.dist) ∧
    (LoopReach sampleEnv fourNodeIndex ⟨1, 0, fun _ => []⟩ ⟨[⟨2, 50⟩]⟩ 1 0
        ⟨[1, 3, 0, 2], ⟨[⟨3, 10⟩]⟩, ⟨[⟨1, 0⟩]⟩⟩ ∧
      distBetweenNodes sampleEnv 1 1 = .ok 0 ∧ distBetweenNodes sampleEnv 3 1 = .ok 10 ∧
      (10 : Int) > 0 ∧
      searchLayer sampleEnv fourNodeIndex (some ⟨1, 0, fun _ => []⟩) ⟨[⟨2, 50⟩]⟩ 1 0
        = .ok ⟨[⟨1, 0⟩]⟩) ∧
    ((∀ (s : SearchState Int) (candidate worst : Elem Int) (worstResultDistance dist : Int),
      LoopReach sampleEnv fourNodeIndex ⟨1, 0, fun _ => []⟩ ⟨[⟨2, 50⟩]⟩ 1 0 s →
      s.candidates.minimum = some candidate →
      s.results.maximum = some worst →
      distBetweenNodes sampleEnv worst.index 1 = .ok worstResultDistance →
      distBetweenNodes sampleEnv candidate.index 1 = .ok dist →
      dist > worstResultDistance → s.results.len ≥ 1) ∧
    searchLayerSpec sampleEnv fourNodeIndex (some ⟨1, 0, fun _ => []⟩) ⟨[⟨2, 50⟩]⟩ 1 0
      = searchLayer sampleEnv fourNodeIndex (some ⟨1, 0, fun _ => []⟩) ⟨[⟨2, 50⟩]⟩ 1 0) :=
  ⟨by intro e he; simp only [List.mem_singleton] at he; subst he; rfl,
   ⟨LoopReach.next ⟨[1, 3, 0, 2], ⟨[⟨1, 0⟩, ⟨3, 10⟩]⟩, ⟨[⟨1, 0⟩]⟩⟩ _ ⟨1, 0⟩ ⟨1, 0⟩ 0 0
      ((fourNodeIndex.nodes 1).get rfl)
      (LoopReach.next ⟨[0, 2], ⟨[⟨0, 25⟩]⟩, ⟨[⟨0, 25⟩]⟩⟩ _ ⟨0, 25⟩ ⟨0, 25⟩ 25 25
        ((fourNodeIndex.nodes 0).get rfl)
        (LoopReach.next ⟨[2], ⟨[⟨2, 50⟩]⟩, ⟨[⟨2, 50⟩]⟩⟩ _ ⟨2, 50⟩ ⟨2, 50⟩ 50 50
          ((fourNodeIndex.nodes 2).get rfl)
          LoopReach.init rfl rfl rfl rfl (by decide) rfl rfl)
        rfl rfl rfl rfl (by decide) rfl rfl)
      rfl rfl rfl rfl (by decide) rfl rfl,
    rfl, rfl, by decide, rfl⟩,
   searchLayer_break_rule sampleEnv fourNodeIndex ⟨1, 0, fun _ => []⟩ ⟨[⟨2, 50⟩]⟩ 1 0
    (by intro e he; simp only [List.mem_singleton] at he; subst he; rfl)⟩

end Hnsw

namespace Hnsw

open binarySearchTreeGeneric

section TrimLemmas

variable {F : Type} [LinearOrder F]

/-! ## Which ids the trim step keeps -/

theorem mem_insert_same {t : binarySearchTreeGeneric F} {i : Int} {d : F}
    (h : ∀ e ∈ t.flat, e.index = i → e = ⟨i, d⟩) : (⟨i, d⟩ : Elem F) ∈ (t.insert i d).flat := by
  unfold binarySearchTreeGeneric.insert
  split
  · rename_i ha
    obtain ⟨e, he, hi⟩ := List.any_eq_true.mp ha
    have hi' : e.index = i := by simpa using hi
    rw [← h e he hi']
    exact he
  · exact (mem_insertSorted _ _ _).mpr (Or.inl rfl)

theorem min_nonneg {a b : Int} (ha : 0 ≤ a) (hb : 0 ≤ b) : 0 ≤ Hnsw.min a b := by
  unfold Hnsw.min
  split <;> assumption

theorem min_of_lt {a b : Int} (h : b < a) : Hnsw.min a b = b := by
  unfold Hnsw.min
  split
  · omega
  · rfl

theorem u32_cast_inj {x y : U32} (h : (x.val : Int) = (y.val : Int)) : x = y :=
  Fin.ext (Int.ofNat_inj.mp h)

theorem fillFromIds_char (env : Env F) (nodeId : Int) (d : U32 → F) (ids : List U32) :
    ∀ (seen : List U32) (bst : binarySearchTreeGeneric F),
    (∀ x ∈ ids, distBetweenNodes env (x.val : Int) nodeId = .ok (d x)) →
    (∀ e ∈ bst.flat, ∃ x ∈ seen, e = ⟨(x.val : Int), d x⟩) →
    (∀ x ∈ seen, (⟨(x.val : Int), d x⟩ : Elem F) ∈ bst.flat) →
    ∃ bst', fillFromIds env nodeId ids bst = .ok bst' ∧
      (∀ e ∈ bst'.flat, ∃ x, (x ∈ seen ∨ x ∈ ids) ∧ e = ⟨(x.val : Int), d x⟩) ∧
      (∀ x, x ∈ seen ∨ x ∈ ids → (⟨(x.val : Int), d x⟩ : Elem F) ∈ bst'.flat) ∧
      (bst.Uniq → bst'.Uniq) ∧ (bst.Ordered → bst'.Ordered) ∧
      ((seen ++ ids).Nodup → bst.flat.length = seen.length →
        bst'.flat.length = seen.length + ids.length) := by
  induction ids with
  | nil =>
    intro seen bst hd h1 h2
    refine ⟨bst, rfl, ?_, ?_, id, id, ?_⟩
    · intro e he
      obtain ⟨x, hx, hxe⟩ := h1 e he
      exact ⟨x, Or.inl hx, hxe⟩
    · intro x hx
      rcases hx with hx | hx
      · exact h2 x hx
      · simp at hx
    · intro _ hl
      simpa using hl
  | cons a rest ih =>
    intro seen bst hd h1 h2
    have hda := hd a (List.mem_cons_self _ _)
    have hsame : ∀ e ∈ bst.flat, e.index = (a.val : Int) → e = ⟨(a.val : Int), d a⟩ := by
      intro e he hi
      obtain ⟨x, hx, hxe⟩ := h1 e he
      rw [hxe] at hi
      simp only at hi
      rw [hxe, u32_cast_inj hi]
    obtain ⟨bst', e1, e2, e3, e4, e5, e6⟩ := ih (seen ++ [a]) (bst.insert (a.val : Int) (d a))
      (fun x hx => hd x (List.mem_cons_of_mem _ hx))
      (by
        intro e he
        rcases mem_insert he with h3 | h3
        · exact ⟨a, by simp, h3⟩
        · obtain ⟨x, hx, hxe⟩ := h1 e h3
          exact ⟨x, by simp [hx], hxe⟩)
      (by
        intro x hx
        rcases List.mem_append.mp hx with h3 | h3
        · exact mem_insert_of_mem (h2 x h3)
        · simp only [List.mem_singleton] at h3
          rw [h3]
          exact mem_insert_same hsame)
    refine ⟨bst', ?_, ?_, ?_, fun hu => e4 (insert_uniq _ _ hu),
      fun ho => e5 (insert_ordered _ _ ho), ?_⟩
    · simp only [fillFromIds, hda]
      exact e1
    · intro e he
      obtain ⟨x, hx, hxe⟩ := e2 e he
      refine ⟨x, ?_, hxe⟩
      simp only [List.mem_append, List.mem_singleton, List.mem_cons] at hx ⊢
      tauto
    · intro x hx
      apply e3
      simp only [List.mem_append, List.mem_singleton, List.mem_cons] at hx ⊢
      tauto
    · intro hnd hl
      have hnd' : (seen ++ [a] ++ rest).Nodup := by simpa using hnd
      have hnew : ∀ e ∈ bst.flat, e.index ≠ (a.val : Int) := by
        intro e he hi
        obtain ⟨x, hx, hxe⟩ := h1 e he
        rw [hxe] at hi
        have hxa := u32_cast_inj hi
        rw [hxa] at hx
        have := (List.nodup_append.mp hnd).2.2
        exact this hx (List.mem_cons_self _ _) 
      have := e6 hnd' (by rw [length_insert_new _ hnew, hl]; simp)
      rw [this]
      simp
      omega

/-- The list `selectNeighborsSimpleFromId(nodeId, ids, max)` returns, when the distance of
every id to `nodeId` is defined (`d`) and `max` is not negative: ids of `ids`, none twice,
in ascending order of their distance to `nodeId` (ties by ascending id), every id left out
being after every id kept in that order; `max` ids when `ids` holds more than `max` ids,
none twice. -/
theorem selectNeighborsSimpleFromId_char (env : Env F) (nodeId : Int) (d : U32 → F)
    (ids : List U32) (max : Int) (hmax : 0 ≤ max)
    (hd : ∀ x ∈ ids, distBetweenNodes env (x.val : Int) nodeId = .ok (d x)) :
    ∃ upd, selectNeighborsSimpleFromId env nodeId ids max = .ok upd ∧
      (∀ x ∈ upd, x ∈ ids) ∧ upd.Nodup ∧
      upd.Pairwise (fun a b => ordLe (⟨(a.val : Int), d a⟩ : Elem F) ⟨(b.val : Int), d b⟩) ∧
      (∀ x ∈ ids, x ∉ upd → ∀ y ∈ upd,
        ordLe (⟨(y.val : Int), d y⟩ : Elem F) ⟨(x.val : Int), d x⟩) ∧
      (ids.Nodup → max < (ids.length : Int) → (upd.length : Int) = max) := by
  obtain ⟨bst, e1, e2, e3, e4, e5, e6⟩ := fillFromIds_char env nodeId d ids []
    (empty : binarySearchTreeGeneric F) hd (by simp [binarySearchTreeGeneric.empty])
    (by simp)
  have hu := e4 empty_uniq
  have ho := e5 empty_ordered
  have hg : ∀ e ∈ bst.flat, uint32 e.index ∈ ids ∧
      e = ⟨((uint32 e.index).val : Int), d (uint32 e.index)⟩ := by
    intro e he
    obtain ⟨x, hx, hxe⟩ := e2 e he
    simp only [List.not_mem_nil, false_or] at hx
    have : uint32 e.index = x := by rw [hxe]; exact uint32_val x
    rw [this]
    exact ⟨hx, hxe⟩
  have hsz : ¬ min (bst.flattenInOrder.length : Int) max < 0 := by
    have := min_nonneg (Int.ofNat_nonneg bst.flattenInOrder.length) hmax
    omega
  refine ⟨(bst.flat.take (min (bst.flat.length : Int) max).toNat).map
    (fun elem => uint32 elem.index), ?_, ?_, ?_, ?_, ?_, ?_⟩
  · simp only [selectNeighborsSimpleFromId, e1, selectNeighborsSimple]
    rw [if_neg hsz]
    rfl
  · intro x hx
    obtain ⟨e, he, hxe⟩ := List.mem_map.mp hx
    rw [← hxe]
    exact (hg e (List.mem_of_mem_take he)).1
  · apply List.Nodup.map_on
    · intro a ha b hb hab
      rw [(hg a (List.mem_of_mem_take ha)).2, (hg b (List.mem_of_mem_take hb)).2]
      simp only at hab
      rw [hab]
    · exact List.Nodup.sublist (List.take_sublist _ _) (uniq_flat_nodup hu)
  · rw [List.pairwise_map]
    have hp : (bst.flat.take (min (bst.flat.length : Int) max).toNat).Pairwise ordLe :=
      List.Pairwise.sublist (List.take_sublist _ _) ho
    refine List.Pairwise.imp_of_mem ?_ hp
    intro a b ha hb hab
    rw [← (hg a (List.mem_of_mem_take ha)).2, ← (hg b (List.mem_of_mem_take hb)).2]
    exact hab
  · intro x hx hxn y hy
    obtain ⟨ey, hey, hyey⟩ := List.mem_map.mp hy
    have hex := e3 x (Or.inr hx)
    have hsplit := List.take_append_drop (min (bst.flat.length : Int) max).toNat bst.flat
    have hexd : (⟨(x.val : Int), d x⟩ : Elem F)
        ∈ bst.flat.drop (min (bst.flat.length : Int) max).toNat := by
      rw [← hsplit] at hex
      rcases List.mem_append.mp hex with h1 | h1
      · exfalso
        apply hxn
        exact List.mem_map.mpr ⟨_, h1, by simp only [uint32_val]⟩
      · exact h1
    have hp : (bst.flat.take (min (bst.flat.length : Int) max).toNat
        ++ bst.flat.drop (min (bst.flat.length : Int) max).toNat).Pairwise ordLe := by
      rw [hsplit]; exact ho
    have := (List.pairwise_append.mp hp).2.2 ey hey _ hexd
    rw [(hg ey (List.mem_of_mem_take hey)).2] at this
    rw [hyey] at this
    exact this
  · intro hnd hlt
    have hl := e6 (by simpa using hnd) (by simp [binarySearchTreeGeneric.empty])
    simp only [List.length_nil, zero_add] at hl
    simp only [List.length_map, List.length_take, hl]
    rw [min_of_lt hlt]
    omega

end TrimLemmas

end Hnsw

namespace Hnsw

open binarySearchTreeGeneric

/-- C18, the code against the claim: with `maximumConnections = 2` (cap 4 at level 0) insert
the ids 0, 1, 2, 4, 5 and then 3 of `trimEnv`, each at level 0. Before the last insert node 0
lists `[1, 2, 4, 5]`; linking node 3 to node 0 makes node 0 exceed its cap, and the list
written by `ReplaceLinks` for node 0 is `[3, 2, 1, 5]`, which is what
`selectNeighborsSimpleFromId` returns when it measures to the inserted node 3. Measured to
node 0 itself, as the claim says, the list would be `[3, 1, 2, 4]`. The same happens with
`maximumConnections = 1` and the ids 0, 1, 2, 3: the code writes `[3, 2]` although node 1
(distance 325) is closer to node 0 than node 2 (distance 585). -/
theorem trim_diverges :
    (addAll trimEnv (New 2 10) [(0, 0), (1, 0), (2, 0), (4, 0), (5, 0)]).map
        (fun h => ((h.nodes 0).map (fun v => v.connections 0),
          h.commitLog.filter CommitRecord.isReplaceLinks))
      = some (some [1, 2, 4, 5], []) ∧
    (addAll trimEnv (New 2 10) [(0, 0), (1, 0), (2, 0), (4, 0), (5, 0), (3, 0)]).map
        (fun h => (h.commitLog.filter CommitRecord.isReplaceLinks,
          (h.nodes 0).map (fun v => v.connections 0)))
      = some ([CommitRecord.ReplaceLinks 0 0 [3, 2, 1, 5]], some [3, 2, 1, 5]) ∧
    selectNeighborsSimpleFromId trimEnv 3 [1, 2, 4, 5, 3] 4 = .ok [3, 2, 1, 5] ∧
    selectNeighborsSimpleFromId trimEnv 0 [1, 2, 4, 5, 3] 4 = .ok [3, 1, 2, 4] ∧
    (addAll trimEnv (New 1 10) [(0, 0), (1, 0), (2, 0), (3, 0)]).map
        (fun h => h.commitLog.filter CommitRecord.isReplaceLinks)
      = some [CommitRecord.ReplaceLinks 0 0 [3, 2]] ∧
    (addAll trimEnv (New 1 10) [(0, 0), (1, 0), (2, 0)]).map
        (fun h => (h.nodes 0).map (fun v => v.connections 0)) = some (some [1, 2]) ∧
    selectNeighborsSimpleFromId trimEnv 0 [1, 2, 3] 2 = .ok [3, 1] ∧
    distBetweenNodes trimEnv 1 0 = .ok 325 ∧ distBetweenNodes trimEnv 2 0 = .ok 585 ∧
    distBetweenNodes trimEnv 1 3 = .ok 845 ∧ distBetweenNodes trimEnv 2 3 = .ok 169 := by
  refine ⟨by decide, by decide, rfl, rfl, by decide, by decide, rfl, rfl, rfl, rfl, rfl⟩

/-- What the trim step computes as the code is written, with the id of the inserted node
handed to `selectNeighborsSimpleFromId`: whenever linking makes a neighbour `v` exceed its
degree cap `M ≥ 0` at level `l` during the insert of the node `nodeId`, and the distance of
every current level-`l` neighbour of `v` to `nodeId` is defined (`d`), the pass of the loop
goes on with `v`'s list replaced by a list `upd` that is written as the record
`ReplaceLinks v.id l upd`, where `upd` consists of current level-`l` neighbours of `v`, none
twice, in ascending order of their distance to `nodeId` (ties by ascending id), every
neighbour left out being after every neighbour kept in that order, and `upd` holds exactly
`M` ids when no current neighbour is listed twice. -/
theorem trim_keeps_closest_to_inserted {F : Type} [LinearOrder F] (env : Env F)
    (nodeId level : Int) (neighborID : U32) (rest : List U32) (h h2 : hnsw)
    (neighbor : hnswVertex) (currentConnections : List U32) (maximumConnections : Int)
    (d : U32 → F)
    (hn : h.nodeAt (neighborID.val : Int) = some (some neighbor))
    (hh2 : h2 = (h.linkAtLevel neighborID.val level (uint32 nodeId)).linkAtLevel
      nodeId.toNat level (uint32 neighbor.id))
    (hcur : currentConnections = h2.conn neighborID.val level)
    (hM : maximumConnections =
      if level = 0 then h2.maximumConnectionsLayerZero else h2.maximumConnections)
    (hover : ¬ (currentConnections.length : Int) ≤ maximumConnections)
    (hM0 : 0 ≤ maximumConnections)
    (hd : ∀ x ∈ currentConnections, distBetweenNodes env (x.val : Int) nodeId = .ok (d x)) :
    ∃ upd : List U32,
      linkNeighbors env nodeId level (neighborID :: rest) h
        = linkNeighbors env nodeId level rest (h2.replaceLinksAtLevel neighborID.val level upd) ∧
      (h2.replaceLinksAtLevel neighborID.val level upd).commitLog
        = h2.commitLog ++ [CommitRecord.ReplaceLinks neighbor.id level upd] ∧
      (h2.replaceLinksAtLevel neighborID.val level upd).conn neighborID.val level = upd ∧
      (∀ x ∈ upd, x ∈ currentConnections) ∧ upd.Nodup ∧
      upd.Pairwise (fun a b => ordLe (⟨(a.val : Int), d a⟩ : Elem F) ⟨(b.val : Int), d b⟩) ∧
      (∀ x ∈ currentConnections, x ∉ upd → ∀ y ∈ upd,
        ordLe (⟨(y.val : Int), d y⟩ : Elem F) ⟨(x.val : Int), d x⟩) ∧
      (currentConnections.Nodup → (upd.length : Int) = maximumConnections) := by
  obtain ⟨upd, e1, e2, e3, e4, e5, e6⟩ :=
    selectNeighborsSimpleFromId_char env nodeId d currentConnections maximumConnections hM0 hd
  have hnode : h.nodes neighborID.val = some neighbor := by
    have := (nodeAt_some hn).2.2
    simpa using this
  have hshape : SameShape h h2 := by
    rw [hh2]
    exact (linkAtLevel_shape _ _ _ _).trans (linkAtLevel_shape _ _ _ _)
  obtain ⟨v2, hv2, hid, _⟩ := hshape.node hnode
  refine ⟨upd, ?_, ?_, ?_, e2, e3, e4, e5, fun hnd => e6 hnd (by omega)⟩
  · subst hh2 hcur hM
    simp only [linkNeighbors, hn]
    rw [if_neg hover, e1]
  · rw [replaceLinks_log, hv2]
    simp only [hid]
  · rw [replaceLinks_conn, if_pos ⟨rfl, rfl, by rw [hv2]; rfl⟩]

/-- The trim step as the code is written, at a concrete input: the pass that links the
inserted node 3 to its neighbour 0, whose list `[1, 2, 3]` exceeds the cap 2. -/
theorem trim_keeps_closest_to_inserted_witness :
    ∃ upd : List U32,
      linkNeighbors trimEnv 3 0 [0] trimIndex
        = linkNeighbors trimEnv 3 0 []
          (((trimIndex.linkAtLevel 0 0 (uint32 3)).linkAtLevel 3 0 (uint32 0)).replaceLinksAtLevel
            0 0 upd) ∧
      (((trimIndex.linkAtLevel 0 0 (uint32 3)).linkAtLevel 3 0 (uint32 0)).replaceLinksAtLevel
          0 0 upd).commitLog
        = ((trimIndex.linkAtLevel 0 0 (uint32 3)).linkAtLevel 3 0 (uint32 0)).commitLog
          ++ [CommitRecord.ReplaceLinks 0 0 upd] ∧
      (((trimIndex.linkAtLevel 0 0 (uint32 3)).linkAtLevel 3 0 (uint32 0)).replaceLinksAtLevel
          0 0 upd).conn 0 0 = upd ∧
      (∀ x ∈ upd, x ∈ ([1, 2, 3] : List U32)) ∧ upd.Nodup ∧
      upd.Pairwise (fun a b =>
        ordLe (⟨(a.val : Int), trimDist a⟩ : Elem Int) ⟨(b.val : Int), trimDist b⟩) ∧
      (∀ x ∈ ([1, 2, 3] : List U32), x ∉ upd → ∀ y ∈ upd,
        ordLe (⟨(y.val : Int), trimDist y⟩ : Elem Int) ⟨(x.val : Int), trimDist x⟩) ∧
      (([1, 2, 3] : List U32).Nodup → (upd.length : Int) = 2) :=
  trim_keeps_closest_to_inserted trimEnv 3 0 0 [] trimIndex
    ((trimIndex.linkAtLevel 0 0 (uint32 3)).linkAtLevel 3 0 (uint32 0))
    ⟨0, 0, fun l => if l = 0 then [1, 2] else []⟩ [1, 2, 3] 2 trimDist
    rfl rfl rfl rfl (by decide) (by decide)
    (by
      intro x hx
      simp only [List.mem_cons, List.mem_singleton, List.not_mem_nil, or_false] at hx
      rcases hx with hx | hx | hx <;> subst hx <;> rfl)

end Hnsw

namespace Hnsw

open binarySearchTreeGeneric

section CleanLemmas

variable {F : Type} [LinearOrder F]

/-! ## No self-loops, no duplicates -/

theorem fillFromIds_uniq (env : Env F) (nodeId : Int) (ids : List U32)
    (bst bst' : binarySearchTreeGeneric F) (hu : bst.Uniq)
    (h : fillFromIds env nodeId ids bst = .ok bst') : bst'.Uniq := by
  induction ids generalizing bst with
  | nil =>
    simp only [fillFromIds, Except.ok.injEq] at h
    subst h
    exact hu
  | cons a rest ih =>
    unfold fillFromIds at h
    split at h
    · simp at h
    · exact ih _ (insert_uniq _ _ hu) h

/-- The ids `selectNeighborsSimple` returns are distinct when the input holds one entry per
id and every id is in the range of `uint32`. -/
theorem selectNeighborsSimple_nodup (nodeId : Int) (input : binarySearchTreeGeneric F)
    (max : Int) (out : List U32) (hu : input.Uniq)
    (hr : ∀ e ∈ input.flat, ∃ j : Nat, e.index = (j : Int) ∧ j < 4294967296)
    (h : selectNeighborsSimple nodeId input max = .ok out) : out.Nodup := by
  unfold selectNeighborsSimple at h
  simp only at h
  split at h
  · simp at h
  · simp only [Res.ok.injEq] at h
    subst h
    apply List.Nodup.map_on
    · intro a ha b hb hab
      have ha' := List.mem_of_mem_take ha
      have hb' := List.mem_of_mem_take hb
      obtain ⟨ja, hja, hla⟩ := hr a ha'
      obtain ⟨jb, hjb, hlb⟩ := hr b hb'
      apply uniq_eq_of_index hu ha' hb'
      have := congrArg Fin.val hab
      rw [hja, hjb, uint32_natCast ja hla, uint32_natCast jb hlb] at this
      rw [hja, hjb, this]
    · exact List.Nodup.sublist (List.take_sublist _ _) (uniq_flat_nodup hu)

theorem selectNeighborsSimpleFromId_nodup (env : Env F) (nodeId : Int) (ids : List U32)
    (max : Int) (upd : List U32)
    (h : selectNeighborsSimpleFromId env nodeId ids max = .ok upd) : upd.Nodup := by
  unfold selectNeighborsSimpleFromId at h
  split at h
  · simp at h
  · rename_i bst hfill
    apply selectNeighborsSimple_nodup nodeId bst max upd
      (fillFromIds_uniq env nodeId ids _ bst empty_uniq hfill) _ h
    intro e he
    rcases fillFromIds_mem env nodeId ids _ bst hfill e he with h1 | ⟨id, _, h1⟩
    · simp [binarySearchTreeGeneric.empty] at h1
    · exact ⟨id.val, h1, id.isLt⟩

/-- A successful `searchLayer` call returns a set with one entry per id. -/
theorem searchLayer_uniq (env : Env F) (h : hnsw) (q : Option hnswVertex)
    (eps r : binarySearchTreeGeneric F) (ef level : Int)
    (hr : searchLayer env h q eps ef level = .ok r) : r.Uniq := by
  obtain ⟨s', h1, h2⟩ := searchLoop_preserves env h q ef level SearchInv
    (fun s c hs _ => ⟨hs.visited, hs.uniq, hs.ordered⟩)
    (fun qid worst conns s s' hs hv => visitNeighbors_inv env qid ef worst conns s s' hs hv)
    _ _ r (searchInit_inv eps) hr
  rw [← h2]
  exact h1.uniq

theorem StepTo.lst_nodup {env : Env F} {nodeId L : Int} {h h' : hnsw} {nb : U32}
    {neighbor : hnswVertex} (st : StepTo env nodeId L h nb neighbor h')
    (hnb : h.nodes nb.val = some neighbor) (hk : (h.nodes nodeId.toNat).isSome = true)
    (hne : nb.val ≠ nodeId.toNat) (hnd : (h.conn nb.val L ++ [uint32 nodeId]).Nodup) :
    (h'.conn nb.val L).Nodup := by
  have hnbs : (h.nodes nb.val).isSome = true := by rw [hnb]; rfl
  have hc := twoLinks_conn h nb.val nodeId.toNat L (uint32 nodeId) (uint32 neighbor.id)
    hnbs hk hne
  rcases st with ⟨_, rfl⟩ | ⟨_, upd, hsel, rfl⟩
  · rw [hc]
    simp only [hne, and_false, if_false, and_self, if_true]
    exact hnd
  · have s2 := (linkAtLevel_shape h nb.val L (uint32 nodeId)).trans
      (linkAtLevel_shape _ nodeId.toNat L (uint32 neighbor.id))
    rw [replaceLinks_conn, if_pos ⟨rfl, rfl, by rw [s2.isSome]; exact hnbs⟩]
    exact selectNeighborsSimpleFromId_nodup env nodeId _ _ upd hsel

/-- One pass of the loop over the neighbours keeps the lists free of self-loops and
duplicates, as long as the neighbours are distinct and not yet linked to the new node. -/
theorem StepTo.clean {env : Env F} {nodeId L : Int} {h h' : hnsw} {nb : U32}
    {rest : List U32} {neighbor : hnswVertex} (st : StepTo env nodeId L h nb neighbor h')
    (hnb : h.nodes nb.val = some neighbor) (inv : LoopInv nodeId L h (nb :: rest))
    (hc : Clean h) (hnd : (nb :: rest).Nodup)
    (hnew : ∀ x ∈ nb :: rest, x ∉ h.conn nodeId.toNat L ∧ uint32 nodeId ∉ h.conn x.val L) :
    Clean h' ∧
    ∀ x ∈ rest, x ∉ h'.conn nodeId.toNat L ∧ uint32 nodeId ∉ h'.conn x.val L := by
  have hne : nb.val ≠ nodeId.toNat := (inv.restGood nb (by simp)).2
  obtain ⟨lst, hconn, _, hsub, _⟩ := st.spec hnb inv.node hne
  have hid : uint32 neighbor.id = nb := by
    rw [inv.ids.id_eq hnb]; exact uint32_val nb
  have huk : (uint32 nodeId).val = nodeId.toNat :=
    uint32_of_nonneg nodeId inv.nonneg (by
      have := inv.ids.lt inv.node
      have := inv.nonneg
      omega)
  have hnew0 := hnew nb (List.mem_cons_self _ _)
  have hlst : lst = h'.conn nb.val L := by
    rw [hconn, if_neg (fun e => hne e.2), if_pos ⟨rfl, rfl⟩]
  have hlnd : lst.Nodup := by
    rw [hlst]
    apply st.lst_nodup hnb inv.node hne
    rw [List.nodup_append]
    refine ⟨(hc nb.val L).1, List.nodup_singleton _, ?_⟩
    intro a ha hb
    simp only [List.mem_singleton] at hb
    rw [hb] at ha
    exact hnew0.2 ha
  constructor
  · intro i l
    rw [hconn]
    by_cases h1 : l = L ∧ i = nodeId.toNat
    · rw [if_pos h1, hid]
      obtain ⟨e1, e2⟩ := h1
      subst e1 e2
      constructor
      · rw [List.nodup_append]
        refine ⟨(hc _ _).1, List.nodup_singleton _, ?_⟩
        intro a ha hb
        simp only [List.mem_singleton] at hb
        rw [hb] at ha
        exact hnew0.1 ha
      · intro x hx
        rcases List.mem_append.mp hx with h2 | h2
        · exact (hc _ _).2 x h2
        · simp only [List.mem_singleton] at h2
          rw [h2]; exact hne
    · rw [if_neg h1]
      by_cases h2 : l = L ∧ i = nb.val
      · rw [if_pos h2]
        obtain ⟨e1, e2⟩ := h2
        subst e1 e2
        refine ⟨hlnd, ?_⟩
        intro x hx
        rcases hsub x hx with h3 | h3
        · exact (hc _ _).2 x h3
        · rw [h3, huk]; exact fun e => hne e.symm
      · rw [if_neg h2]
        exact hc i l
  · intro x hx
    have hxg := inv.restGood x (List.mem_cons_of_mem _ hx)
    have hxn := hnew x (List.mem_cons_of_mem _ hx)
    have hxnb : x ≠ nb := by
      intro e
      rw [e] at hx
      exact (List.nodup_cons.mp hnd).1 hx
    constructor
    · rw [hconn, if_pos ⟨rfl, rfl⟩, hid]
      intro hm
      rcases List.mem_append.mp hm with h2 | h2
      · exact hxn.1 h2
      · simp only [List.mem_singleton] at h2
        exact hxnb h2
    · rw [hconn, if_neg (fun e => hxg.2 e.2),
        if_neg (fun e => hxnb (Fin.ext e.2))]
      exact hxn.2

theorem linkNeighbors_clean (env : Env F) (nodeId L : Int) (ns : List U32) (h hf : hnsw)
    (inv : LoopInv nodeId L h ns) (hc : Clean h) (hnd : ns.Nodup)
    (hnew : ∀ x ∈ ns, x ∉ h.conn nodeId.toNat L ∧ uint32 nodeId ∉ h.conn x.val L)
    (hr : linkNeighbors env nodeId L ns h = (hf, .ok)) : Clean hf := by
  induction ns generalizing h with
  | nil =>
    simp only [linkNeighbors, Prod.mk.injEq, and_true] at hr
    subst hr
    exact hc
  | cons nb rest ih =>
    obtain ⟨neighbor, h', hnb, _, st, hrest⟩ := linkNeighbors_cons_ok env nodeId L nb rest h hf hr
    obtain ⟨c1, c2⟩ := st.clean hnb inv hc hnd hnew
    exact ih h' (st.loopInv hnb inv) c1 (List.nodup_cons.mp hnd).2 c2 hrest

theorem linkLevels_clean (env : Env F) (nodeId : Int) (n : Nat) (level : Int)
    (results : binarySearchTreeGeneric F) (h hf : hnsw)
    (inv : LevelInv nodeId h level results) (hc : Clean h)
    (hr : linkLevels env nodeId n level results h = (hf, .ok)) : Clean hf := by
  induction n generalizing level results h with
  | zero =>
    simp only [linkLevels, Prod.mk.injEq, and_true] at hr
    subst hr
    exact hc
  | succ n ih =>
    unfold linkLevels at hr
    split at hr
    · simp at hr
    · simp at hr
    · simp at hr
    · rename_i results' hsearch
      split at hr
      · simp at hr
      · simp at hr
      · simp at hr
      · rename_i neighbors hsel
        have hres := searchLayer_good env h _ _ level nodeId.toNat results results'
          inv.closed inv.noref inv.resGood hsearch
        have linv := inv.toLoop hres neighbors hsel
        have huk : (uint32 nodeId).val = nodeId.toNat :=
          uint32_of_nonneg nodeId inv.nonneg (by
            have := inv.ids.lt inv.node
            have := inv.nonneg
            omega)
        have hnd : neighbors.Nodup := by
          apply selectNeighborsSimple_nodup nodeId results' _ neighbors
            (searchLayer_uniq env h _ results results' _ level hsearch) _ hsel
          intro e he
          obtain ⟨j, hj, _, hp⟩ := hres e he
          exact ⟨j, hj, inv.ids.lt hp⟩
        have hnew : ∀ x ∈ neighbors,
            x ∉ h.conn nodeId.toNat level ∧ uint32 nodeId ∉ h.conn x.val level := by
          intro x _
          constructor
          · rw [inv.empty level (le_refl _)]
            simp
          · intro hm
            exact inv.noref x.val level _ (le_refl _) hm huk
        split at hr
        · rename_i h' hlink
          have l2 := linkNeighbors_loopInv env nodeId level neighbors h h' linv hlink
          have c2 := linkNeighbors_clean env nodeId level neighbors h h' linv hc hnd hnew hlink
          have s := linkNeighbors_shape env nodeId level neighbors h
          rw [hlink] at s
          exact ih _ _ _ (l2.toLevel (fun e he => (hres e he).good_of_shape s)) c2 hr
        · rename_i h' out hne hlink
          simp only [Prod.mk.injEq] at hr
          exact (hne hr.2).elim

end CleanLemmas

end Hnsw

namespace Hnsw

open binarySearchTreeGeneric

section CleanInsert

variable {F : Type} [LinearOrder F]

theorem clean_of_nodes_eq {h h' : hnsw} (e : h'.nodes = h.nodes) (hc : Clean h) : Clean h' := by
  intro i l
  have : h'.conn i l = h.conn i l := by simp only [hnsw.conn, e]
  rw [this]
  exact hc i l

theorem clean_skeleton (h : hnsw) (k : Nat) (v : hnswVertex) (log : List CommitRecord)
    (hv : ∀ l, v.connections l = []) (hc : Clean h) :
    Clean { h with nodes := Function.update h.nodes k (some v), commitLog := log } := by
  intro i l
  by_cases hi : i = k
  · subst hi
    simp [hnsw.conn, hv]
  · have : hnsw.conn { h with nodes := Function.update h.nodes k (some v), commitLog := log }
        i l = h.conn i l := by
      simp [hnsw.conn, Function.update_noteq hi]
    rw [this]
    exact hc i l

/-- A successful `insert` of an id whose slot is free keeps the lists free of self-loops and
duplicates. -/
theorem insert_clean (env : Env F) (h h' : hnsw) (node : hnswVertex) (targetLevel : Int)
    (inv : Inv h) (hc : Clean h) (hfree : 0 ≤ node.id → h.nodes node.id.toNat = none)
    (hr : insert env h node targetLevel = (h', .ok)) : Clean h' := by
  by_cases hz : h.nodesLen = 0
  · by_cases hrange : 0 ≤ node.id ∧ node.id < (importLimit : Int)
    · rw [insert_empty_ok env h node targetLevel hz hrange.1 hrange.2] at hr
      simp only [Prod.mk.injEq, and_true] at hr
      subst hr
      intro i l
      by_cases hi : i = node.id.toNat
      · subst hi; simp [hnsw.conn]
      · simp [hnsw.conn, Function.update_noteq hi]
    · have := insert_empty_panic env h node targetLevel hz hrange
      rw [hr] at this
      simp at this
  · obtain ⟨h0, h1, ep', dist, h3, hdesc, hlink, hfin⟩ :=
      insert_nonempty_ok env h h' node targetLevel hz hr
    have hfree' := hfree h0
    have hentry := inv.entry hz
    have hstart := fun (level : Int) (ep : Int) (hep : ∃ j : Nat, ep = (j : Int) ∧
        (h.nodes j).isSome = true) =>
      levelInv_start h node targetLevel level ep dist
        (h.commitLog ++ [CommitRecord.AddNode node.id targetLevel]) inv h0 h1 hfree'
        (fun hnr => (NoReplace.append hnr).1) hep
    have hepGood : Good { h with
          nodes := Function.update h.nodes node.id.toNat
            (some { node with level := targetLevel, connections := fun _ => [] })
          commitLog := h.commitLog ++ [CommitRecord.AddNode node.id targetLevel] }
        node.id.toNat h.entryPointID := by
      obtain ⟨hge, v, hv, _⟩ := hentry
      have hne : h.entryPointID.toNat ≠ node.id.toNat := by
        intro e; rw [e, hfree'] at hv; simp at hv
      refine ⟨h.entryPointID.toNat, by omega, hne, ?_⟩
      simp only
      rw [Function.update_noteq hne, hv]; rfl
    have hs0 := hstart 0 h.entryPointID (by
      obtain ⟨hge, v, hv, _⟩ := hentry
      exact ⟨h.entryPointID.toNat, by omega, by rw [hv]; rfl⟩)
    have hgood' := descend_good env _ node.id _ _ _ ep' hs0.2.1 hs0.2.2 hepGood hdesc
    have hep' : ∃ j : Nat, ep' = (j : Int) ∧ (h.nodes j).isSome = true := by
      obtain ⟨j, hj, hjk, hp⟩ := hgood'
      simp only at hp
      rw [Function.update_noteq hjk] at hp
      exact ⟨j, hj, hp⟩
    have hlevel := (hstart (min targetLevel h.currentMaximumLayer) ep' hep').1
    have hc2 := clean_skeleton h node.id.toNat
      { node with level := targetLevel, connections := fun _ => [] }
      (h.commitLog ++ [CommitRecord.AddNode node.id targetLevel]) (fun _ => rfl) hc
    have hc3 := linkLevels_clean env node.id _ _ _ _ h3 hlevel hc2 hlink
    rw [hfin]
    split
    · exact clean_of_nodes_eq rfl hc3
    · exact hc3

/-- After a run of successful inserts of pairwise distinct ids into free slots no adjacency
list holds a self-loop or a duplicate. -/
theorem addAll_clean (env : Env F) (xs : List (Int × Int)) (h h' : hnsw) (inv : Inv h)
    (hc : Clean h) (hnd : (xs.map Prod.fst).Nodup)
    (hfree : ∀ x ∈ xs, 0 ≤ x.1 → h.nodes x.1.toNat = none)
    (hr : addAll env h xs = some h') : Clean h' := by
  induction xs generalizing h with
  | nil =>
    simp only [addAll, Option.some.injEq] at hr
    subst hr
    exact hc
  | cons x rest ih =>
    obtain ⟨id, lvl⟩ := x
    unfold addAll at hr
    split at hr
    · rename_i h1 hadd
      unfold Add at hadd
      obtain ⟨inv1, h0, hlen, hmc, hpop⟩ := insert_inv env h h1 _ lvl inv
        (fun h0 => hfree (id, lvl) (by simp) h0) hadd
      have hc1 := insert_clean env h h1 _ lvl inv hc
        (fun h0 => hfree (id, lvl) (by simp) h0) hadd
      simp only at h0 hpop
      have hnd' : (rest.map Prod.fst).Nodup := (List.nodup_cons.mp hnd).2
      have hnotin : id ∉ rest.map Prod.fst := (List.nodup_cons.mp hnd).1
      have hfree1 : ∀ x ∈ rest, 0 ≤ x.1 → h1.nodes x.1.toNat = none := by
        intro x hx hx0
        have hne : x.1 ≠ id := by
          intro e
          exact hnotin (List.mem_map.mpr ⟨x, hx, e⟩)
        have hold := hfree x (List.mem_cons_of_mem _ hx) hx0
        cases hc : h1.nodes x.1.toNat with
        | none => rfl
        | some v =>
          have := (hpop x.1.toNat).mp (by rw [hc]; rfl)
          rcases this with e | e
          · exfalso; apply hne; omega
          · rw [hold] at e; simp at e
      exact ih h1 inv1 hc1 hnd' hfree1 hr
    · simp at hr

theorem clean_new (m ef : Int) : Clean (New m ef) := by
  intro i l
  simp [hnsw.conn, New]

end CleanInsert

/-- C11: after any sequence of successful sequential inserts with pairwise distinct ids, for
every populated node `n` and every level `l`, the list `n.connections[l]` does not contain
`n.id` and contains no id twice. -/
theorem no_self_loops_no_duplicates {F : Type} [LinearOrder F] (env : Env F) (m ef : Int)
    (xs : List (Int × Int)) (h : hnsw) (hnd : (xs.map Prod.fst).Nodup)
    (hr : addAll env (New m ef) xs = some h) :
    ∀ i n l, h.nodes i = some n →
      (∀ x ∈ n.connections l, (x.val : Int) ≠ n.id) ∧ uint32 n.id ∉ n.connections l ∧
      (n.connections l).Nodup := by
  obtain ⟨inv, _, _⟩ := addAll_inv env xs (New m ef) h (Inv.new m ef) hnd
    (fun _ _ _ => rfl) hr
  have hc := addAll_clean env xs (New m ef) h (Inv.new m ef) (clean_new m ef) hnd
    (fun _ _ _ => rfl) hr
  intro i n l hn
  have hcl := hc i l
  rw [conn_of_node hn] at hcl
  have hid := inv.ids.id_eq hn
  have hself : ∀ x ∈ n.connections l, (x.val : Int) ≠ n.id := by
    intro x hx e
    rw [hid] at e
    exact hcl.2 x hx (Int.ofNat_inj.mp e)
  refine ⟨hself, ?_, hcl.1⟩
  intro hm
  have hi : (h.nodes i).isSome = true := by rw [hn]; rfl
  have := hself _ hm
  rw [hid, uint32_natCast i (inv.ids.lt hi)] at this
  exact this rfl

/-- C11, at a concrete input: four inserts with `m = 1`, one of which trims node 0. -/
theorem no_self_loops_no_duplicates_witness :
    (([(0, 0), (1, 0), (2, 0), (3, 0)] : List (Int × Int)).map Prod.fst).Nodup ∧
    ∃ h, addAll sampleEnv (New 1 10) [(0, 0), (1, 0), (2, 0), (3, 0)] = some h ∧
      ∀ i n l, h.nodes i = some n →
        (∀ x ∈ n.connections l, (x.val : Int) ≠ n.id) ∧ uint32 n.id ∉ n.connections l ∧
        (n.connections l).Nodup := by
  have hs : (addAll sampleEnv (New 1 10) [(0, 0), (1, 0), (2, 0), (3, 0)]).isSome = true := by
    decide
  obtain ⟨h, hh⟩ := Option.isSome_iff_exists.mp hs
  exact ⟨by decide, h, hh, no_self_loops_no_duplicates sampleEnv 1 10 _ h (by decide) hh⟩

end Hnsw

namespace Hnsw

open binarySearchTreeGeneric

section KnnLemmas

variable {F : Type} [LinearOrder F]

/-! ## Search by id -/

theorem searchInit_len_ge (eps : binarySearchTreeGeneric F) (hne : eps.flat ≠ []) :
    1 ≤ (searchInit eps).results.len := by
  simp only [searchInit, flattenInOrder, len]
  cases hf : eps.flat with
  | nil => exact absurd hf hne
  | cons a l =>
    simp only [List.foldl]
    have h1 := length_foldl_insert_ge l ((empty : binarySearchTreeGeneric F).insert a.index a.dist)
    have h2 := length_insert_new (t := (empty : binarySearchTreeGeneric F)) (i := a.index) a.dist
      (by simp [binarySearchTreeGeneric.empty])
    simp only [binarySearchTreeGeneric.empty, List.length_nil] at h1 h2 ⊢
    omega

/-- A successful `searchLayer` call with at least one entry point returns at least one
entry. -/
theorem searchLayer_nonempty (env : Env F) (h : hnsw) (q : Option hnswVertex)
    (eps r : binarySearchTreeGeneric F) (ef level : Int) (hne : eps.flat ≠ [])
    (hr : searchLayer env h q eps ef level = .ok r) : 1 ≤ r.len := by
  obtain ⟨s', h1, h2⟩ := searchLoop_preserves env h q ef level
    (fun s => SearchInv s ∧ (1 : Int) ≤ s.results.len)
    (fun s c hs _ => ⟨⟨hs.1.visited, hs.1.uniq, hs.1.ordered⟩, hs.2⟩)
    (fun qid worst conns s s' hs hv => visitNeighbors_len_ge env qid ef worst 1 conns s s' hs hv)
    _ _ r ⟨searchInit_inv eps, searchInit_len_ge eps hne⟩ hr
  rw [← h2]
  exact h1.2

theorem single_flat (i : Int) (d : F) :
    ((empty : binarySearchTreeGeneric F).insert i d).flat = [⟨i, d⟩] := by
  simp [binarySearchTreeGeneric.insert, binarySearchTreeGeneric.empty, insertSorted]

/-- The populated slots after a run of successful inserts are those populated before and
those of the inserted ids. -/
theorem addAll_populated (env : Env F) (xs : List (Int × Int)) (h h' : hnsw) (inv : Inv h)
    (hnd : (xs.map Prod.fst).Nodup)
    (hfree : ∀ x ∈ xs, 0 ≤ x.1 → h.nodes x.1.toNat = none)
    (hr : addAll env h xs = some h') :
    ∀ j, (h'.nodes j).isSome = true →
      (h.nodes j).isSome = true ∨ ∃ x ∈ xs, 0 ≤ x.1 ∧ j = x.1.toNat := by
  induction xs generalizing h with
  | nil =>
    simp only [addAll, Option.some.injEq] at hr
    subst hr
    exact fun j hj => Or.inl hj
  | cons x rest ih =>
    obtain ⟨id, lvl⟩ := x
    unfold addAll at hr
    split at hr
    · rename_i h1 hadd
      unfold Add at hadd
      obtain ⟨inv1, h0, hlen, hmc, hpop⟩ := insert_inv env h h1 _ lvl inv
        (fun h0 => hfree (id, lvl) (by simp) h0) hadd
      simp only at h0 hpop
      have hnd' : (rest.map Prod.fst).Nodup := (List.nodup_cons.mp hnd).2
      have hnotin : id ∉ rest.map Prod.fst := (List.nodup_cons.mp hnd).1
      have hfree1 : ∀ x ∈ rest, 0 ≤ x.1 → h1.nodes x.1.toNat = none := by
        intro x hx hx0
        have hne : x.1 ≠ id := by
          intro e
          exact hnotin (List.mem_map.mpr ⟨x, hx, e⟩)
        have hold := hfree x (List.mem_cons_of_mem _ hx) hx0
        cases hc : h1.nodes x.1.toNat with
        | none => rfl
        | some v =>
          have := (hpop x.1.toNat).mp (by rw [hc]; rfl)
          rcases this with e | e
          · exfalso; apply hne; omega
          · rw [hold] at e; simp at e
      intro j hj
      rcases ih h1 inv1 hnd' hfree1 hr j hj with h2 | ⟨x, hx, hx0, hxj⟩
      · rcases (hpop j).mp h2 with h3 | h3
        · exact Or.inr ⟨(id, lvl), by simp, h0, h3⟩
        · exact Or.inl h3
      · exact Or.inr ⟨x, List.mem_cons_of_mem _ hx, hx0, hxj⟩
    · simp at hr

end KnnLemmas

end Hnsw

namespace Hnsw

open binarySearchTreeGeneric

section LayerZero

variable {F : Type} [LinearOrder F]

/-! ## The links of a new node at level 0 -/

theorem TrimmedSince.mono_right {l0 l1 l2 : List CommitRecord} {i L : Int}
    (h : TrimmedSince l0 l1 i L) (e : ∃ suf, l2 = l1 ++ suf) : TrimmedSince l0 l2 i L := by
  obtain ⟨upd, suf, h1, h2⟩ := h
  obtain ⟨suf', h3⟩ := e
  exact ⟨upd, suf ++ suf', by rw [h3, h1, List.append_assoc], List.mem_append_left _ h2⟩

theorem TrimmedSince.mono_left {l0 l1 l2 : List CommitRecord} {i L : Int}
    (e : ∃ suf, l1 = l0 ++ suf) (h : TrimmedSince l1 l2 i L) : TrimmedSince l0 l2 i L := by
  obtain ⟨upd, suf, h1, h2⟩ := h
  obtain ⟨suf', h3⟩ := e
  exact ⟨upd, suf' ++ suf, by rw [h1, h3, List.append_assoc], List.mem_append_right _ h2⟩

theorem StepTo.log_ext {env : Env F} {nodeId L : Int} {h h' : hnsw} {nb : U32}
    {neighbor : hnswVertex} (st : StepTo env nodeId L h nb neighbor h') :
    ∃ suf, h'.commitLog = h.commitLog ++ suf := by
  have s := log_ext_trans (linkAtLevel_log_ext h nb.val L (uint32 nodeId))
    (linkAtLevel_log_ext _ nodeId.toNat L (uint32 neighbor.id))
  rcases st with ⟨_, rfl⟩ | ⟨_, upd, _, rfl⟩
  · exact s
  · exact log_ext_trans s (replaceLinks_log_ext _ _ _ _)

/-- After one pass of the loop over the neighbours the neighbour lists the new node, or its
list was replaced in this pass. -/
theorem StepTo.linked {env : Env F} {nodeId L : Int} {h h' : hnsw} {nb : U32}
    {neighbor : hnswVertex} (st : StepTo env nodeId L h nb neighbor h')
    (hnb : h.nodes nb.val = some neighbor) (hk : (h.nodes nodeId.toNat).isSome = true)
    (hne : nb.val ≠ nodeId.toNat) :
    uint32 nodeId ∈ h'.conn nb.val L ∨ TrimmedSince h.commitLog h'.commitLog neighbor.id L := by
  have hnbs : (h.nodes nb.val).isSome = true := by rw [hnb]; rfl
  have hc := twoLinks_conn h nb.val nodeId.toNat L (uint32 nodeId) (uint32 neighbor.id)
    hnbs hk hne
  have s2 := (linkAtLevel_shape h nb.val L (uint32 nodeId)).trans
    (linkAtLevel_shape _ nodeId.toNat L (uint32 neighbor.id))
  have hlog := log_ext_trans (linkAtLevel_log_ext h nb.val L (uint32 nodeId))
    (linkAtLevel_log_ext _ nodeId.toNat L (uint32 neighbor.id))
  rcases st with ⟨_, rfl⟩ | ⟨_, upd, _, rfl⟩
  · left
    rw [hc]
    simp [hne]
  · right
    obtain ⟨v2, hv2, hid, _⟩ := s2.node hnb
    obtain ⟨suf, hsuf⟩ := hlog
    refine ⟨upd, suf ++ [CommitRecord.ReplaceLinks neighbor.id L upd], ?_, by simp⟩
    rw [replaceLinks_log, hv2, hsuf]
    simp only [hid, List.append_assoc]

/-- What the loop over the neighbours at a level leaves behind when it runs to the end: the
new node lists the neighbours in the order they were linked, the lists of other nodes are
untouched, and every neighbour lists the new node unless its list was replaced. -/
theorem linkNeighbors_linked (env : Env F) (nodeId L : Int) (ns : List U32) (h hf : hnsw)
    (inv : LoopInv nodeId L h ns) (hnd : ns.Nodup)
    (hr : linkNeighbors env nodeId L ns h = (hf, .ok)) :
    hf.conn nodeId.toNat L = h.conn nodeId.toNat L ++ ns ∧
    (∀ i l, i ≠ nodeId.toNat → (∀ x ∈ ns, x.val ≠ i) → hf.conn i l = h.conn i l) ∧
    ∀ nb ∈ ns, uint32 nodeId ∈ hf.conn nb.val L ∨
      TrimmedSince h.commitLog hf.commitLog (nb.val : Int) L := by
  induction ns generalizing h with
  | nil =>
    simp only [linkNeighbors, Prod.mk.injEq, and_true] at hr
    subst hr
    exact ⟨by simp, fun _ _ _ _ => rfl, fun nb hnb => by simp at hnb⟩
  | cons nb rest ih =>
    obtain ⟨neighbor, h', hnb, _, st, hrest⟩ := linkNeighbors_cons_ok env nodeId L nb rest h hf hr
    have hne : nb.val ≠ nodeId.toNat := (inv.restGood nb (by simp)).2
    obtain ⟨lst, hconn, _, _, _⟩ := st.spec hnb inv.node hne
    have hid : uint32 neighbor.id = nb := by
      rw [inv.ids.id_eq hnb]; exact uint32_val nb
    obtain ⟨e1, e2, e3⟩ := ih h' (st.loopInv hnb inv) (List.nodup_cons.mp hnd).2 hrest
    have hext' : ∃ suf, hf.commitLog = h'.commitLog ++ suf := by
      have := linkNeighbors_log_ext env nodeId L rest h'
      rw [hrest] at this
      exact this
    refine ⟨?_, ?_, ?_⟩
    · rw [e1, hconn, if_pos ⟨rfl, rfl⟩, hid]
      simp
    · intro i l hik hns
      have hinb : i ≠ nb.val := fun e => hns nb (List.mem_cons_self _ _) e.symm
      rw [e2 i l hik (fun x hx => hns x (List.mem_cons_of_mem _ hx)), hconn,
        if_neg (fun e => hik e.2), if_neg (fun e => hinb e.2)]
    · intro x hx
      rcases List.mem_cons.mp hx with hx | hx
      · subst hx
        rcases st.linked hnb inv.node hne with h1 | h1
        · left
          rw [e2 x.val L hne (fun y hy e => (List.nodup_cons.mp hnd).1 (by
            rw [← Fin.ext e]; exact hy))]
          exact h1
        · right
          rw [inv.ids.id_eq hnb] at h1
          exact h1.mono_right hext'
      · rcases e3 x hx with h1 | h1
        · exact Or.inl h1
        · exact Or.inr (TrimmedSince.mono_left st.log_ext h1)

theorem selectNeighborsSimple_nonempty (nodeId : Int) (input : binarySearchTreeGeneric F)
    (max : Int) (out : List U32) (hin : 1 ≤ input.len) (hmax : 1 ≤ max)
    (h : selectNeighborsSimple nodeId input max = .ok out) : out ≠ [] := by
  unfold selectNeighborsSimple at h
  simp only at h
  split at h
  · simp at h
  · simp only [Res.ok.injEq] at h
    subst h
    simp only [len, flattenInOrder] at *
    intro e
    have := congrArg List.length e
    simp only [List.length_map, List.length_take, List.length_nil] at this
    unfold Hnsw.min at this
    split at this <;> omega

/-- The last pass of the loop over the levels is the pass at level 0: when the loop runs to
the end, the new node has at least one neighbour at level 0, and each of them lists the new
node at level 0 unless its list was replaced in this loop. -/
theorem linkLevels_last (env : Env F) (nodeId : Int) (n : Nat) (level : Int)
    (results : binarySearchTreeGeneric F) (h hf : hnsw)
    (inv : LevelInv nodeId h level results) (hn : (n : Int) = level + 1) (hn1 : 1 ≤ n)
    (hres : results.flat ≠ []) (hm : 1 ≤ h.maximumConnections)
    (hr : linkLevels env nodeId n level results h = (hf, .ok)) :
    hf.conn nodeId.toNat 0 ≠ [] ∧
    ∀ nb ∈ hf.conn nodeId.toNat 0, (hf.nodes nb.val).isSome = true ∧
      (uint32 nodeId ∈ hf.conn nb.val 0 ∨
        TrimmedSince h.commitLog hf.commitLog (nb.val : Int) 0) := by
  induction n generalizing level results h with
  | zero => omega
  | succ n ih =>
    unfold linkLevels at hr
    split at hr
    · simp at hr
    · simp at hr
    · simp at hr
    · rename_i results' hsearch
      split at hr
      · simp at hr
      · simp at hr
      · simp at hr
      · rename_i neighbors hsel
        have hgood := searchLayer_good env h _ _ level nodeId.toNat results results'
          inv.closed inv.noref inv.resGood hsearch
        have linv := inv.toLoop hgood neighbors hsel
        have hne' := searchLayer_nonempty env h _ results results' _ level hres hsearch
        have hnd : neighbors.Nodup := by
          apply selectNeighborsSimple_nodup nodeId results' _ neighbors
            (searchLayer_uniq env h _ results results' _ level hsearch) _ hsel
          intro e he
          obtain ⟨j, hj, _, hp⟩ := hgood e he
          exact ⟨j, hj, inv.ids.lt hp⟩
        split at hr
        · rename_i h' hlink
          have l2 := linkNeighbors_loopInv env nodeId level neighbors h h' linv hlink
          have s := linkNeighbors_shape env nodeId level neighbors h
          rw [hlink] at s
          have hext : ∃ suf, h'.commitLog = h.commitLog ++ suf := by
            have := linkNeighbors_log_ext env nodeId level neighbors h
            rw [hlink] at this
            exact this
          by_cases hz : n = 0
          · subst hz
            have hl0 : level = 0 := by omega
            subst hl0
            simp only [linkLevels, Prod.mk.injEq, and_true] at hr
            subst hr
            obtain ⟨e1, _, e3⟩ := linkNeighbors_linked env nodeId 0 neighbors h h' linv hnd hlink
            rw [inv.empty 0 (le_refl _), List.nil_append] at e1
            rw [e1]
            refine ⟨selectNeighborsSimple_nonempty nodeId results' _ neighbors hne' hm hsel, ?_⟩
            intro nb hnb
            refine ⟨?_, e3 nb hnb⟩
            rw [s.isSome]
            exact (linv.restGood nb hnb).1
          · have hres' : results'.flat ≠ [] := by
              intro e
              simp only [len, e, List.length_nil] at hne'
              omega
            obtain ⟨r1, r2⟩ := ih (level - 1) results' h'
              (l2.toLevel (fun e he => (hgood e he).good_of_shape s))
              (by push_cast at hn ⊢; omega) (by omega) hres' (by rw [s.1]; exact hm) hr
            refine ⟨r1, fun nb hnb => ⟨(r2 nb hnb).1, ?_⟩⟩
            rcases (r2 nb hnb).2 with h1 | h1
            · exact Or.inl h1
            · exact Or.inr (TrimmedSince.mono_left hext h1)
        · rename_i h' out hne hlink
          simp only [Prod.mk.injEq] at hr
          exact (hne hr.2).elim

end LayerZero

end Hnsw

namespace Hnsw

open binarySearchTreeGeneric

section LayerZeroInsert

variable {F : Type} [LinearOrder F]

theorem addAll_maxLayer_nonneg (env : Env F) (xs : List (Int × Int)) (h h' : hnsw)
    (hZ : h.nodesLen = 0 → h.currentMaximumLayer = 0) (h0 : 0 ≤ h.currentMaximumLayer)
    (hr : addAll env h xs = some h') : 0 ≤ h'.currentMaximumLayer := by
  induction xs generalizing h with
  | nil =>
    simp only [addAll, Option.some.injEq] at hr
    subst hr
    exact h0
  | cons x rest ih =>
    obtain ⟨id, lvl⟩ := x
    have hstep := insert_maxLayer env h { id := id, level := 0, connections := fun _ => [] }
      lvl hZ
    unfold addAll at hr
    split at hr
    · rename_i h1 hadd
      unfold Add at hadd
      rw [hadd] at hstep
      exact ih h1 hstep.2 (le_trans h0 hstep.1) hr
    · simp at hr

/-- A successful `insert` of a fresh id at a drawn level `≥ 0` into a non-empty index with
`maximumConnections ≥ 1` and maximum layer `≥ 0` gives the new node at least one neighbour
at level 0, and each of them lists the new node at level 0 unless its list was replaced
during this insert. -/
theorem insert_layer_zero (env : Env F) (h h' : hnsw) (node : hnswVertex) (targetLevel : Int)
    (inv : Inv h) (hfree : 0 ≤ node.id → h.nodes node.id.toNat = none)
    (hz : h.nodesLen ≠ 0) (hm : 1 ≤ h.maximumConnections) (hl : 0 ≤ targetLevel)
    (hcml : 0 ≤ h.currentMaximumLayer)
    (hr : insert env h node targetLevel = (h', .ok)) :
    h'.conn node.id.toNat 0 ≠ [] ∧
    ∀ nb ∈ h'.conn node.id.toNat 0, (h'.nodes nb.val).isSome = true ∧
      (uint32 node.id ∈ h'.conn nb.val 0 ∨
        TrimmedSince h.commitLog h'.commitLog (nb.val : Int) 0) := by
  obtain ⟨h0, h1, ep', dist, h3, hdesc, hlink, hfin⟩ :=
    insert_nonempty_ok env h h' node targetLevel hz hr
  have hfree' := hfree h0
  have hentry := inv.entry hz
  have hstart := fun (level : Int) (ep : Int) (hep : ∃ j : Nat, ep = (j : Int) ∧
      (h.nodes j).isSome = true) =>
    levelInv_start h node targetLevel level ep dist
      (h.commitLog ++ [CommitRecord.AddNode node.id targetLevel]) inv h0 h1 hfree'
      (fun hnr => (NoReplace.append hnr).1) hep
  have hepGood : Good { h with
        nodes := Function.update h.nodes node.id.toNat
          (some { node with level := targetLevel, connections := fun _ => [] })
        commitLog := h.commitLog ++ [CommitRecord.AddNode node.id targetLevel] }
      node.id.toNat h.entryPointID := by
    obtain ⟨hge, v, hv, _⟩ := hentry
    have hne : h.entryPointID.toNat ≠ node.id.toNat := by
      intro e; rw [e, hfree'] at hv; simp at hv
    refine ⟨h.entryPointID.toNat, by omega, hne, ?_⟩
    simp only
    rw [Function.update_noteq hne, hv]; rfl
  have hs0 := hstart 0 h.entryPointID (by
    obtain ⟨hge, v, hv, _⟩ := hentry
    exact ⟨h.entryPointID.toNat, by omega, by rw [hv]; rfl⟩)
  have hgood' := descend_good env _ node.id _ _ _ ep' hs0.2.1 hs0.2.2 hepGood hdesc
  have hep' : ∃ j : Nat, ep' = (j : Int) ∧ (h.nodes j).isSome = true := by
    obtain ⟨j, hj, hjk, hp⟩ := hgood'
    simp only at hp
    rw [Function.update_noteq hjk] at hp
    exact ⟨j, hj, hp⟩
  have hlevel := (hstart (min targetLevel h.currentMaximumLayer) ep' hep').1
  have hmin : 0 ≤ min targetLevel h.currentMaximumLayer := by
    unfold Hnsw.min
    split <;> assumption
  obtain ⟨r1, r2⟩ := linkLevels_last env node.id _ _ _ _ h3 hlevel
    (by omega) (by omega) (by rw [single_flat]; simp) hm hlink
  have hbase : ∀ (i : Int) (log : List CommitRecord),
      TrimmedSince (h.commitLog ++ [CommitRecord.AddNode node.id targetLevel]) log i 0 →
      TrimmedSince h.commitLog log i 0 :=
    fun i log t => TrimmedSince.mono_left ⟨_, rfl⟩ t
  simp only at r2
  rw [hfin]
  split
  · refine ⟨r1, fun nb hnb => ⟨(r2 nb hnb).1, ?_⟩⟩
    rcases (r2 nb hnb).2 with h2 | h2
    · exact Or.inl h2
    · exact Or.inr ((hbase _ _ h2).mono_right ⟨_, rfl⟩)
  · refine ⟨r1, fun nb hnb => ⟨(r2 nb hnb).1, ?_⟩⟩
    rcases (r2 nb hnb).2 with h2 | h2
    · exact Or.inl h2
    · exact Or.inr (hbase _ _ h2)

end LayerZeroInsert

/-- C17 (fails as stated): (1) after inserting id 0 and then id 1 with a drawn level of -1,
both inserts returning nil, node 1 has level -1 and no neighbour at level 0, node 0 has none
either, and `knnSearch(0, 2, 10)` returns `[0]`; (2) in `tieEnv`, where the ids 0 to 3 have
the same vector, after inserting 0, 1, 2, 3 at level 0 with `maximumConnections = 1` the only
level-0 neighbour of node 3 is node 0, whose list was trimmed to `[1, 2]` and does not hold
node 3. -/
theorem layer_zero_counterexample :
    (addAll sampleEnv (New 1 10) [(0, 0), (1, -1)]).map
        (fun h => ((h.nodes 0).map (fun v => v.connections 0),
          (h.nodes 1).map (fun v => (v.level, v.connections 0)),
          match knnSearch sampleEnv h 0 2 10 with
          | .ok out => some out
          | _ => none))
      = some (some [], some (-1, []), some [0]) ∧
    (addAll tieEnv (New 1 10) [(0, 0), (1, 0), (2, 0), (3, 0)]).map
        (fun h => ((h.nodes 3).map (fun v => v.connections 0),
          (h.nodes 0).map (fun v => v.connections 0)))
      = some (some [0], some [1, 2]) := by
  constructor
  · decide
  · decide

/-- C17 (amended): for every insert of a fresh id with a drawn level `≥ 0` into a non-empty
index built by successful sequential inserts with pairwise distinct ids and
`maximumConnections ≥ 1`, if the insert returns nil then the new node ends with at least one
level-0 neighbour, and every level-0 neighbour of the new node is a node that lists the new
node at level 0 unless its own level-0 list was replaced (trimmed) during this insert. -/
theorem insert_links_at_layer_zero {F : Type} [LinearOrder F] (env : Env F) (m ef : Int)
    (xs : List (Int × Int)) (h h' : hnsw) (id targetLevel : Int)
    (hm : 1 ≤ m) (hne : xs ≠ []) (hnd : (xs.map Prod.fst).Nodup)
    (hfresh : id ∉ xs.map Prod.fst)
    (hr : addAll env (New m ef) xs = some h) (hl : 0 ≤ targetLevel)
    (hadd : Add env h id targetLevel = (h', .ok)) :
    ∃ n, h'.nodes id.toNat = some n ∧ n.id = id ∧ n.connections 0 ≠ [] ∧
      ∀ x ∈ n.connections 0, ∃ v, h'.nodes x.val = some v ∧ v.id = (x.val : Int) ∧
        (uint32 id ∈ v.connections 0 ∨ TrimmedSince h.commitLog h'.commitLog v.id 0) := by
  obtain ⟨inv, hmc, hlen⟩ := addAll_inv env xs (New m ef) h (Inv.new m ef) hnd
    (fun _ _ _ => rfl) hr
  have hpop := addAll_populated env xs (New m ef) h (Inv.new m ef) hnd (fun _ _ _ => rfl) hr
  have hcml := addAll_maxLayer_nonneg env xs (New m ef) h (fun _ => rfl) (le_refl _) hr
  have hfree : 0 ≤ id → h.nodes id.toNat = none := by
    intro h0
    cases hc : h.nodes id.toNat with
    | none => rfl
    | some v =>
      exfalso
      rcases hpop id.toNat (by rw [hc]; rfl) with h1 | ⟨x, hx, hx0, hxj⟩
      · simp [New] at h1
      · apply hfresh
        refine List.mem_map.mpr ⟨x, hx, ?_⟩
        omega
  unfold Add at hadd
  obtain ⟨inv', h0, _, _, hpop'⟩ := insert_inv env h h' _ targetLevel inv hfree hadd
  obtain ⟨r1, r2⟩ := insert_layer_zero env h h' _ targetLevel inv hfree (hlen hne)
    (by rw [hmc.1]; exact hm) hl hcml hadd
  simp only at r1 r2 h0 hpop'
  obtain ⟨n, hn⟩ := Option.isSome_iff_exists.mp ((hpop' id.toNat).mpr (Or.inl rfl))
  have hnid : n.id = id := by
    rw [inv'.ids.id_eq hn]
    omega
  rw [conn_of_node hn] at r1 r2
  refine ⟨n, hn, hnid, r1, ?_⟩
  intro x hx
  obtain ⟨hp, hlk⟩ := r2 x hx
  obtain ⟨v, hv⟩ := Option.isSome_iff_exists.mp hp
  have hvid := inv'.ids.id_eq hv
  rw [conn_of_node hv, ← hvid] at hlk
  exact ⟨v, hv, hvid, hlk⟩

/-- C17 (amended), at a concrete input: id 1 inserted at level 0 into the index holding id 0.
Afterwards the nodes 0 and 1 are each other's level-0 neighbours and
`knnSearch(0, 2, 10) = [0, 1]`. -/
theorem insert_links_at_layer_zero_witness :
    (∃ n, (Add sampleEnv (Add sampleEnv (New 1 10) 0 0).1 1 0).1.nodes (1 : Int).toNat = some n ∧
      n.id = 1 ∧ n.connections 0 ≠ [] ∧
      ∀ x ∈ n.connections 0, ∃ v,
        (Add sampleEnv (Add sampleEnv (New 1 10) 0 0).1 1 0).1.nodes x.val = some v ∧
        v.id = (x.val : Int) ∧
        (uint32 1 ∈ v.connections 0 ∨
          TrimmedSince (Add sampleEnv (New 1 10) 0 0).1.commitLog
            (Add sampleEnv (Add sampleEnv (New 1 10) 0 0).1 1 0).1.commitLog v.id 0)) ∧
    (addAll sampleEnv (New 1 10) [(0, 0), (1, 0)]).map
        (fun h => ((h.nodes 0).map (fun v => v.connections 0),
          (h.nodes 1).map (fun v => v.connections 0),
          match knnSearch sampleEnv h 0 2 10 with
          | .ok out => some out
          | _ => none))
      = some (some [1], some [0], some [0, 1]) :=
  ⟨insert_links_at_layer_zero sampleEnv 1 10 [(0, 0)] (Add sampleEnv (New 1 10) 0 0).1
      (Add sampleEnv (Add sampleEnv (New 1 10) 0 0).1 1 0).1 1 0
      (by decide) (by decide) (by decide) (by decide) rfl (by decide) rfl,
    by decide⟩

end Hnsw

namespace Hnsw

open binarySearchTreeGeneric

section NeverLosesGround

variable {F : Type} [LinearOrder F]

/-! ## The closest result of `searchLayer` -/

theorem mem_delete_of_ne {t : binarySearchTreeGeneric F} {i : Int} {d : F} {e : Elem F}
    (h : e ∈ t.flat) (hne : ¬ (e.index = i ∧ e.dist = d)) : e ∈ (t.delete i d).flat := by
  unfold binarySearchTreeGeneric.delete
  simp only
  refine List.mem_filter.mpr ⟨h, ?_⟩
  by_cases h1 : e.index = i
  · have h2 : ¬ e.dist = d := fun h2 => hne ⟨h1, h2⟩
    simp [h1, h2]
  · simp [h1]

theorem mem_foldl_insert_of_mem (l : List (Elem F)) (t : binarySearchTreeGeneric F)
    (e : Elem F) (h : e ∈ t.flat) :
    e ∈ (l.foldl (fun t ep => t.insert ep.index ep.dist) t).flat := by
  induction l generalizing t with
  | nil => exact h
  | cons a l ih => exact ih _ (mem_insert_of_mem h)

theorem insert_has_index (t : binarySearchTreeGeneric F) (i : Int) (d : F) :
    ∃ b ∈ (t.insert i d).flat, b.index = i := by
  unfold binarySearchTreeGeneric.insert
  split
  · rename_i ha
    obtain ⟨e, he, hi⟩ := List.any_eq_true.mp ha
    exact ⟨e, he, by simpa using hi⟩
  · exact ⟨⟨i, d⟩, (mem_insertSorted _ _ _).mpr (Or.inl rfl), rfl⟩

/-- Every id among the entries inserted one by one ends up in the set. -/
theorem foldl_insert_covers (l : List (Elem F)) (t : binarySearchTreeGeneric F) :
    ∀ e ∈ l, ∃ b ∈ (l.foldl (fun t ep => t.insert ep.index ep.dist) t).flat,
      b.index = e.index := by
  induction l generalizing t with
  | nil => intro e he; simp at he
  | cons a l ih =>
    intro e he
    simp only [List.foldl]
    rcases List.mem_cons.mp he with h1 | h1
    · obtain ⟨b, hb, hbi⟩ := insert_has_index t a.index a.dist
      exact ⟨b, mem_foldl_insert_of_mem l _ b hb, by rw [hbi, h1]⟩
    · exact ih _ e h1

/-- The first entry of a set enumerated in order is at most as far as every entry. -/
theorem minimum_le {t : binarySearchTreeGeneric F} (h : t.Ordered) {best : Elem F}
    (hm : t.minimum = some best) : ∀ e ∈ t.flat, best.dist ≤ e.dist := by
  unfold minimum at hm
  unfold Ordered at h
  cases hf : t.flat with
  | nil => rw [hf] at hm; simp at hm
  | cons a l =>
    rw [hf] at hm h
    simp only [List.head?_cons, Option.some.injEq] at hm
    subst hm
    intro e he
    rcases List.mem_cons.mp he with h1 | h1
    · rw [h1]
    · exact ordLe_dist ((List.pairwise_cons.mp h).1 e h1)

/-- Dropping the farthest result after a new id was inserted keeps a result within any
distance that a result was within before. -/
theorem near_repl {s : SearchState F} (hs : SearchInv s) {nb : U32} (hv : nb ∉ s.visited)
    (d : F) {mx : Elem F} (hm : (s.results.insert (nb.val : Int) d).maximum = some mx)
    (D : F) (hb : ∃ b ∈ s.results.flat, b.dist ≤ D) :
    ∃ b ∈ ((s.results.insert (nb.val : Int) d).delete mx.index mx.dist).flat, b.dist ≤ D := by
  obtain ⟨b, hb, hbD⟩ := hb
  have hb' : b ∈ (s.results.insert (nb.val : Int) d).flat := mem_insert_of_mem hb
  by_cases hbm : b.index = mx.index ∧ b.dist = mx.dist
  · have hlen := len_repl hs hv d hm
    have hpos : 0 < s.results.flat.length := List.length_pos_of_mem hb
    simp only [len] at hlen
    have hne : ((s.results.insert (nb.val : Int) d).delete mx.index mx.dist).flat ≠ [] := by
      intro e
      rw [e] at hlen
      simp only [List.length_nil] at hlen
      omega
    obtain ⟨c, hc⟩ := List.exists_mem_of_ne_nil _ hne
    have hge := maximum_ge (insert_ordered (nb.val : Int) d hs.ordered) hm c (mem_delete hc)
    exact ⟨c, hc, le_trans hge (by rw [← hbm.2]; exact hbD)⟩
  · exact ⟨b, mem_delete_of_ne hb' hbm, hbD⟩

theorem visitNeighbors_near (env : Env F) (queryId ef : Int) (worst : F) (D : F)
    (conns : List U32) (s s' : SearchState F)
    (hs : SearchInv s ∧ ∃ b ∈ s.results.flat, b.dist ≤ D)
    (h : visitNeighbors env queryId ef worst conns s = .ok s') :
    SearchInv s' ∧ ∃ b ∈ s'.results.flat, b.dist ≤ D :=
  visitNeighbors_preserves env queryId ef worst
    (fun s => SearchInv s ∧ ∃ b ∈ s.results.flat, b.dist ≤ D)
    (fun s nb _ hs => ⟨hs.1.inv_skip nb _, hs.2⟩)
    (fun s nb d hv hs _ _ => ⟨hs.1.inv_add nb d _, by
      obtain ⟨b, hb, hbD⟩ := hs.2
      exact ⟨b, mem_insert_of_mem hb, hbD⟩⟩)
    (fun s nb d mx hv hs _ _ hm => ⟨hs.1.inv_repl nb d _ mx, near_repl hs.1 hv d hm D hs.2⟩)
    conns s s' hs h

/-- A successful `searchLayer` call returns a set enumerated in order that holds, for every
distance `D` an entry of the loop's initial `results` was within, an entry within `D`. -/
theorem searchLayer_near (env : Env F) (h : hnsw) (q : Option hnswVertex)
    (eps r : binarySearchTreeGeneric F) (ef level : Int) (D : F)
    (hD : ∃ b ∈ (searchInit eps).results.flat, b.dist ≤ D)
    (hr : searchLayer env h q eps ef level = .ok r) :
    r.Ordered ∧ ∃ b ∈ r.flat, b.dist ≤ D := by
  obtain ⟨s', h1, h2⟩ := searchLoop_preserves env h q ef level
    (fun s => SearchInv s ∧ ∃ b ∈ s.results.flat, b.dist ≤ D)
    (fun s c hs _ => ⟨⟨hs.1.visited, hs.1.uniq, hs.1.ordered⟩, hs.2⟩)
    (fun qid worst conns s s' hs hv => visitNeighbors_near env qid ef worst D conns s s' hs hv)
    _ _ r ⟨searchInit_inv eps, hD⟩ hr
  rw [← h2]
  exact ⟨h1.1.ordered, h1.2⟩

/-- With entry points at their true distance, the loop's initial `results` holds every entry
point's id at the entry point's distance. -/
theorem searchInit_near (env : Env F) (queryId : Int) (eps : binarySearchTreeGeneric F)
    (htrue : ∀ e ∈ eps.flat, distBetweenNodes env e.index queryId = .ok e.dist) :
    ∀ e ∈ eps.flat, ∃ b ∈ (searchInit eps).results.flat, b.dist ≤ e.dist := by
  intro e he
  obtain ⟨b, hb, hbi⟩ := foldl_insert_covers eps.flat (empty : binarySearchTreeGeneric F) e he
  refine ⟨b, hb, ?_⟩
  rcases mem_foldl_insert _ _ _ hb with h1 | h1
  · have e1 := htrue b h1
    have e2 := htrue e he
    rw [hbi, e2] at e1
    simp only [Except.ok.injEq] at e1
    rw [e1]
  · simp [binarySearchTreeGeneric.empty] at h1

/-- The `res.minimum()` dereferences after the `searchLayer` calls of the descents in
`insert` and `knnSearch`, which start from a single entry point, never meet nil. -/
theorem searchLayer_single_minimum (env : Env F) (h : hnsw) (q : Option hnswVertex)
    (ep : Int) (d : F) (ef level : Int) (res : binarySearchTreeGeneric F)
    (hr : searchLayer env h q ((empty : binarySearchTreeGeneric F).insert ep d) ef level
      = .ok res) : ∃ best, res.minimum = some best := by
  have hlen := searchLayer_nonempty env h q _ res ef level (by rw [single_flat]; simp) hr
  cases hmin : res.minimum with
  | none =>
    exfalso
    simp only [minimum, List.head?_eq_none_iff] at hmin
    simp only [len, hmin, List.length_nil] at hlen
    omega
  | some best => exact ⟨best, rfl⟩

end NeverLosesGround

/-- C21: for every successful `searchLayer` call with a non-empty set of entry points
carrying their true distances to the query, and every `ef` (so also every `ef ≥ 1`), the
returned set is non-empty: `res.minimum()` is an entry `best`, no entry of the returned set
is closer than `best`, and `best` is at a distance less than or equal to the distance of
every entry point, so also of the closest one. -/
theorem searchLayer_never_loses_ground {F : Type} [LinearOrder F] (env : Env F) (h : hnsw)
    (q : hnswVertex) (entrypoints r : binarySearchTreeGeneric F) (ef level : Int)
    (hne : entrypoints.flat ≠ [])
    (htrue : ∀ e ∈ entrypoints.flat, distBetweenNodes env e.index q.id = .ok e.dist)
    (hr : searchLayer env h (some q) entrypoints ef level = .ok r) :
    ∃ best, r.minimum = some best ∧ (∀ e ∈ r.flat, best.dist ≤ e.dist) ∧
      ∀ e ∈ entrypoints.flat, best.dist ≤ e.dist := by
  have hlen := searchLayer_nonempty env h (some q) entrypoints r ef level hne hr
  obtain ⟨e0, he0⟩ := List.exists_mem_of_ne_nil _ hne
  have hord := (searchLayer_near env h (some q) entrypoints r ef level e0.dist
    (searchInit_near env q.id entrypoints htrue e0 he0) hr).1
  cases hmin : r.minimum with
  | none =>
    exfalso
    simp only [minimum, List.head?_eq_none_iff] at hmin
    simp only [len, hmin, List.length_nil] at hlen
    omega
  | some best =>
    refine ⟨best, rfl, minimum_le hord hmin, ?_⟩
    intro e he
    obtain ⟨_, b, hb, hbe⟩ := searchLayer_near env h (some q) entrypoints r ef level e.dist
      (searchInit_near env q.id entrypoints htrue e he) hr
    exact le_trans (minimum_le hord hmin b hb) hbe

/-- C21, at a concrete input: in the index holding the ids 0 and 1, the search for the query
node 0 from the entry point 1 at its true distance 25, with `ef = 1`, returns node 0 at
distance 0. -/
theorem searchLayer_never_loses_ground_witness :
    (⟨[⟨1, 25⟩]⟩ : binarySearchTreeGeneric Int).flat ≠ [] ∧
    (∀ e ∈ (⟨[⟨1, 25⟩]⟩ : binarySearchTreeGeneric Int).flat,
      distBetweenNodes sampleEnv e.index (0 : Int) = .ok e.dist) ∧
    searchLayer sampleEnv (Add sampleEnv (Add sampleEnv (New 1 10) 0 0).1 1 0).1
        (some ⟨0, 0, fun _ => []⟩) ⟨[⟨1, 25⟩]⟩ 1 0 = .ok ⟨[⟨0, 0⟩]⟩ ∧
    ∃ best, (⟨[⟨0, 0⟩]⟩ : binarySearchTreeGeneric Int).minimum = some best ∧
      (∀ e ∈ (⟨[⟨0, 0⟩]⟩ : binarySearchTreeGeneric Int).flat, best.dist ≤ e.dist) ∧
      ∀ e ∈ (⟨[⟨1, 25⟩]⟩ : binarySearchTreeGeneric Int).flat, best.dist ≤ e.dist :=
  ⟨by decide,
   by intro e he; simp only [List.mem_singleton] at he; subst he; rfl,
   rfl,
   searchLayer_never_loses_ground sampleEnv
    (Add sampleEnv (Add sampleEnv (New 1 10) 0 0).1 1 0).1 ⟨0, 0, fun _ => []⟩
    ⟨[⟨1, 25⟩]⟩ ⟨[⟨0, 0⟩]⟩ 1 0 (by decide)
    (by intro e he; simp only [List.mem_singleton] at he; subst he; rfl) rfl⟩

end Hnsw

namespace Hnsw

open binarySearchTreeGeneric

section SymLemmas

variable {F : Type} [LinearOrder F]

/-! ## Symmetry up to trims -/

end SymLemmas

end Hnsw
